import Mathlib

/-! # cpz: FEN parser, nibble-packed board codec and move-token packer

A shallow embedding of `parse.c` and theorems about it.

Conventions of the embedding.

* A C string is handed over as a pointer and a length; the code never reads at or
  beyond `ptr + length`, so the pair is a `List Char` holding exactly the `length`
  characters (the length is the list's length). The read cursor `pos` of `ParseFen` is
  the suffix that is still unread: `pos < fenString + fenLength` is `pos ≠ []`, `*pos` is
  the head and `++pos` the tail.
* Unsigned machine integers are `Nat`; a store into a narrower object is written with an
  explicit `% 2 ^ w` (`uint8_t`: 256, `uint16_t`: 65536, the bit-fields of `Board`: 128,
  4096, 16, 2).
* `Board.Data` is the array `uint8_t Data[32]`; an access whose byte index is 32 or more
  is outside the array (undefined behaviour in C) and is reported as `none`.
* A `char` is a `Char` and its value is `Char.toNat`; the code compares characters with
  ASCII constants only, so a byte above 127 behaves the same whether `char` is signed or
  not.
* The read cursor of `ParseMoveString` is an offset into the text. Its whitespace loop
  hands the pointer to `isspace`, not the character: the behaviour of that call is
  undefined, and what the call does is a parameter of the model. `ParseMoveString` and
  `moveRun` are the runs in which every call returns, the parameter giving its truth
  value at each offset; `moveRunCall` is the run in which a call may fault as well.
* Every loop is a structural recursion: on the text that is left, on the number of
  squares still to clear, on the number of free slots of the output array, and for
  `moveRun` and `moveRunCall`, which keep the loop test of the source, on a budget of
  loop tests.
* The cursor steps of `ParseFen` are counted beside the model, block by block: one for
  each `++pos`, two for `pos += 2`.
-/

namespace Cpz

/-! ## Constants -/

def BOARD_DATA_EMPTY : Nat := 0
def BOARD_DATA_WHITE_KING : Nat := 1
def BOARD_DATA_WHITE_QUEEN : Nat := 2
def BOARD_DATA_WHITE_ROOK : Nat := 3
def BOARD_DATA_WHITE_BISHOP : Nat := 4
def BOARD_DATA_WHITE_KNIGHT : Nat := 5
def BOARD_DATA_WHITE_PAWN : Nat := 6
def BOARD_DATA_WHITE_PAWN_EP_CAPTURABLE : Nat := 7
def BOARD_DATA_BLACK_KING : Nat := 9
def BOARD_DATA_BLACK_QUEEN : Nat := 10
def BOARD_DATA_BLACK_ROOK : Nat := 11
def BOARD_DATA_BLACK_BISHOP : Nat := 12
def BOARD_DATA_BLACK_KNIGHT : Nat := 13
def BOARD_DATA_BLACK_PAWN : Nat := 14
def BOARD_DATA_BLACK_PAWN_EP_CAPTURABLE : Nat := 15

def CASTLING_KINGSIDE_WHITE : Nat := 1
def CASTLING_QUEENSIDE_WHITE : Nat := 2
def CASTLING_KINGSIDE_BLACK : Nat := 4
def CASTLING_QUEENSIDE_BLACK : Nat := 8

def PROMOTION_PIECE_QUEEN : Nat := 0
def PROMOTION_PIECE_ROOK : Nat := 1
def PROMOTION_PIECE_KNIGHT : Nat := 2
def PROMOTION_PIECE_BISHOP : Nat := 3

def PLAYER_MOVE_WHITE : Nat := 0
def PLAYER_MOVE_BLACK : Nat := 1

def FILE_A : Nat := 0
def FILE_D : Nat := 3
def FILE_E : Nat := 4
def FILE_H : Nat := 7
def RANK_1 : Nat := 0
def RANK_4 : Nat := 3
def RANK_5 : Nat := 4
def RANK_8 : Nat := 7

def PARSE_SUCCESS : Int := 0
def PARSE_ERROR_SYNTAX_ERROR : Int := -1
def PARSE_ERROR_INVALID_BOARD_STATE : Int := -2
def PARSE_ERROR_INCOMPLETE_FEN : Int := -3

/-! ## Board and its accessors -/

/-- The struct `Board`: 32 data bytes and the four bit-fields (the padding bits are
never read or written and are left out). -/
structure Board where
  Data : Fin 32 → Nat
  HalfmoveClock : Nat
  FullmoveCounter : Nat
  CastlingRights : Nat
  PlayerMove : Nat

/-- `BoardGetSquare`: the nibble of square `rank * 8 + file`; `none` when the byte read
lies outside `Data[32]`. -/
def BoardGetSquare (board : Board) (file rank : Nat) : Option Nat :=
  let square_index := rank * 8 + file
  let byte_index := square_index / 2
  let is_upper_nibble := square_index % 2
  if h : byte_index < 32 then
    if is_upper_nibble ≠ 0 then
      some ((board.Data ⟨byte_index, h⟩ >>> 4) &&& 0x0F)
    else
      some (board.Data ⟨byte_index, h⟩ &&& 0x0F)
  else none

/-- `BoardSetSquare`: stores `piece` in the nibble of square `rank * 8 + file`, the byte
being truncated to 8 bits on the store; `none` when the byte written lies outside
`Data[32]`. -/
def BoardSetSquare (board : Board) (file rank piece : Nat) : Option Board :=
  let square_index := rank * 8 + file
  let byte_index := square_index / 2
  let is_upper_nibble := square_index % 2
  if h : byte_index < 32 then
    let value :=
      if is_upper_nibble ≠ 0 then
        ((board.Data ⟨byte_index, h⟩ &&& 0x0F) ||| (piece <<< 4)) % 256
      else
        ((board.Data ⟨byte_index, h⟩ &&& 0xF0) ||| piece) % 256
    some { board with Data := fun j => if j.val = byte_index then value else board.Data j }
  else none

/-! ## Character classes of `<ctype.h>` (C locale) -/

/-- `isspace`: space, and the control characters tab, newline, vertical tab, form feed,
carriage return (codes 9 to 13). -/
def isspace (c : Char) : Bool := c.toNat = 32 || (9 ≤ c.toNat && c.toNat ≤ 13)

/-- `isdigit`: the characters 0 to 9 (codes 48 to 57). -/
def isdigit (c : Char) : Bool := 48 ≤ c.toNat && c.toNat ≤ 57

/-! ## ParseFen -/

/-- How a block of `ParseFen` ends: control goes on with a value, the function returns
a code (the board is the state of `*board` at the return), or a store left `Data[32]`. -/
inductive Flow (α : Type) where
  | next (a : α) : Flow α
  | ret (code : Int) (board : Board) : Flow α
  | fault : Flow α

/-- Sequencing of two blocks. -/
def Flow.bind {α β : Type} (x : Flow α) (f : α → Flow β) : Flow β :=
  match x with
  | .next a => f a
  | .ret code board => .ret code board
  | .fault => .fault

/-- The loop `while (pos < fenString + fenLength && isspace(*pos)) ++pos;`. -/
def skipSpace (pos : List Char) : List Char := pos.dropWhile isspace

/-- The twelve piece letters of the board-layout `switch`. -/
def layoutPiece : Char → Option Nat
  | 'K' => some BOARD_DATA_WHITE_KING
  | 'Q' => some BOARD_DATA_WHITE_QUEEN
  | 'R' => some BOARD_DATA_WHITE_ROOK
  | 'B' => some BOARD_DATA_WHITE_BISHOP
  | 'N' => some BOARD_DATA_WHITE_KNIGHT
  | 'P' => some BOARD_DATA_WHITE_PAWN
  | 'k' => some BOARD_DATA_BLACK_KING
  | 'q' => some BOARD_DATA_BLACK_QUEEN
  | 'r' => some BOARD_DATA_BLACK_ROOK
  | 'b' => some BOARD_DATA_BLACK_BISHOP
  | 'n' => some BOARD_DATA_BLACK_KNIGHT
  | 'p' => some BOARD_DATA_BLACK_PAWN
  | _ => none

/-- The loop `for (i = 0; i < emptySquares; i++) BoardSetSquare(board, file++, rank, EMPTY)`;
gives the file reached and the board. -/
def fillEmpty : Nat → Nat → Nat → Board → Option (Nat × Board)
  | 0, file, _, board => some (file, board)
  | n + 1, file, rank, board =>
    match BoardSetSquare board file rank BOARD_DATA_EMPTY with
    | none => none
    | some b => fillEmpty n (file + 1) rank b

/-- One pass of the body of the board-layout loop (source lines 202 to 267) on the
character `c` under the cursor: the rank, file and board after it. -/
def layoutBody (c : Char) (rank file : Nat) (board : Board) : Flow (Nat × Nat × Board) :=
  if file > 8 then .ret PARSE_ERROR_INVALID_BOARD_STATE board
  else
    match layoutPiece c with
    | some piece =>
      match BoardSetSquare board file rank piece with
      | none => .fault
      | some b => .next (rank, file + 1, b)
    | none =>
      if 49 ≤ c.toNat ∧ c.toNat ≤ 56 then
        let emptySquares := c.toNat - 48
        if file + emptySquares > 8 then .ret PARSE_ERROR_INVALID_BOARD_STATE board
        else
          match fillEmpty emptySquares file rank board with
          | none => .fault
          | some (file1, b) => .next (rank, file1, b)
      else if c = '/' then
        if file ≤ FILE_H then .ret PARSE_ERROR_INVALID_BOARD_STATE board
        else if rank = RANK_1 then .ret PARSE_ERROR_INVALID_BOARD_STATE board
        else .next (rank - 1, FILE_A, board)
      else .ret PARSE_ERROR_SYNTAX_ERROR board

/-- The board-layout loop (source lines 201 to 268), from the cursor, rank and file it
is entered with. -/
def parseBoardState : List Char → Nat → Nat → Board → Flow (List Char × Board)
  | [], _, _, board => .next ([], board)
  | c :: cs, rank, file, board =>
    if isspace c then .next (c :: cs, board)
    else
      match layoutBody c rank file board with
      | .next (rank1, file1, b) => parseBoardState cs rank1 file1 b
      | .ret code b => .ret code b
      | .fault => .fault

/-- The active-colour block (source lines 275 to 289). -/
def parsePlayerMove (pos : List Char) (board : Board) : Flow (List Char × Board) :=
  match pos with
  | [] => .next ([], board)
  | c :: cs =>
    if c = 'w' ∨ c = 'W' then .next (cs, { board with PlayerMove := PLAYER_MOVE_WHITE })
    else if c = 'b' ∨ c = 'B' then .next (cs, { board with PlayerMove := PLAYER_MOVE_BLACK })
    else .ret PARSE_ERROR_SYNTAX_ERROR board

/-- The flag of one castling letter; `none` is the `default:` case. -/
def castlingFlag : Char → Option Nat
  | 'K' => some CASTLING_KINGSIDE_WHITE
  | 'Q' => some CASTLING_QUEENSIDE_WHITE
  | 'k' => some CASTLING_KINGSIDE_BLACK
  | 'q' => some CASTLING_QUEENSIDE_BLACK
  | _ => none

/-- The loop over the castling letters (source lines 301 to 319); the flag is or-ed into
the 4-bit field. -/
def castlingLoop : List Char → Board → Flow (List Char × Board)
  | [], board => .next ([], board)
  | c :: cs, board =>
    if isspace c then .next (c :: cs, board)
    else
      match castlingFlag c with
      | some flag =>
        castlingLoop cs { board with CastlingRights := (board.CastlingRights ||| flag) % 16 }
      | none => .ret PARSE_ERROR_SYNTAX_ERROR board

/-- The castling block (source lines 296 to 321): the field is cleared first, whether
or not any text is left. -/
def parseCastling (pos : List Char) (board : Board) : Flow (List Char × Board) :=
  let board := { board with CastlingRights := 0 }
  match pos with
  | [] => .next ([], board)
  | c :: cs => if c = '-' then .next (cs, board) else castlingLoop (c :: cs) board

/-- The en-passant block (source lines 328 to 355). -/
def parseEnPassant (pos : List Char) (board : Board) : Flow (List Char × Board) :=
  match pos with
  | [] => .next ([], board)
  | c :: cs =>
    if c = '-' then .next (cs, board)
    else
      match cs with
      | [] => .ret PARSE_ERROR_SYNTAX_ERROR board
      | rankChar :: rest =>
        let fileChar := c
        if fileChar.toNat < 97 ∨ fileChar.toNat > 104 then .ret PARSE_ERROR_SYNTAX_ERROR board
        else if rankChar = '3' then
          match BoardSetSquare board (fileChar.toNat - 97) RANK_4
              BOARD_DATA_WHITE_PAWN_EP_CAPTURABLE with
          | none => .fault
          | some b => .next (rest, b)
        else if rankChar = '6' then
          match BoardSetSquare board (fileChar.toNat - 97) RANK_5
              BOARD_DATA_BLACK_PAWN_EP_CAPTURABLE with
          | none => .fault
          | some b => .next (rest, b)
        else .ret PARSE_ERROR_SYNTAX_ERROR board

/-- The digit loop of the halfmove clock (source lines 364 to 367); the sum is stored
in a 7-bit field. -/
def halfmoveDigits : List Char → Board → List Char × Board
  | [], board => ([], board)
  | c :: cs, board =>
    if isdigit c then
      halfmoveDigits cs
        { board with HalfmoveClock := (board.HalfmoveClock * 10 + (c.toNat - 48)) % 128 }
    else (c :: cs, board)

/-- The halfmove-clock block (source lines 362 to 368). -/
def parseHalfmove (pos : List Char) (board : Board) : List Char × Board :=
  match pos with
  | [] => ([], board)
  | c :: cs => halfmoveDigits (c :: cs) { board with HalfmoveClock := 0 }

/-- The digit loop of the fullmove counter (source lines 377 to 380); the sum is stored
in a 12-bit field. -/
def fullmoveDigits : List Char → Board → List Char × Board
  | [], board => ([], board)
  | c :: cs, board =>
    if isdigit c then
      fullmoveDigits cs
        { board with FullmoveCounter := (board.FullmoveCounter * 10 + (c.toNat - 48)) % 4096 }
    else (c :: cs, board)

/-- The fullmove-counter block (source lines 375 to 384); the flag is `allFieldsParsed`. -/
def parseFullmove (pos : List Char) (board : Board) : List Char × Board × Bool :=
  match pos with
  | [] => ([], board, false)
  | c :: cs =>
    let r := fullmoveDigits (c :: cs) { board with FullmoveCounter := 0 }
    let b := if r.2.FullmoveCounter = 0 then { r.2 with FullmoveCounter := 1 } else r.2
    (r.1, b, true)

/-- `ParseFen` from the whitespace loop before the halfmove-clock block up to the
fullmove-counter block (source lines 357 to 372). -/
def fieldsFromHalfmove (pos : List Char) (board : Board) : Flow (List Char × Board) :=
  let t := parseHalfmove (skipSpace pos) board
  .next (skipSpace t.1, t.2)

/-- `ParseFen` from the whitespace loop before the en-passant block up to the
fullmove-counter block (source lines 323 to 372): the cursor and the board with which
the fullmove-counter block is entered. -/
def fieldsFromEnPassant (pos : List Char) (board : Board) : Flow (List Char × Board) :=
  (parseEnPassant (skipSpace pos) board).bind fun s => fieldsFromHalfmove s.1 s.2

/-- `ParseFen` from the whitespace loop before the castling block up to the
fullmove-counter block (source lines 291 to 372). -/
def fieldsFromCastling (pos : List Char) (board : Board) : Flow (List Char × Board) :=
  (parseCastling (skipSpace pos) board).bind fun s => fieldsFromEnPassant s.1 s.2

/-- `ParseFen` from the whitespace loop before the active-colour block up to the
fullmove-counter block (source lines 270 to 372). -/
def fieldsFromPlayerMove (pos : List Char) (board : Board) : Flow (List Char × Board) :=
  (parsePlayerMove (skipSpace pos) board).bind fun s => fieldsFromCastling s.1 s.2

/-- `ParseFen` up to the fullmove-counter block (source lines 191 to 372): the cursor
and the board with which that block is entered. -/
def parseFenFields (fen : List Char) (board : Board) : Flow (List Char × Board) :=
  (parseBoardState (skipSpace fen) RANK_8 FILE_A board).bind fun s =>
    fieldsFromPlayerMove s.1 s.2

/-- The end of `ParseFen` (source lines 374 to 389) after the blocks before it: the
fullmove-counter block and the final `return`. -/
def finishFen (x : Flow (List Char × Board)) : Option (Int × Board) :=
  match x with
  | .fault => none
  | .ret code b => some (code, b)
  | .next s =>
    let r := parseFullmove s.1 s.2
    if r.2.2 then some (PARSE_SUCCESS, r.2.1) else some (PARSE_ERROR_INCOMPLETE_FEN, r.2.1)

/-- `ParseFen(fenString, fenLength, board)`: the code returned and the board left
behind; `none` when a store went outside `Data[32]`. -/
def ParseFen (fen : List Char) (board : Board) : Option (Int × Board) :=
  finishFen (parseFenFields fen board)

/-! ## ParseMoveString -/

/-- The value of `c - base` converted to `unsigned int` (`File` and `Rank` are
`unsigned int`): a character below `base` wraps to a large value. -/
def charOffset (c : Char) (base : Nat) : Nat := (c.toNat + 2 ^ 32 - base) % 2 ^ 32

/-- The four coordinate characters of a token (source lines 102 to 128), or-ed one after
the other into the 16-bit `move`; `none` is `return PARSE_ERROR_SYNTAX_ERROR`. The fourth
step stores `sourceFile << 4`, as the source does. -/
def packCoordinates (c0 c1 c2 c3 : Char) : Option Nat :=
  let move := 0
  let sourceFile := charOffset c0 97
  if sourceFile < 8 then
    let move := (move ||| (sourceFile <<< 13)) % 65536
    let sourceRank := charOffset c1 49
    if sourceRank < 8 then
      let move := (move ||| (sourceRank <<< 10)) % 65536
      let destFile := charOffset c2 97
      if destFile < 8 then
        let move := (move ||| (destFile <<< 7)) % 65536
        let destRank := charOffset c3 49
        if destRank < 8 then
          some ((move ||| (sourceFile <<< 4)) % 65536)
        else none
      else none
    else none
  else none

/-- The promotion `switch` on the fifth character; `none` is the `default:` case. -/
def promotionPiece : Char → Option Nat
  | 'Q' => some PROMOTION_PIECE_QUEEN
  | 'q' => some PROMOTION_PIECE_QUEEN
  | 'R' => some PROMOTION_PIECE_ROOK
  | 'r' => some PROMOTION_PIECE_ROOK
  | 'N' => some PROMOTION_PIECE_KNIGHT
  | 'n' => some PROMOTION_PIECE_KNIGHT
  | 'B' => some PROMOTION_PIECE_BISHOP
  | 'b' => some PROMOTION_PIECE_BISHOP
  | _ => none

/-- The character at offset `i` of the move text (`pos[k]` with `pos` at offset `i - k`);
every read of the source is guarded by a comparison with `moveString + moveLength`. -/
def charAt (moveString : List Char) (i : Nat) : Char := moveString.getD i (Char.ofNat 0)

/-- The loop `while (pos < moveString + moveLength && isspace(pos)) pos++;`. The source
passes the pointer `pos` itself to `isspace`, not the character it points to, so the
test depends on the address and not on the text: `ptrIsSpace i` stands for the value of
`isspace(moveString + i)`. The first argument is `moveLength - pos`. The argument of the
call is no character code, so its behaviour is undefined; this is the loop of a run in
which every call returns, and `skipPtrSpaceCall` is the loop with calls that may fault. -/
def skipPtrSpace (ptrIsSpace : Nat → Bool) : Nat → Nat → Nat
  | 0, pos => pos
  | remaining + 1, pos =>
    if ptrIsSpace pos then skipPtrSpace ptrIsSpace remaining (pos + 1) else pos

/-- The main loop of `ParseMoveString` (source lines 94 to 155). The first argument is
`maxMoves - idx`, `pos` is the offset of the cursor and `Moves` the codes stored so far
(`Moves[0]`, ..., `Moves[idx - 1]`). The cursor is moved by the whitespace loop only. -/
def moveLoop (ptrIsSpace : Nat → Bool) (moveString : List Char) :
    Nat → Nat → List Nat → Int × List Nat
  | 0, _, Moves => (0, Moves)
  | slots + 1, pos, Moves =>
    if pos < moveString.length ∧ (charAt moveString pos).toNat ≠ 0 then
      let pos := skipPtrSpace ptrIsSpace (moveString.length - pos) pos
      let coordinates :=
        if pos + 3 < moveString.length then
          packCoordinates (charAt moveString pos) (charAt moveString (pos + 1))
            (charAt moveString (pos + 2)) (charAt moveString (pos + 3))
        else some 0
      match coordinates with
      | none => (PARSE_ERROR_SYNTAX_ERROR, Moves)
      | some move =>
        let promoted :=
          if pos + 4 < moveString.length ∧ isspace (charAt moveString (pos + 4)) = false then
            match promotionPiece (charAt moveString (pos + 4)) with
            | some piece => some ((move ||| (piece <<< 2)) % 65536)
            | none => none
          else some move
        match promoted with
        | none => (PARSE_ERROR_SYNTAX_ERROR, Moves)
        | some move => moveLoop ptrIsSpace moveString slots pos (Moves ++ [move])
    else (0, Moves)

/-- `ParseMoveString(moveString, moveLength, Moves, maxMoves)` in a run in which every
call `isspace(pos)` returns: the code returned and the codes stored in `Moves[0 ..]`, in
the order of their indices. -/
def ParseMoveString (ptrIsSpace : Nat → Bool) (moveString : List Char) (maxMoves : Nat) :
    Int × List Nat :=
  moveLoop ptrIsSpace moveString maxMoves 0 []

/-! ## The words of the specification -/

/-- The letters that place a piece. -/
def pieceLetters : List Char := ['K', 'Q', 'R', 'B', 'N', 'P', 'k', 'q', 'r', 'b', 'n', 'p']

/-- The digits that stand for empty squares. -/
def rankDigits : List Char := ['1', '2', '3', '4', '5', '6', '7', '8']

/-- Piece code of a letter as the data model numbers them: white K Q R B N P are 1 to 6,
black k q r b n p are 9 to 14. -/
def pieceCode (c : Char) : Nat :=
  if c = 'K' then 1 else if c = 'Q' then 2 else if c = 'R' then 3
  else if c = 'B' then 4 else if c = 'N' then 5 else if c = 'P' then 6
  else if c = 'k' then 9 else if c = 'q' then 10 else if c = 'r' then 11
  else if c = 'b' then 12 else if c = 'n' then 13 else if c = 'p' then 14
  else 0

/-- The squares a rank string stands for, from file a on: a digit expands to that many
empty squares, a letter to its piece code. -/
def expandRank : List Char → List Nat
  | [] => []
  | c :: cs =>
    if c ∈ rankDigits then List.replicate (c.toNat - 48) 0 ++ expandRank cs
    else pieceCode c :: expandRank cs

/-- A rank string: letters and digits only, expanding to exactly 8 squares. -/
def isRankString (s : List Char) : Bool :=
  s.all (fun c => decide (c ∈ pieceLetters) || decide (c ∈ rankDigits)) &&
    decide ((expandRank s).length = 8)

/-- Rank strings joined by a slash. -/
def joinRanks : List (List Char) → List Char
  | [] => []
  | [s] => s
  | s :: t :: rest => s ++ '/' :: joinRanks (t :: rest)

/-- A board-layout field: 8 rank strings, rank 8 first. -/
def isLayout (ranks : List (List Char)) : Bool :=
  decide (ranks.length = 8) && ranks.all isRankString

/-- The piece the layout puts on a square: position `file` of the expansion of rank
string number `7 - rank`. -/
def layoutSquare (ranks : List (List Char)) (file rank : Nat) : Nat :=
  (expandRank (ranks.getD (7 - rank) [])).getD file 0

/-- An active-colour character. -/
def isColour (c : Char) : Bool := decide (c ∈ ['w', 'W', 'b', 'B'])

/-- The player an active-colour character names. -/
def colourPlayer (c : Char) : Nat :=
  if c = 'w' ∨ c = 'W' then PLAYER_MOVE_WHITE else PLAYER_MOVE_BLACK

/-- A castling field made of the letters K, Q, k, q: non-empty, no other character. -/
def isCastlingLetters (s : List Char) : Bool :=
  !s.isEmpty && s.all (fun c => decide (c ∈ ['K', 'Q', 'k', 'q']))

/-- The bitwise or of the flags of the castling letters present in a field; it depends
on which letters occur only, not on their order or number. -/
def castlingMask (s : List Char) : Nat :=
  (if 'K' ∈ s then CASTLING_KINGSIDE_WHITE else 0) |||
  (if 'Q' ∈ s then CASTLING_QUEENSIDE_WHITE else 0) |||
  (if 'k' ∈ s then CASTLING_KINGSIDE_BLACK else 0) |||
  (if 'q' ∈ s then CASTLING_QUEENSIDE_BLACK else 0)

/-- A castling field: a dash or castling letters. -/
def isCastlingField (s : List Char) : Bool := decide (s = ['-']) || isCastlingLetters s

/-- The decimal value of a run of digits (0 for the empty run). -/
def decimalValue (s : List Char) : Nat := s.foldl (fun v c => v * 10 + (c.toNat - 48)) 0

/-- A number field: a non-empty run of ASCII digits. -/
def isNumber (s : List Char) : Bool := !s.isEmpty && s.all isdigit

/-- A board with every byte and every field zero. -/
def emptyBoard : Board := ⟨fun _ => 0, 0, 0, 0, 0⟩

/-- A board with every nibble and every field non-zero. -/
def busyBoard : Board := ⟨fun _ => 0xEE, 99, 77, 15, 1⟩

/-- The fields of a FEN text after the board layout, each led by one space. -/
def fenTail (colour : Char) (castling enPassant half full : List Char) : List Char :=
  ' ' :: colour :: ' ' :: (castling ++ ' ' :: (enPassant ++ ' ' :: (half ++ ' ' :: full)))

/-- The four bit-fields of two boards agree. -/
def SameFields (b c : Board) : Prop :=
  c.HalfmoveClock = b.HalfmoveClock ∧ c.FullmoveCounter = b.FullmoveCounter ∧
    c.CastlingRights = b.CastlingRights ∧ c.PlayerMove = b.PlayerMove

/-- The cursor is at the end of the text or on a whitespace character. -/
def AtFieldEnd (rest : List Char) : Prop := ∀ c ∈ rest.head?, isspace c = true

/-- The cursor is at the end of the text or on a character that is not a digit. -/
def AtNumberEnd (rest : List Char) : Prop := ∀ c ∈ rest.head?, isdigit c = false

/-- The file letters a to h. -/
def fileLetters : List Char := ['a', 'b', 'c', 'd', 'e', 'f', 'g', 'h']

/-- The value stored in the fullmove counter for a digit run of decimal value `v`:
`v` modulo 4096, and 1 when that is 0. -/
def storedFullmove (v : Nat) : Nat := if v % 4096 = 0 then 1 else v % 4096

/-- The file index of a file letter, `f - 'a'`. -/
def fileIndex (f : Char) : Nat := f.toNat - 97

/-- The rank strings of the starting position. -/
def startRanks : List (List Char) :=
  ["rnbqkbnr".toList, "pppppppp".toList, "8".toList, "8".toList, "8".toList, "8".toList,
    "PPPPPPPP".toList, "RNBQKBNR".toList]

/-- The rank strings of the en-passant test position. -/
def enPassantRanks : List (List Char) :=
  ["rnbqkbnr".toList, "ppp1pppp".toList, "8".toList, "3pP3".toList, "8".toList, "8".toList,
    "PPPP1PPP".toList, "RNBQKBNR".toList]

/-- The rank strings of the empty board. -/
def emptyRanks : List (List Char) := List.replicate 8 ['8']

/-- An en-passant field the parser takes: a dash, or a file letter followed by 3 or 6. -/
def isEnPassantField (s : List Char) : Bool :=
  match s with
  | [c] => decide (c = '-')
  | [f, r] => decide (f ∈ fileLetters) && (decide (r = '3') || decide (r = '6'))
  | _ => false

/-- What holds of every block of `ParseFen` run on the text `input`: when control goes
on, the cursor is a suffix of `input`; a code returned is SyntaxError or
InvalidBoardState. -/
def FlowGood (input : List Char) (x : Flow (List Char × Board)) : Prop :=
  match x with
  | .next s => s.1 <:+ input
  | .ret code _ => code = PARSE_ERROR_SYNTAX_ERROR ∨ code = PARSE_ERROR_INVALID_BOARD_STATE
  | .fault => True

/-- The whitespace test of `ParseMoveString` when no address of the text, read as an
`int`, is a whitespace code: the cursor is never moved. -/
def noPtrSpace : Nat → Bool := fun _ => false

/-! ## ParseMoveString pass by pass -/

/-- One pass of the body of the main loop of `ParseMoveString` (source lines 95 to 153)
entered with the cursor at offset `pos`: the cursor after the whitespace loop and the
code that line 154 stores, or `none` for `return PARSE_ERROR_SYNTAX_ERROR`. -/
def movePass (ptrIsSpace : Nat → Bool) (moveString : List Char) (pos : Nat) :
    Option (Nat × Nat) :=
  let pos := skipPtrSpace ptrIsSpace (moveString.length - pos) pos
  let coordinates :=
    if pos + 3 < moveString.length then
      packCoordinates (charAt moveString pos) (charAt moveString (pos + 1))
        (charAt moveString (pos + 2)) (charAt moveString (pos + 3))
    else some 0
  match coordinates with
  | none => none
  | some move =>
    if pos + 4 < moveString.length ∧ isspace (charAt moveString (pos + 4)) = false then
      match promotionPiece (charAt moveString (pos + 4)) with
      | some piece => some (pos, (move ||| (piece <<< 2)) % 65536)
      | none => none
    else some (pos, move)

/-- The main loop of `ParseMoveString` with the loop test of the source
(`pos < moveString + moveLength && *pos && idx < maxMoves`), the index `idx` and a
budget of loop tests: `none` when the budget is used up before the function returns.
Every store `Moves[idx++] = move` is recorded with its index, in the order of the
stores. -/
def moveRun (ptrIsSpace : Nat → Bool) (moveString : List Char) (maxMoves : Nat) :
    Nat → Nat → Nat → List (Nat × Nat) → Option (Int × List (Nat × Nat))
  | 0, _, _, _ => none
  | budget + 1, idx, pos, stores =>
    if pos < moveString.length ∧ (charAt moveString pos).toNat ≠ 0 ∧ idx < maxMoves then
      match movePass ptrIsSpace moveString pos with
      | none => some (PARSE_ERROR_SYNTAX_ERROR, stores)
      | some (pos1, move) =>
        moveRun ptrIsSpace moveString maxMoves budget (idx + 1) pos1 (stores ++ [(idx, move)])
    else some (0, stores)

/-! ## The words of the specification: move texts -/

/-- A coordinate token: file letter, rank digit, file letter, rank digit. -/
def isMoveToken (t : List Char) : Bool :=
  match t with
  | [sf, sr, df, dr] =>
    decide (sf ∈ fileLetters) && decide (sr ∈ rankDigits) && decide (df ∈ fileLetters) &&
      decide (dr ∈ rankDigits)
  | _ => false

/-- Tokens joined by single spaces. -/
def joinTokens : List (List Char) → List Char
  | [] => []
  | [t] => t
  | t :: u :: rest => t ++ ' ' :: joinTokens (u :: rest)

/-- The nine tokens of a move text. -/
def nineTokens : List (List Char) :=
  ["e2e4".toList, "e7e5".toList, "g1f3".toList, "b8c6".toList, "f1b5".toList, "a7a6".toList,
    "b5a4".toList, "g8f6".toList, "e1g1".toList]

/-- The rank index of a rank digit, `r - '1'`. -/
def rankIndex (r : Char) : Nat := r.toNat - 49

/-- The promotion piece a promotion letter names: Queen 0, Rook 1, Knight 2, Bishop 3. -/
def promotionCode (c : Char) : Nat :=
  if c = 'Q' ∨ c = 'q' then 0 else if c = 'R' ∨ c = 'r' then 1
  else if c = 'N' ∨ c = 'n' then 2 else 3

/-- The promotion letters. -/
def promotionLetters : List Char := ['Q', 'q', 'R', 'r', 'N', 'n', 'B', 'b']

/-! ## Texts that differ in their whitespace only -/

/-- Two texts with the same characters outside whitespace, a run of whitespace in one
standing where a run of whitespace stands in the other (the runs may differ in length
and in the whitespace characters they are made of). -/
inductive SameTokens : List Char → List Char → Prop where
  | nil : SameTokens [] []
  | char (c : Char) (s t : List Char) :
      isspace c = false → SameTokens s t → SameTokens (c :: s) (c :: t)
  | space (a b : Char) (s t : List Char) :
      isspace a = true → isspace b = true → SameTokens (skipSpace s) (skipSpace t) →
      SameTokens (a :: s) (b :: t)

/-- Two blocks end the same way: both go on, with the same board and cursors that
differ in whitespace only, or both return the same code with the same board, or both
store outside the board. -/
def FlowSame (x y : Flow (List Char × Board)) : Prop :=
  match x, y with
  | .next s, .next t => SameTokens s.1 t.1 ∧ s.2 = t.2
  | .ret c b, .ret d e => c = d ∧ b = e
  | .fault, .fault => True
  | _, _ => False

/-- Fields joined by the given separators, one after each field but the last (a single
space where the separators run out). -/
def joinSpaced : List (List Char) → List (List Char) → List Char
  | [], _ => []
  | [f], _ => f
  | f :: g :: fs, [] => f ++ ' ' :: joinSpaced (g :: fs) []
  | f :: g :: fs, sep :: seps => f ++ (sep ++ joinSpaced (g :: fs) seps)

/-! ## ParseMoveString when a call of isspace does not return -/

/-- The whitespace loop of `ParseMoveString` (source line 96) with a call `isspace(pos)`
that need not return. The argument of the call is the pointer, not a character code, so
it is outside the domain of `isspace` and the behaviour of the call is undefined.
`ptrCall i` is what the call does with the cursor at offset `i`: `none` when it faults,
so that the function never returns, `some b` when it returns with truth value `b`. The
second argument is `moveLength - pos`; the result is the cursor behind the loop. -/
def skipPtrSpaceCall (ptrCall : Nat → Option Bool) : Nat → Nat → Option Nat
  | 0, pos => some pos
  | remaining + 1, pos =>
    match ptrCall pos with
    | none => none
    | some true => skipPtrSpaceCall ptrCall remaining (pos + 1)
    | some false => some pos

/-- The body of the main loop behind the whitespace loop (source lines 99 to 153) with
the cursor at offset `pos`: the code that line 154 stores, or `none` for
`return PARSE_ERROR_SYNTAX_ERROR`. -/
def tokenPass (moveString : List Char) (pos : Nat) : Option Nat :=
  let coordinates :=
    if pos + 3 < moveString.length then
      packCoordinates (charAt moveString pos) (charAt moveString (pos + 1))
        (charAt moveString (pos + 2)) (charAt moveString (pos + 3))
    else some 0
  match coordinates with
  | none => none
  | some move =>
    if pos + 4 < moveString.length ∧ isspace (charAt moveString (pos + 4)) = false then
      match promotionPiece (charAt moveString (pos + 4)) with
      | some piece => some ((move ||| (piece <<< 2)) % 65536)
      | none => none
    else some move

/-- How a run of `ParseMoveString` ends: it returns a code, or a call `isspace(pos)`
faults. Either way `stores` are the stores `Moves[idx] = move` made until then, each
with its index, in the order in which they were made. -/
inductive MoveOutcome where
  | returned (code : Int) (stores : List (Nat × Nat)) : MoveOutcome
  | faulted (stores : List (Nat × Nat)) : MoveOutcome

/-- The stores made by a run. -/
def MoveOutcome.stores : MoveOutcome → List (Nat × Nat)
  | .returned _ stores => stores
  | .faulted stores => stores

/-- The main loop of `ParseMoveString` (source lines 94 to 157) with the loop test of
the source, the index `idx`, calls `isspace(pos)` that may fault and a budget of loop
tests: `none` when the budget is used up before the run has ended. -/
def moveRunCall (ptrCall : Nat → Option Bool) (moveString : List Char) (maxMoves : Nat) :
    Nat → Nat → Nat → List (Nat × Nat) → Option MoveOutcome
  | 0, _, _, _ => none
  | budget + 1, idx, pos, stores =>
    if pos < moveString.length ∧ (charAt moveString pos).toNat ≠ 0 ∧ idx < maxMoves then
      match skipPtrSpaceCall ptrCall (moveString.length - pos) pos with
      | none => some (.faulted stores)
      | some pos1 =>
        match tokenPass moveString pos1 with
        | none => some (.returned PARSE_ERROR_SYNTAX_ERROR stores)
        | some move =>
          moveRunCall ptrCall moveString maxMoves budget (idx + 1) pos1
            (stores ++ [(idx, move)])
    else some (.returned 0 stores)

/-- Every call `isspace(pos)` faults. -/
def ptrCallFaults : Nat → Option Bool := fun _ => none

/-- Every call `isspace(pos)` returns, with the truth values `ptrIsSpace`. -/
def ptrCallReturns (ptrIsSpace : Nat → Bool) : Nat → Option Bool := fun i => some (ptrIsSpace i)

/-- The call `isspace(pos)` returns non-zero with the cursor at the start of the text
and zero everywhere else. -/
def ptrSpaceAtStart : Nat → Bool := fun i => decide (i = 0)

/-! ## The cursor steps of ParseFen -/

/-- The number of `++pos` made by the loop
`while (pos < fenString + fenLength && isspace(*pos)) ++pos;`. -/
def skipSpaceSteps : List Char → Nat
  | [] => 0
  | c :: cs => if isspace c then skipSpaceSteps cs + 1 else 0

/-- The number of `++pos` made by the board-layout loop (source line 267): one for each
pass that reaches the end of the body; a pass that returns or stores outside the board
makes none. -/
def parseBoardStateSteps : List Char → Nat → Nat → Board → Nat
  | [], _, _, _ => 0
  | c :: cs, rank, file, board =>
    if isspace c then 0
    else
      match layoutBody c rank file board with
      | .next (rank1, file1, b) => parseBoardStateSteps cs rank1 file1 b + 1
      | .ret _ _ => 0
      | .fault => 0

/-- The number of `++pos` made by the active-colour block (source line 288). -/
def parsePlayerMoveSteps (pos : List Char) : Nat :=
  match pos with
  | [] => 0
  | c :: _ => if c = 'w' ∨ c = 'W' then 1 else if c = 'b' ∨ c = 'B' then 1 else 0

/-- The number of `++pos` made by the loop over the castling letters (source line 318). -/
def castlingLoopSteps : List Char → Nat
  | [] => 0
  | c :: cs =>
    if isspace c then 0
    else
      match castlingFlag c with
      | some _ => castlingLoopSteps cs + 1
      | none => 0

/-- The number of `++pos` made by the castling block (source lines 299 and 318). -/
def parseCastlingSteps (pos : List Char) : Nat :=
  match pos with
  | [] => 0
  | c :: cs => if c = '-' then 1 else castlingLoopSteps (c :: cs)

/-- The cursor steps made by the en-passant block: one for a dash (source line 330), two
for `pos += 2` (source line 353), none when the block returns or stores outside the
board before it. -/
def parseEnPassantSteps (pos : List Char) (board : Board) : Nat :=
  match pos with
  | [] => 0
  | c :: cs =>
    if c = '-' then 1
    else
      match cs with
      | [] => 0
      | rankChar :: _ =>
        let fileChar := c
        if fileChar.toNat < 97 ∨ fileChar.toNat > 104 then 0
        else if rankChar = '3' then
          match BoardSetSquare board (fileChar.toNat - 97) RANK_4
              BOARD_DATA_WHITE_PAWN_EP_CAPTURABLE with
          | none => 0
          | some _ => 2
        else if rankChar = '6' then
          match BoardSetSquare board (fileChar.toNat - 97) RANK_5
              BOARD_DATA_BLACK_PAWN_EP_CAPTURABLE with
          | none => 0
          | some _ => 2
        else 0

/-- The number of `++pos` made by a digit loop (source lines 366 and 379). -/
def digitSteps : List Char → Nat
  | [] => 0
  | c :: cs => if isdigit c then digitSteps cs + 1 else 0

/-- The cursor steps of the blocks that follow a block ending as `x`: those of `rest`
when control goes on, none when the function has returned or stored outside the
board. -/
def Flow.stepsThen (x : Flow (List Char × Board)) (rest : List Char → Board → Nat) : Nat :=
  match x with
  | .next s => rest s.1 s.2
  | .ret _ _ => 0
  | .fault => 0

/-- The cursor steps of `ParseFen` from the whitespace loop before the halfmove-clock
block up to the fullmove-counter block (source lines 357 to 372). -/
def fieldsFromHalfmoveSteps (pos : List Char) (board : Board) : Nat :=
  skipSpaceSteps pos + digitSteps (skipSpace pos) +
    skipSpaceSteps (parseHalfmove (skipSpace pos) board).1

/-- The cursor steps of `ParseFen` from the whitespace loop before the en-passant block
up to the fullmove-counter block (source lines 323 to 372). -/
def fieldsFromEnPassantSteps (pos : List Char) (board : Board) : Nat :=
  skipSpaceSteps pos + parseEnPassantSteps (skipSpace pos) board +
    (parseEnPassant (skipSpace pos) board).stepsThen fieldsFromHalfmoveSteps

/-- The cursor steps of `ParseFen` from the whitespace loop before the castling block up
to the fullmove-counter block (source lines 291 to 372). -/
def fieldsFromCastlingSteps (pos : List Char) (board : Board) : Nat :=
  skipSpaceSteps pos + parseCastlingSteps (skipSpace pos) +
    (parseCastling (skipSpace pos) board).stepsThen fieldsFromEnPassantSteps

/-- The cursor steps of `ParseFen` from the whitespace loop before the active-colour
block up to the fullmove-counter block (source lines 270 to 372). -/
def fieldsFromPlayerMoveSteps (pos : List Char) (board : Board) : Nat :=
  skipSpaceSteps pos + parsePlayerMoveSteps (skipSpace pos) +
    (parsePlayerMove (skipSpace pos) board).stepsThen fieldsFromCastlingSteps

/-- The cursor steps of `ParseFen` up to the fullmove-counter block (source lines 191 to
372). -/
def parseFenFieldsSteps (fen : List Char) (board : Board) : Nat :=
  skipSpaceSteps fen + parseBoardStateSteps (skipSpace fen) RANK_8 FILE_A board +
    (parseBoardState (skipSpace fen) RANK_8 FILE_A board).stepsThen fieldsFromPlayerMoveSteps

/-- The cursor steps of a whole run of `ParseFen`, whichever way it ends: every `++pos`
counts one and `pos += 2` counts two. -/
def ParseFenSteps (fen : List Char) (board : Board) : Nat :=
  parseFenFieldsSteps fen board +
    (parseFenFields fen board).stepsThen fun pos _ => digitSteps pos

/-- What holds of the cursor steps of every block of `ParseFen` entered at `input`: when
control goes on, the steps made are the characters between `input` and the cursor; when
the function returns or stores outside the board, they are no more than the characters
of `input`. -/
def StepsGood (input : List Char) (steps : Nat) (x : Flow (List Char × Board)) : Prop :=
  match x with
  | .next s => steps + s.1.length = input.length
  | .ret _ _ => steps ≤ input.length
  | .fault => steps ≤ input.length

/-! ## Nibble arithmetic -/

theorem testBit_15 (i : Nat) : Nat.testBit 15 i = decide (i < 4) :=
  Nat.testBit_two_pow_sub_one 4 i

theorem testBit_240 (i : Nat) : Nat.testBit 240 i = (decide (4 ≤ i) && decide (i < 8)) := by
  have h : (240 : Nat) = (2 ^ 4 - 1) <<< 4 := by decide
  rw [h, Nat.testBit_shiftLeft, Nat.testBit_two_pow_sub_one]
  by_cases h4 : 4 ≤ i
  · simp [h4]; omega
  · simp [h4]

theorem testBit_nibble {p : Nat} (hp : p ≤ 15) {j : Nat} (hj : 4 ≤ j) :
    Nat.testBit p j = false := by
  apply Nat.testBit_lt_two_pow
  calc p < 2 ^ 4 := by omega
    _ ≤ 2 ^ j := Nat.pow_le_pow_right (by decide) hj

theorem testBit_mod_256 (x i : Nat) :
    Nat.testBit (x % 256) i = (decide (i < 8) && Nat.testBit x i) :=
  Nat.testBit_mod_two_pow x 8 i

/-- Writing the upper nibble and reading it back. -/
theorem upper_write_upper (d p : Nat) (hp : p ≤ 15) :
    ((((d &&& 0x0F) ||| (p <<< 4)) % 256) >>> 4) &&& 0x0F = p := by
  apply Nat.eq_of_testBit_eq
  intro i
  simp only [Nat.testBit_and, Nat.testBit_or, Nat.testBit_shiftRight, Nat.testBit_shiftLeft,
    testBit_mod_256, testBit_15]
  by_cases h4 : i < 4
  · have h1 : 4 + i < 8 := by omega
    have h2 : ¬ (4 + i < 4) := by omega
    simp [h4, h1, h2]
  · simp [h4, testBit_nibble hp (Nat.le_of_not_lt h4)]

/-- Writing the upper nibble leaves the lower one. -/
theorem upper_write_lower (d p : Nat) :
    (((d &&& 0x0F) ||| (p <<< 4)) % 256) &&& 0x0F = d &&& 0x0F := by
  apply Nat.eq_of_testBit_eq
  intro i
  simp only [Nat.testBit_and, Nat.testBit_or, Nat.testBit_shiftLeft, testBit_mod_256,
    testBit_15]
  by_cases h4 : i < 4
  · have h1 : i < 8 := by omega
    have h2 : ¬ (4 ≤ i) := by omega
    simp [h4, h1, h2]
  · simp [h4]

/-- Writing the lower nibble and reading it back. -/
theorem lower_write_lower (d p : Nat) (hp : p ≤ 15) :
    (((d &&& 0xF0) ||| p) % 256) &&& 0x0F = p := by
  apply Nat.eq_of_testBit_eq
  intro i
  simp only [Nat.testBit_and, Nat.testBit_or, testBit_mod_256, testBit_15, testBit_240]
  by_cases h4 : i < 4
  · have h1 : i < 8 := by omega
    have h2 : ¬ (4 ≤ i) := by omega
    simp [h4, h1, h2]
  · simp [h4, testBit_nibble hp (Nat.le_of_not_lt h4)]

/-- Writing the lower nibble leaves the upper one. -/
theorem lower_write_upper (d p : Nat) (hp : p ≤ 15) :
    ((((d &&& 0xF0) ||| p) % 256) >>> 4) &&& 0x0F = (d >>> 4) &&& 0x0F := by
  apply Nat.eq_of_testBit_eq
  intro i
  simp only [Nat.testBit_and, Nat.testBit_or, Nat.testBit_shiftRight, testBit_mod_256,
    testBit_15, testBit_240]
  by_cases h4 : i < 4
  · have h1 : 4 + i < 8 := by omega
    have h2 : 4 ≤ 4 + i := by omega
    simp [h4, h1, h2, testBit_nibble hp h2]
  · simp [h4]

/-! ## The board codec -/

/-- A write inside the board succeeds. -/
theorem BoardSetSquare_isSome (board : Board) (file rank piece : Nat)
    (hf : file ≤ 7) (hr : rank ≤ 7) :
    ∃ b, BoardSetSquare board file rank piece = some b := by
  have h : (rank * 8 + file) / 2 < 32 := by omega
  simp [BoardSetSquare, h]

/-- Reading the square just written. -/
theorem BoardGetSquare_set_same (board b : Board) (file rank piece : Nat)
    (hp : piece ≤ 15) (hset : BoardSetSquare board file rank piece = some b) :
    BoardGetSquare b file rank = some piece := by
  unfold BoardSetSquare at hset
  unfold BoardGetSquare
  by_cases h : (rank * 8 + file) / 2 < 32
  · simp only [h, dite_true, Option.some.injEq] at hset
    subst hset
    by_cases hu : (rank * 8 + file) % 2 = 0
    · simp [h, hu, lower_write_lower _ _ hp]
    · simp [h, hu, upper_write_upper _ _ hp]
  · simp [h] at hset

/-- Reading any other square after a write. -/
theorem BoardGetSquare_set_other (board b : Board) (file rank piece file1 rank1 : Nat)
    (hp : piece ≤ 15) (hset : BoardSetSquare board file rank piece = some b)
    (hne : rank1 * 8 + file1 ≠ rank * 8 + file) :
    BoardGetSquare b file1 rank1 = BoardGetSquare board file1 rank1 := by
  unfold BoardSetSquare at hset
  unfold BoardGetSquare
  by_cases h : (rank * 8 + file) / 2 < 32
  · simp only [h, dite_true, Option.some.injEq] at hset
    subst hset
    by_cases h1 : (rank1 * 8 + file1) / 2 < 32
    · by_cases hb : (rank1 * 8 + file1) / 2 = (rank * 8 + file) / 2
      · by_cases hu : (rank * 8 + file) % 2 = 0
        · have hu1 : (rank1 * 8 + file1) % 2 ≠ 0 := by omega
          simp [h1, hb, hu, hu1, h, lower_write_upper _ _ hp]
        · have hu1 : (rank1 * 8 + file1) % 2 = 0 := by omega
          simp [h1, hb, hu, hu1, h, upper_write_lower]
      · simp [h1, hb]
    · simp [h1]
  · simp [h] at hset

/-- A write inside the board with a 4-bit piece: the square written reads back the
piece and every other square of the board reads as before. -/
theorem BoardSetSquare_get (board : Board) (file rank piece : Nat)
    (hf : file ≤ 7) (hr : rank ≤ 7) (hp : piece ≤ 15) :
    ∃ b, BoardSetSquare board file rank piece = some b ∧
      BoardGetSquare b file rank = some piece ∧
      ∀ file1 rank1, file1 ≤ 7 → rank1 ≤ 7 → (file1, rank1) ≠ (file, rank) →
        BoardGetSquare b file1 rank1 = BoardGetSquare board file1 rank1 := by
  obtain ⟨b, hb⟩ := BoardSetSquare_isSome board file rank piece hf hr
  refine ⟨b, hb, BoardGetSquare_set_same board b file rank piece hp hb, ?_⟩
  intro file1 rank1 hf1 hr1 hne
  apply BoardGetSquare_set_other board b file rank piece file1 rank1 hp hb
  intro h
  apply hne
  have : file1 = file ∧ rank1 = rank := by omega
  rw [this.1, this.2]

/-- A write changes no bit-field. -/
theorem BoardSetSquare_fields (board b : Board) (file rank piece : Nat)
    (hset : BoardSetSquare board file rank piece = some b) : SameFields board b := by
  unfold BoardSetSquare at hset
  by_cases h : (rank * 8 + file) / 2 < 32
  · simp only [h, dite_true, Option.some.injEq] at hset
    subst hset
    exact ⟨rfl, rfl, rfl, rfl⟩
  · simp [h] at hset

theorem SameFields.refl (b : Board) : SameFields b b := ⟨rfl, rfl, rfl, rfl⟩

theorem SameFields.trans {a b c : Board} (h1 : SameFields a b) (h2 : SameFields b c) :
    SameFields a c :=
  ⟨h2.1.trans h1.1, h2.2.1.trans h1.2.1, h2.2.2.1.trans h1.2.2.1, h2.2.2.2.trans h1.2.2.2⟩

/-- The square read after a write inside the board, at any square of the board. -/
theorem BoardGetSquare_set (board b : Board) (file rank piece f r : Nat)
    (hf : file ≤ 7) (hf1 : f ≤ 7) (hp : piece ≤ 15)
    (hset : BoardSetSquare board file rank piece = some b) :
    BoardGetSquare b f r =
      if r = rank ∧ f = file then some piece else BoardGetSquare board f r := by
  by_cases h : r = rank ∧ f = file
  · rw [if_pos h, h.1, h.2]
    exact BoardGetSquare_set_same board b file rank piece hp hset
  · rw [if_neg h]
    apply BoardGetSquare_set_other board b file rank piece f r hp hset
    intro he
    apply h
    omega

/-! ## The board-layout loop on well-formed rank strings -/

theorem pieceLetter_facts (c : Char) (h : c ∈ pieceLetters) :
    layoutPiece c = some (pieceCode c) ∧ isspace c = false ∧ pieceCode c ≤ 15 ∧
      c ∉ rankDigits := by
  simp only [pieceLetters, List.mem_cons, List.mem_singleton, List.not_mem_nil, or_false] at h
  rcases h with h | h | h | h | h | h | h | h | h | h | h | h <;> subst h <;> decide

theorem rankDigit_facts (c : Char) (h : c ∈ rankDigits) :
    layoutPiece c = none ∧ isspace c = false ∧ 49 ≤ c.toNat ∧ c.toNat ≤ 56 := by
  simp only [rankDigits, List.mem_cons, List.mem_singleton, List.not_mem_nil, or_false] at h
  rcases h with h | h | h | h | h | h | h | h <;> subst h <;> decide

/-- The loop that stores empty squares, when they fit on the rank. -/
theorem fillEmpty_spec (n : Nat) : ∀ (file rank : Nat) (board : Board),
    file + n ≤ 8 → rank ≤ 7 →
    ∃ b, fillEmpty n file rank board = some (file + n, b) ∧ SameFields board b ∧
      ∀ f r, f ≤ 7 → r ≤ 7 → BoardGetSquare b f r =
        if r = rank ∧ file ≤ f ∧ f < file + n then some 0 else BoardGetSquare board f r := by
  induction n with
  | zero =>
    intro file rank board _ _
    refine ⟨board, rfl, SameFields.refl board, ?_⟩
    intro f r _ _
    have : ¬ (r = rank ∧ file ≤ f ∧ f < file + 0) := by omega
    rw [if_neg this]
  | succ n ih =>
    intro file rank board hfile hrank
    obtain ⟨b1, hb1⟩ := BoardSetSquare_isSome board file rank BOARD_DATA_EMPTY (by omega) hrank
    obtain ⟨b, hb, hsame, hsq⟩ := ih (file + 1) rank b1 (by omega) hrank
    refine ⟨b, ?_, (BoardSetSquare_fields _ _ _ _ _ hb1).trans hsame, ?_⟩
    · simp only [fillEmpty, hb1, hb]
      congr 2
      omega
    · intro f r hf hr
      rw [hsq f r hf hr,
        BoardGetSquare_set board b1 file rank BOARD_DATA_EMPTY f r (by omega) hf (by decide) hb1]
      by_cases h1 : r = rank ∧ file + 1 ≤ f ∧ f < file + 1 + n
      · have h2 : r = rank ∧ file ≤ f ∧ f < file + (n + 1) := by omega
        rw [if_pos h1, if_pos h2]
      · rw [if_neg h1]
        by_cases h3 : r = rank ∧ f = file
        · have h2 : r = rank ∧ file ≤ f ∧ f < file + (n + 1) := by omega
          rw [if_pos h3, if_pos h2]
          rfl
        · have h2 : ¬ (r = rank ∧ file ≤ f ∧ f < file + (n + 1)) := by omega
          rw [if_neg h3, if_neg h2]

theorem getD_replicate_append_lt (n k : Nat) (E : List Nat) (h : k < n) :
    (List.replicate n 0 ++ E).getD k 0 = 0 := by
  induction n generalizing k with
  | zero => omega
  | succ n ih =>
    cases k with
    | zero => rfl
    | succ k =>
      simp only [List.replicate_succ, List.cons_append, List.getD_cons_succ]
      exact ih k (by omega)

theorem getD_replicate_append_ge (n k : Nat) (E : List Nat) :
    (List.replicate n 0 ++ E).getD (n + k) 0 = E.getD k 0 := by
  induction n with
  | zero => simp
  | succ n ih =>
    have : n + 1 + k = (n + k) + 1 := by omega
    rw [this]
    simp only [List.replicate_succ, List.cons_append, List.getD_cons_succ]
    exact ih

/-! One pass of the layout loop, by the kind of character under the cursor. -/

theorem parseBoardState_stop (c : Char) (cs : List Char) (rank file : Nat) (board : Board)
    (hsp : isspace c = true) :
    parseBoardState (c :: cs) rank file board = .next (c :: cs, board) := by
  rw [parseBoardState]
  simp [hsp]

theorem parseBoardState_letter (c : Char) (cs : List Char) (rank file piece : Nat)
    (board b : Board) (hsp : isspace c = false) (hfile : file ≤ 8)
    (hpiece : layoutPiece c = some piece)
    (hset : BoardSetSquare board file rank piece = some b) :
    parseBoardState (c :: cs) rank file board = parseBoardState cs rank (file + 1) b := by
  have hfile1 : ¬ file > 8 := by omega
  rw [parseBoardState]
  simp [hsp, layoutBody, hfile1, hpiece, hset]

theorem parseBoardState_digit (c : Char) (cs : List Char) (rank file file1 : Nat)
    (board b : Board) (hsp : isspace c = false) (hpiece : layoutPiece c = none)
    (hlo : 49 ≤ c.toNat) (hhi : c.toNat ≤ 56) (hfit : file + (c.toNat - 48) ≤ 8)
    (hfill : fillEmpty (c.toNat - 48) file rank board = some (file1, b)) :
    parseBoardState (c :: cs) rank file board = parseBoardState cs rank file1 b := by
  have hfile1 : ¬ file > 8 := by omega
  have hfit1 : ¬ file + (c.toNat - 48) > 8 := by omega
  rw [parseBoardState]
  simp [hsp, layoutBody, hfile1, hpiece, hlo, hhi, hfit1, hfill]

theorem parseBoardState_slash (cs : List Char) (rank : Nat) (board : Board)
    (hrank : rank ≠ 0) :
    parseBoardState ('/' :: cs) rank 8 board = parseBoardState cs (rank - 1) 0 board := by
  rw [parseBoardState]
  have h1 : isspace '/' = false := by decide
  have h2 : layoutPiece '/' = none := by decide
  have h3 : ¬ (49 ≤ ('/' : Char).toNat ∧ ('/' : Char).toNat ≤ 56) := by decide
  simp [h1, layoutBody, h2, h3, FILE_H, FILE_A, RANK_1, hrank]

/-- The layout loop over the characters of one rank string that fits on the rank: the
squares of the string are stored from `file` on and nothing else changes. -/
theorem parseBoardState_rank (s : List Char) :
    ∀ (rest : List Char) (rank file : Nat) (board : Board),
    (∀ c ∈ s, c ∈ pieceLetters ∨ c ∈ rankDigits) →
    file + (expandRank s).length ≤ 8 → rank ≤ 7 →
    ∃ b, parseBoardState (s ++ rest) rank file board =
        parseBoardState rest rank (file + (expandRank s).length) b ∧
      SameFields board b ∧
      ∀ f r, f ≤ 7 → r ≤ 7 → BoardGetSquare b f r =
        if r = rank ∧ file ≤ f ∧ f < file + (expandRank s).length then
          some ((expandRank s).getD (f - file) 0)
        else BoardGetSquare board f r := by
  induction s with
  | nil =>
    intro rest rank file board _ _ _
    refine ⟨board, rfl, SameFields.refl board, ?_⟩
    intro f r _ _
    have : ¬ (r = rank ∧ file ≤ f ∧ f < file + (expandRank []).length) := by
      simp [expandRank]
    rw [if_neg this]
  | cons c s ih =>
    intro rest rank file board hchars hfit hrank
    have hs : ∀ c ∈ s, c ∈ pieceLetters ∨ c ∈ rankDigits :=
      fun x hx => hchars x (List.mem_cons_of_mem c hx)
    rcases hchars c (List.mem_cons_self c s) with hc | hc
    · obtain ⟨hpiece, hsp, hcode, hnd⟩ := pieceLetter_facts c hc
      have hexp : expandRank (c :: s) = pieceCode c :: expandRank s := by
        simp [expandRank, hnd]
      rw [hexp] at hfit ⊢
      simp only [List.length_cons] at hfit ⊢
      obtain ⟨b1, hb1⟩ := BoardSetSquare_isSome board file rank (pieceCode c) (by omega) hrank
      obtain ⟨b, hb, hsame, hsq⟩ := ih rest rank (file + 1) b1 hs (by omega) hrank
      refine ⟨b, ?_, (BoardSetSquare_fields _ _ _ _ _ hb1).trans hsame, ?_⟩
      · rw [List.cons_append,
          parseBoardState_letter c (s ++ rest) rank file (pieceCode c) board b1 hsp (by omega)
            hpiece hb1, hb]
        congr 1
        omega
      · intro f r hf hr
        rw [hsq f r hf hr,
          BoardGetSquare_set board b1 file rank (pieceCode c) f r (by omega) hf hcode hb1]
        by_cases h1 : r = rank ∧ file + 1 ≤ f ∧ f < file + 1 + (expandRank s).length
        · have h2 : r = rank ∧ file ≤ f ∧ f < file + ((expandRank s).length + 1) := by omega
          have h3 : f - file = (f - (file + 1)) + 1 := by omega
          rw [if_pos h1, if_pos h2, h3, List.getD_cons_succ]
        · rw [if_neg h1]
          by_cases h3 : r = rank ∧ f = file
          · have h2 : r = rank ∧ file ≤ f ∧ f < file + ((expandRank s).length + 1) := by
              omega
            have h4 : f - file = 0 := by omega
            rw [if_pos h3, if_pos h2, h4]
            rfl
          · have h2 : ¬ (r = rank ∧ file ≤ f ∧ f < file + ((expandRank s).length + 1)) := by
              omega
            rw [if_neg h3, if_neg h2]
    · obtain ⟨hpiece, hsp, hlo, hhi⟩ := rankDigit_facts c hc
      have hexp : expandRank (c :: s) =
          List.replicate (c.toNat - 48) 0 ++ expandRank s := by
        simp [expandRank, hc]
      rw [hexp] at hfit ⊢
      simp only [List.length_append, List.length_replicate] at hfit ⊢
      obtain ⟨b1, hb1, hsame1, hsq1⟩ :=
        fillEmpty_spec (c.toNat - 48) file rank board (by omega) hrank
      obtain ⟨b, hb, hsame, hsq⟩ := ih rest rank (file + (c.toNat - 48)) b1 hs (by omega) hrank
      refine ⟨b, ?_, hsame1.trans hsame, ?_⟩
      · rw [List.cons_append,
          parseBoardState_digit c (s ++ rest) rank file (file + (c.toNat - 48)) board b1 hsp
            hpiece hlo hhi (by omega) hb1, hb]
        congr 1
        omega
      · intro f r hf hr
        rw [hsq f r hf hr, hsq1 f r hf hr]
        by_cases h1 : r = rank ∧ file + (c.toNat - 48) ≤ f ∧
            f < file + (c.toNat - 48) + (expandRank s).length
        · have h2 : r = rank ∧ file ≤ f ∧
              f < file + (c.toNat - 48 + (expandRank s).length) := by omega
          have h3 : f - file = (c.toNat - 48) + (f - (file + (c.toNat - 48))) := by omega
          rw [if_pos h1, if_pos h2, h3, getD_replicate_append_ge]
        · rw [if_neg h1]
          by_cases h3 : r = rank ∧ file ≤ f ∧ f < file + (c.toNat - 48)
          · have h2 : r = rank ∧ file ≤ f ∧
                f < file + (c.toNat - 48 + (expandRank s).length) := by omega
            rw [if_pos h3, if_pos h2, getD_replicate_append_lt _ _ _ (by omega)]
          · have h2 : ¬ (r = rank ∧ file ≤ f ∧
                f < file + (c.toNat - 48 + (expandRank s).length)) := by omega
            rw [if_neg h3, if_neg h2]

theorem parseBoardState_end (rest : List Char) (rank file : Nat) (board : Board)
    (hrest : AtFieldEnd rest) : parseBoardState rest rank file board = .next (rest, board) := by
  cases rest with
  | nil => rfl
  | cons c cs => exact parseBoardState_stop c cs rank file board (hrest c (by simp))

theorem isRankString_iff (s : List Char) : isRankString s = true ↔
    (∀ c ∈ s, c ∈ pieceLetters ∨ c ∈ rankDigits) ∧ (expandRank s).length = 8 := by
  simp [isRankString]

/-- The layout loop over rank strings joined by slashes, entered at file a of the rank
of the first string: every rank named gets its squares, nothing else changes, and the
loop stops at the end of the field. -/
theorem parseBoardState_layout (ranks : List (List Char)) :
    ∀ (rest : List Char) (board : Board),
    ranks ≠ [] → ranks.length ≤ 8 → ranks.all isRankString = true → AtFieldEnd rest →
    ∃ b, parseBoardState (joinRanks ranks ++ rest) (ranks.length - 1) 0 board =
        .next (rest, b) ∧
      SameFields board b ∧
      ∀ f r, f ≤ 7 → r ≤ 7 → BoardGetSquare b f r =
        if r < ranks.length then
          some ((expandRank (ranks.getD (ranks.length - 1 - r) [])).getD f 0)
        else BoardGetSquare board f r := by
  induction ranks with
  | nil => intro _ _ h; exact absurd rfl h
  | cons s tl ih =>
    intro rest board _ hlen hall hrest
    have hs : isRankString s = true := by
      simp only [List.all_cons, Bool.and_eq_true] at hall
      exact hall.1
    have htl : tl.all isRankString = true := by
      simp only [List.all_cons, Bool.and_eq_true] at hall
      exact hall.2
    obtain ⟨hchars, hwidth⟩ := (isRankString_iff s).1 hs
    simp only [List.length_cons] at hlen
    cases tl with
    | nil =>
      obtain ⟨b, hb, hsame, hsq⟩ :=
        parseBoardState_rank s rest 0 0 board hchars (by omega) (by omega)
      refine ⟨b, ?_, hsame, ?_⟩
      · simp only [joinRanks, List.length_singleton, Nat.sub_self]
        rw [hb, parseBoardState_end rest _ _ _ hrest]
      · intro f r hf hr
        rw [hsq f r hf hr]
        simp only [List.length_singleton, Nat.sub_self, Nat.zero_sub, List.getD_cons_zero,
          hwidth, Nat.sub_zero]
        by_cases h0 : r = 0
        · have h1 : r = 0 ∧ 0 ≤ f ∧ f < 0 + 8 := by omega
          have h2 : r < 1 := by omega
          rw [if_pos h1, if_pos h2]
        · have h1 : ¬ (r = 0 ∧ 0 ≤ f ∧ f < 0 + 8) := by omega
          have h2 : ¬ r < 1 := by omega
          rw [if_neg h1, if_neg h2]
    | cons t rs =>
      simp only [List.length_cons] at hlen
      obtain ⟨b1, hb1, hsame1, hsq1⟩ :=
        parseBoardState_rank s ('/' :: (joinRanks (t :: rs) ++ rest)) (rs.length + 1) 0 board
          hchars (by omega) (by omega)
      obtain ⟨b, hb, hsame, hsq⟩ := ih rest b1 (by simp) (by simp; omega) htl hrest
      simp only [List.length_cons, Nat.add_sub_cancel] at hb hsq
      refine ⟨b, ?_, hsame1.trans hsame, ?_⟩
      · simp only [joinRanks, List.length_cons, Nat.add_sub_cancel, List.append_assoc,
          List.cons_append]
        rw [hb1, hwidth, parseBoardState_slash _ _ _ (by omega), Nat.add_sub_cancel, hb]
      · intro f r hf hr
        rw [hsq f r hf hr, hsq1 f r hf hr]
        simp only [List.length_cons, Nat.add_sub_cancel, hwidth]
        by_cases h1 : r < rs.length + 1
        · have h2 : r < rs.length + 1 + 1 := by omega
          have h3 : rs.length + 1 - r = (rs.length - r) + 1 := by omega
          rw [if_pos h1, if_pos h2, h3, List.getD_cons_succ]
        · rw [if_neg h1]
          by_cases h3 : r = rs.length + 1
          · have h2 : r < rs.length + 1 + 1 := by omega
            have h4 : r = rs.length + 1 ∧ 0 ≤ f ∧ f < 0 + 8 := by omega
            have h5 : rs.length + 1 - r = 0 := by omega
            rw [if_pos h2, if_pos h4, h5, List.getD_cons_zero, Nat.sub_zero]
          · have h2 : ¬ r < rs.length + 1 + 1 := by omega
            have h4 : ¬ (r = rs.length + 1 ∧ 0 ≤ f ∧ f < 0 + 8) := by omega
            rw [if_neg h2, if_neg h4]

/-! ## Whitespace -/

theorem skipSpace_nil : skipSpace [] = [] := rfl

theorem skipSpace_space (c : Char) (rest : List Char) (h : isspace c = true) :
    skipSpace (c :: rest) = skipSpace rest := by
  simp [skipSpace, List.dropWhile, h]

theorem skipSpace_stay (c : Char) (rest : List Char) (h : isspace c = false) :
    skipSpace (c :: rest) = c :: rest := by
  simp [skipSpace, List.dropWhile, h]

/-- One space before a field that starts with a character that is not whitespace. -/
theorem skipSpace_field (c : Char) (rest : List Char) (h : isspace c = false) :
    skipSpace (' ' :: c :: rest) = c :: rest := by
  rw [skipSpace_space ' ' _ (by decide), skipSpace_stay c rest h]

/-! ## The active-colour block -/

theorem colour_facts (c : Char) (h : isColour c = true) :
    isspace c = false ∧ (c = 'w' ∨ c = 'W' ∨ c = 'b' ∨ c = 'B') := by
  simp only [isColour, decide_eq_true_eq, List.mem_cons, List.mem_singleton,
    List.not_mem_nil, or_false] at h
  rcases h with h | h | h | h <;> subst h <;> decide

theorem parsePlayerMove_colour (c : Char) (rest : List Char) (board : Board)
    (h : isColour c = true) :
    parsePlayerMove (c :: rest) board =
      .next (rest, { board with PlayerMove := colourPlayer c }) := by
  rcases (colour_facts c h).2 with h | h | h | h <;> subst h <;> rfl

/-! ## The castling block -/

theorem castlingLetter_facts (c : Char) (h : c ∈ ['K', 'Q', 'k', 'q']) :
    isspace c = false ∧ c ≠ '-' ∧ ∃ flag, castlingFlag c = some flag ∧ flag < 16 ∧
      ∀ s, castlingMask (c :: s) = flag ||| castlingMask s := by
  simp only [List.mem_cons, List.mem_singleton, List.not_mem_nil, or_false] at h
  rcases h with h | h | h | h <;> subst h <;>
    refine ⟨by decide, by decide, _, rfl, by decide, ?_⟩ <;> intro s <;>
    by_cases h1 : 'K' ∈ s <;> by_cases h2 : 'Q' ∈ s <;> by_cases h3 : 'k' ∈ s <;>
    by_cases h4 : 'q' ∈ s <;>
    simp [castlingMask, h1, h2, h3, h4, CASTLING_KINGSIDE_WHITE, CASTLING_QUEENSIDE_WHITE,
      CASTLING_KINGSIDE_BLACK, CASTLING_QUEENSIDE_BLACK]

theorem castlingMask_lt (s : List Char) : castlingMask s < 16 := by
  by_cases h1 : 'K' ∈ s <;> by_cases h2 : 'Q' ∈ s <;> by_cases h3 : 'k' ∈ s <;>
    by_cases h4 : 'q' ∈ s <;>
    simp [castlingMask, h1, h2, h3, h4, CASTLING_KINGSIDE_WHITE, CASTLING_QUEENSIDE_WHITE,
      CASTLING_KINGSIDE_BLACK, CASTLING_QUEENSIDE_BLACK]

theorem castlingLoop_end (rest : List Char) (board : Board) (hrest : AtFieldEnd rest) :
    castlingLoop rest board = .next (rest, board) := by
  cases rest with
  | nil => rfl
  | cons c cs =>
    have h : isspace c = true := hrest c (by simp)
    rw [castlingLoop]
    simp [h]

/-- The castling loop over a run of castling letters: their flags are or-ed in. -/
theorem castlingLoop_letters (s : List Char) : ∀ (rest : List Char) (board : Board),
    (∀ c ∈ s, c ∈ ['K', 'Q', 'k', 'q']) → AtFieldEnd rest → board.CastlingRights < 16 →
    castlingLoop (s ++ rest) board =
      .next (rest, { board with
        CastlingRights := board.CastlingRights ||| castlingMask s }) := by
  induction s with
  | nil =>
    intro rest board _ hrest _
    have h0 : castlingMask [] = 0 := by decide
    rw [List.nil_append, castlingLoop_end rest board hrest, h0, Nat.or_zero]
  | cons c s ih =>
    intro rest board hs hrest hlt
    obtain ⟨hsp, _, flag, hflag, hflt, hmask⟩ := castlingLetter_facts c (hs c (by simp))
    have hor : board.CastlingRights ||| flag < 2 ^ 4 := Nat.or_lt_two_pow hlt hflt
    have hmod : (board.CastlingRights ||| flag) % 16 = board.CastlingRights ||| flag :=
      Nat.mod_eq_of_lt hor
    rw [List.cons_append, castlingLoop]
    simp only [hsp, hflag, hmod, Bool.false_eq_true, if_false]
    rw [ih rest _ (fun x hx => hs x (List.mem_cons_of_mem c hx)) hrest hor, hmask s,
      Nat.lor_assoc]

/-- The castling block on a castling field: the rights become the mask of the field,
whatever they were. -/
theorem parseCastling_field (s rest : List Char) (board : Board)
    (hs : isCastlingField s = true) (hrest : AtFieldEnd rest) :
    parseCastling (s ++ rest) board =
      .next (rest, { board with CastlingRights := castlingMask s }) := by
  simp only [isCastlingField, Bool.or_eq_true, decide_eq_true_eq] at hs
  rcases hs with hs | hs
  · subst hs
    rfl
  · simp only [isCastlingLetters, Bool.and_eq_true, Bool.not_eq_true', List.isEmpty_eq_false,
      List.all_eq_true, decide_eq_true_eq] at hs
    obtain ⟨hne, hall⟩ := hs
    cases s with
    | nil => exact absurd rfl hne
    | cons c s =>
      obtain ⟨_, hdash, _⟩ := castlingLetter_facts c (hall c (by simp))
      have h := castlingLoop_letters (c :: s) rest { board with CastlingRights := 0 } hall hrest
        (by simp)
      simp only [Nat.zero_or] at h
      simp only [parseCastling, List.cons_append, hdash, if_false]
      exact h

/-- The first character of a castling field is not whitespace. -/
theorem castlingField_head (s : List Char) (hs : isCastlingField s = true) :
    ∃ c t, s = c :: t ∧ isspace c = false := by
  simp only [isCastlingField, Bool.or_eq_true, decide_eq_true_eq] at hs
  rcases hs with hs | hs
  · exact ⟨'-', [], hs, by decide⟩
  · simp only [isCastlingLetters, Bool.and_eq_true, Bool.not_eq_true', List.isEmpty_eq_false,
      List.all_eq_true, decide_eq_true_eq] at hs
    cases s with
    | nil => exact absurd rfl hs.1
    | cons c t => exact ⟨c, t, rfl, (castlingLetter_facts c (hs.2 c (by simp))).1⟩

/-! ## The number blocks -/

/-- Reducing after every digit gives the decimal value reduced once. -/
theorem foldl_digits_mod (m : Nat) (s : List Char) : ∀ v : Nat,
    s.foldl (fun v c => (v * 10 + (c.toNat - 48)) % m) (v % m) =
      (s.foldl (fun v c => v * 10 + (c.toNat - 48)) v) % m := by
  induction s with
  | nil => intro v; rfl
  | cons c s ih =>
    intro v
    simp only [List.foldl_cons]
    have h : (v % m * 10 + (c.toNat - 48)) % m = (v * 10 + (c.toNat - 48)) % m := by
      rw [Nat.add_mod, Nat.mul_mod, Nat.mod_mod, ← Nat.mul_mod, ← Nat.add_mod]
    rw [h, ih]

theorem halfmoveDigits_end (rest : List Char) (board : Board) (hrest : AtNumberEnd rest) :
    halfmoveDigits rest board = (rest, board) := by
  cases rest with
  | nil => rfl
  | cons c cs =>
    have h : isdigit c = false := hrest c (by simp)
    rw [halfmoveDigits]
    simp [h]

theorem halfmoveDigits_run (s : List Char) : ∀ (rest : List Char) (board : Board),
    (∀ c ∈ s, isdigit c = true) → AtNumberEnd rest →
    halfmoveDigits (s ++ rest) board =
      (rest, { board with HalfmoveClock := (s.foldl
        (fun v c => (v * 10 + (c.toNat - 48)) % 128) board.HalfmoveClock) }) := by
  induction s with
  | nil =>
    intro rest board _ hrest
    rw [List.nil_append, halfmoveDigits_end rest board hrest]
    rfl
  | cons c s ih =>
    intro rest board hs hrest
    have hc : isdigit c = true := hs c (by simp)
    rw [List.cons_append, halfmoveDigits]
    simp only [hc, if_true]
    rw [ih rest _ (fun x hx => hs x (List.mem_cons_of_mem c hx)) hrest]
    rfl

/-- The halfmove block on a run of digits with text left: the clock is the decimal
value of the run modulo 128. -/
theorem parseHalfmove_run (s rest : List Char) (board : Board)
    (hs : ∀ c ∈ s, isdigit c = true) (hrest : AtNumberEnd rest) (hne : s ++ rest ≠ []) :
    parseHalfmove (s ++ rest) board =
      (rest, { board with HalfmoveClock := decimalValue s % 128 }) := by
  have h := halfmoveDigits_run s rest { board with HalfmoveClock := 0 } hs hrest
  have hm := foldl_digits_mod 128 s 0
  simp only [Nat.zero_mod] at hm
  simp only [hm] at h
  cases hl : s ++ rest with
  | nil => exact absurd hl hne
  | cons c t =>
    rw [hl] at h
    simp only [parseHalfmove]
    exact h

theorem fullmoveDigits_end (rest : List Char) (board : Board) (hrest : AtNumberEnd rest) :
    fullmoveDigits rest board = (rest, board) := by
  cases rest with
  | nil => rfl
  | cons c cs =>
    have h : isdigit c = false := hrest c (by simp)
    rw [fullmoveDigits]
    simp [h]

theorem fullmoveDigits_run (s : List Char) : ∀ (rest : List Char) (board : Board),
    (∀ c ∈ s, isdigit c = true) → AtNumberEnd rest →
    fullmoveDigits (s ++ rest) board =
      (rest, { board with FullmoveCounter := (s.foldl
        (fun v c => (v * 10 + (c.toNat - 48)) % 4096) board.FullmoveCounter) }) := by
  induction s with
  | nil =>
    intro rest board _ hrest
    rw [List.nil_append, fullmoveDigits_end rest board hrest]
    rfl
  | cons c s ih =>
    intro rest board hs hrest
    have hc : isdigit c = true := hs c (by simp)
    rw [List.cons_append, fullmoveDigits]
    simp only [hc, if_true]
    rw [ih rest _ (fun x hx => hs x (List.mem_cons_of_mem c hx)) hrest]
    rfl

/-- The fullmove block on a run of digits with text left: the counter is the decimal
value of the run modulo 4096, and 1 when that is 0. -/
theorem parseFullmove_run (s rest : List Char) (board : Board)
    (hs : ∀ c ∈ s, isdigit c = true) (hrest : AtNumberEnd rest) (hne : s ++ rest ≠ []) :
    parseFullmove (s ++ rest) board =
      (rest, { board with FullmoveCounter := (if decimalValue s % 4096 = 0 then 1
        else decimalValue s % 4096) }, true) := by
  have h := fullmoveDigits_run s rest { board with FullmoveCounter := 0 } hs hrest
  have hm := foldl_digits_mod 4096 s 0
  simp only [Nat.zero_mod] at hm
  simp only [hm] at h
  cases hl : s ++ rest with
  | nil => exact absurd hl hne
  | cons c t =>
    rw [hl] at h
    simp only [parseFullmove, h]
    by_cases h0 : decimalValue s % 4096 = 0
    · simp only [decimalValue] at h0 ⊢
      simp [h0]
    · simp only [decimalValue] at h0 ⊢
      simp [h0]

theorem digit_not_space (c : Char) (h : isdigit c = true) : isspace c = false := by
  simp only [isdigit, Bool.and_eq_true, decide_eq_true_eq] at h
  simp only [isspace, Bool.or_eq_false_iff, Bool.and_eq_false_iff, decide_eq_false_iff_not]
  omega

theorem number_facts (s : List Char) (hs : isNumber s = true) :
    (∀ c ∈ s, isdigit c = true) ∧ ∃ c t, s = c :: t ∧ isspace c = false := by
  simp only [isNumber, Bool.and_eq_true, Bool.not_eq_true', List.isEmpty_eq_false,
    List.all_eq_true] at hs
  refine ⟨hs.2, ?_⟩
  cases s with
  | nil => exact absurd rfl hs.1
  | cons c t => exact ⟨c, t, rfl, digit_not_space c (hs.2 c (by simp))⟩

theorem atFieldEnd_nil : AtFieldEnd [] := by
  intro c hc
  simp at hc

theorem atFieldEnd_space (rest : List Char) : AtFieldEnd (' ' :: rest) := by
  intro c hc
  simp only [List.head?_cons, Option.mem_def, Option.some.injEq] at hc
  subst hc
  decide

theorem atNumberEnd_nil : AtNumberEnd [] := by
  intro c hc
  simp at hc

theorem atNumberEnd_space (rest : List Char) : AtNumberEnd (' ' :: rest) := by
  intro c hc
  simp only [List.head?_cons, Option.mem_def, Option.some.injEq] at hc
  subst hc
  decide

/-! ## ParseFen field by field -/

theorem layout_head (ranks : List (List Char)) (h : isLayout ranks = true) :
    ∃ c t, joinRanks ranks = c :: t ∧ isspace c = false := by
  simp only [isLayout, Bool.and_eq_true, decide_eq_true_eq] at h
  obtain ⟨hlen, hall⟩ := h
  cases ranks with
  | nil => simp at hlen
  | cons s tl =>
    simp only [List.all_cons, Bool.and_eq_true] at hall
    obtain ⟨hchars, hwidth⟩ := (isRankString_iff s).1 hall.1
    cases s with
    | nil => simp [expandRank] at hwidth
    | cons c s =>
      have hsp : isspace c = false := by
        rcases hchars c (by simp) with hc | hc
        · exact (pieceLetter_facts c hc).2.1
        · exact (rankDigit_facts c hc).2.1
      cases tl with
      | nil => exact ⟨c, s, rfl, hsp⟩
      | cons t rs => exact ⟨c, s ++ '/' :: joinRanks (t :: rs), rfl, hsp⟩

/-- The board-layout field of a text: after it every square holds the piece the layout
names, the bit-fields are the caller's, and parsing goes on behind the field. -/
theorem parseFenFields_layout (ranks : List (List Char)) (rest : List Char) (board : Board)
    (h : isLayout ranks = true) (hrest : AtFieldEnd rest) :
    ∃ b, SameFields board b ∧
      (∀ f r, f ≤ 7 → r ≤ 7 → BoardGetSquare b f r = some (layoutSquare ranks f r)) ∧
      parseFenFields (joinRanks ranks ++ rest) board = fieldsFromPlayerMove rest b := by
  obtain ⟨c, t, hjoin, hsp⟩ := layout_head ranks h
  simp only [isLayout, Bool.and_eq_true, decide_eq_true_eq] at h
  obtain ⟨hlen, hall⟩ := h
  have hne : ranks ≠ [] := by
    intro h0
    rw [h0] at hlen
    simp at hlen
  obtain ⟨b, hb, hsame, hsq⟩ :=
    parseBoardState_layout ranks rest board hne (by omega) hall hrest
  refine ⟨b, hsame, ?_, ?_⟩
  · intro f r hf hr
    have hr8 : r < ranks.length := by omega
    rw [hsq f r hf hr, if_pos hr8, hlen]
    rfl
  · have hskip : skipSpace (joinRanks ranks ++ rest) = joinRanks ranks ++ rest := by
      rw [hjoin, List.cons_append, skipSpace_stay c _ hsp]
    rw [hlen] at hb
    simp only [parseFenFields, hskip, RANK_8, FILE_A]
    rw [hb]
    rfl

theorem fieldsFromPlayerMove_colour (c : Char) (rest : List Char) (board : Board)
    (h : isColour c = true) :
    fieldsFromPlayerMove (' ' :: c :: rest) board =
      fieldsFromCastling rest { board with PlayerMove := colourPlayer c } := by
  rw [fieldsFromPlayerMove, skipSpace_field c rest (colour_facts c h).1,
    parsePlayerMove_colour c rest board h]
  rfl

theorem fieldsFromCastling_field (s rest : List Char) (board : Board)
    (hs : isCastlingField s = true) (hrest : AtFieldEnd rest) :
    fieldsFromCastling (' ' :: (s ++ rest)) board =
      fieldsFromEnPassant rest { board with CastlingRights := castlingMask s } := by
  obtain ⟨c, t, hct, hsp⟩ := castlingField_head s hs
  have hskip : skipSpace (' ' :: (s ++ rest)) = s ++ rest := by
    rw [hct, List.cons_append, skipSpace_field c _ hsp]
  rw [fieldsFromCastling, hskip, parseCastling_field s rest board hs hrest]
  rfl

theorem fieldsFromEnPassant_dash (rest : List Char) (board : Board) :
    fieldsFromEnPassant (' ' :: '-' :: rest) board = fieldsFromHalfmove rest board := by
  rw [fieldsFromEnPassant, skipSpace_field '-' rest (by decide)]
  rfl

theorem fieldsFromHalfmove_number (s rest : List Char) (board : Board)
    (hs : isNumber s = true) (hrest : AtNumberEnd rest) :
    fieldsFromHalfmove (' ' :: (s ++ rest)) board =
      .next (skipSpace rest, { board with HalfmoveClock := decimalValue s % 128 }) := by
  obtain ⟨hdig, c, t, hct, hsp⟩ := number_facts s hs
  have hskip : skipSpace (' ' :: (s ++ rest)) = s ++ rest := by
    rw [hct, List.cons_append, skipSpace_field c _ hsp]
  have hne : s ++ rest ≠ [] := by simp [hct]
  rw [fieldsFromHalfmove, hskip, parseHalfmove_run s rest board hdig hrest hne]

theorem finishFen_number (s rest : List Char) (board : Board)
    (hs : isNumber s = true) (hrest : AtNumberEnd rest) :
    finishFen (.next (s ++ rest, board)) =
      some (PARSE_SUCCESS, { board with FullmoveCounter :=
        (if decimalValue s % 4096 = 0 then 1 else decimalValue s % 4096) }) := by
  obtain ⟨hdig, c, t, hct, _⟩ := number_facts s hs
  have hne : s ++ rest ≠ [] := by simp [hct]
  simp only [finishFen, parseFullmove_run s rest board hdig hrest hne, if_true]

/-- A complete text with single spaces and no en-passant target: the result is Success,
the squares are the layout's and the four fields are those of the text. -/
theorem ParseFen_complete (ranks : List (List Char)) (colour : Char)
    (castling half full : List Char) (board : Board)
    (hl : isLayout ranks = true) (hc : isColour colour = true)
    (hk : isCastlingField castling = true) (hh : isNumber half = true)
    (hf : isNumber full = true) :
    ∃ b, (∀ f r, f ≤ 7 → r ≤ 7 → BoardGetSquare b f r = some (layoutSquare ranks f r)) ∧
      ParseFen (joinRanks ranks ++ fenTail colour castling ['-'] half full) board =
        some (PARSE_SUCCESS, { b with
          PlayerMove := colourPlayer colour
          CastlingRights := castlingMask castling
          HalfmoveClock := decimalValue half % 128
          FullmoveCounter :=
            (if decimalValue full % 4096 = 0 then 1 else decimalValue full % 4096) }) := by
  obtain ⟨b, _, hsq, hb⟩ := parseFenFields_layout ranks
    (fenTail colour castling ['-'] half full) board hl (atFieldEnd_space _)
  obtain ⟨_, c, t, hct, hsp⟩ := number_facts full hf
  refine ⟨b, hsq, ?_⟩
  have hfin := finishFen_number full [] { b with
    PlayerMove := colourPlayer colour
    CastlingRights := castlingMask castling
    HalfmoveClock := decimalValue half % 128 } hf atNumberEnd_nil
  rw [List.append_nil] at hfin
  rw [ParseFen, hb, fenTail, fieldsFromPlayerMove_colour colour _ _ hc,
    fieldsFromCastling_field castling _ _ hk (atFieldEnd_space _), List.singleton_append,
    fieldsFromEnPassant_dash, fieldsFromHalfmove_number half _ _ hh (atNumberEnd_space _)]
  have hskip : skipSpace (' ' :: full) = full := by
    rw [hct, skipSpace_field c t hsp]
  rw [hskip]
  exact hfin

/-! ## What the number blocks leave alone -/

theorem halfmoveDigits_frame (pos : List Char) : ∀ board : Board,
    (halfmoveDigits pos board).2.Data = board.Data ∧
      (halfmoveDigits pos board).2.FullmoveCounter = board.FullmoveCounter ∧
      (halfmoveDigits pos board).2.CastlingRights = board.CastlingRights ∧
      (halfmoveDigits pos board).2.PlayerMove = board.PlayerMove := by
  induction pos with
  | nil => intro board; exact ⟨rfl, rfl, rfl, rfl⟩
  | cons c cs ih =>
    intro board
    rw [halfmoveDigits]
    by_cases hc : isdigit c = true
    · simp only [hc, if_true]
      exact ih _
    · simp only [hc, if_false]
      exact ⟨rfl, rfl, rfl, rfl⟩

theorem parseHalfmove_frame (pos : List Char) (board : Board) :
    (parseHalfmove pos board).2.Data = board.Data ∧
      (parseHalfmove pos board).2.FullmoveCounter = board.FullmoveCounter ∧
      (parseHalfmove pos board).2.CastlingRights = board.CastlingRights ∧
      (parseHalfmove pos board).2.PlayerMove = board.PlayerMove := by
  cases pos with
  | nil => exact ⟨rfl, rfl, rfl, rfl⟩
  | cons c cs => exact halfmoveDigits_frame (c :: cs) _

theorem fullmoveDigits_frame (pos : List Char) : ∀ board : Board,
    (fullmoveDigits pos board).2.Data = board.Data ∧
      (fullmoveDigits pos board).2.HalfmoveClock = board.HalfmoveClock ∧
      (fullmoveDigits pos board).2.CastlingRights = board.CastlingRights ∧
      (fullmoveDigits pos board).2.PlayerMove = board.PlayerMove := by
  induction pos with
  | nil => intro board; exact ⟨rfl, rfl, rfl, rfl⟩
  | cons c cs ih =>
    intro board
    rw [fullmoveDigits]
    by_cases hc : isdigit c = true
    · simp only [hc, if_true]
      exact ih _
    · simp only [hc, if_false]
      exact ⟨rfl, rfl, rfl, rfl⟩

theorem parseFullmove_frame (pos : List Char) (board : Board) :
    (parseFullmove pos board).2.1.Data = board.Data ∧
      (parseFullmove pos board).2.1.HalfmoveClock = board.HalfmoveClock ∧
      (parseFullmove pos board).2.1.CastlingRights = board.CastlingRights ∧
      (parseFullmove pos board).2.1.PlayerMove = board.PlayerMove := by
  cases pos with
  | nil => exact ⟨rfl, rfl, rfl, rfl⟩
  | cons c cs =>
    have h := fullmoveDigits_frame (c :: cs) { board with FullmoveCounter := 0 }
    simp only [parseFullmove]
    split <;> exact h

/-- Reading a square depends on the data bytes only. -/
theorem BoardGetSquare_congr (b c : Board) (h : c.Data = b.Data) (f r : Nat) :
    BoardGetSquare c f r = BoardGetSquare b f r := by
  unfold BoardGetSquare
  rw [h]

/-- From the halfmove-clock block on, `ParseFen` returns Success or IncompleteFen and
leaves the squares, the castling rights and the player to move as they are. -/
theorem finishFen_fromHalfmove (pos : List Char) (board : Board) :
    ∃ code b, finishFen (fieldsFromHalfmove pos board) = some (code, b) ∧
      (code = PARSE_SUCCESS ∨ code = PARSE_ERROR_INCOMPLETE_FEN) ∧
      b.Data = board.Data ∧ b.CastlingRights = board.CastlingRights ∧
      b.PlayerMove = board.PlayerMove := by
  have h1 := parseHalfmove_frame (skipSpace pos) board
  have h2 := parseFullmove_frame (skipSpace (parseHalfmove (skipSpace pos) board).1)
    (parseHalfmove (skipSpace pos) board).2
  simp only [fieldsFromHalfmove, finishFen]
  split
  · exact ⟨_, _, rfl, Or.inl rfl, h2.1.trans h1.1, h2.2.2.1.trans h1.2.2.1,
      h2.2.2.2.trans h1.2.2.2⟩
  · exact ⟨_, _, rfl, Or.inr rfl, h2.1.trans h1.1, h2.2.2.1.trans h1.2.2.1,
      h2.2.2.2.trans h1.2.2.2⟩

/-! ## The en-passant block -/

theorem fileLetter_facts (f : Char) (h : f ∈ fileLetters) :
    isspace f = false ∧ f ≠ '-' ∧ 97 ≤ f.toNat ∧ f.toNat ≤ 104 := by
  simp only [fileLetters, List.mem_cons, List.mem_singleton, List.not_mem_nil, or_false] at h
  rcases h with h | h | h | h | h | h | h | h <;> subst h <;> decide

theorem parseEnPassant_three (f : Char) (rest : List Char) (board b : Board)
    (hf : f ∈ fileLetters)
    (hset : BoardSetSquare board (f.toNat - 97) RANK_4 BOARD_DATA_WHITE_PAWN_EP_CAPTURABLE =
      some b) :
    parseEnPassant (f :: '3' :: rest) board = .next (rest, b) := by
  obtain ⟨_, hdash, hlo, hhi⟩ := fileLetter_facts f hf
  have hrange : ¬ (f.toNat < 97 ∨ f.toNat > 104) := by omega
  simp [parseEnPassant, hdash, hrange, hset]

theorem parseEnPassant_six (f : Char) (rest : List Char) (board b : Board)
    (hf : f ∈ fileLetters)
    (hset : BoardSetSquare board (f.toNat - 97) RANK_5 BOARD_DATA_BLACK_PAWN_EP_CAPTURABLE =
      some b) :
    parseEnPassant (f :: '6' :: rest) board = .next (rest, b) := by
  obtain ⟨_, hdash, hlo, hhi⟩ := fileLetter_facts f hf
  have hrange : ¬ (f.toNat < 97 ∨ f.toNat > 104) := by omega
  have h63 : ('6' : Char) ≠ '3' := by decide
  simp [parseEnPassant, hdash, hrange, hset, h63]

theorem parseEnPassant_other (f c : Char) (rest : List Char) (board : Board)
    (hf : f ∈ fileLetters) (h3 : c ≠ '3') (h6 : c ≠ '6') :
    parseEnPassant (f :: c :: rest) board = .ret PARSE_ERROR_SYNTAX_ERROR board := by
  obtain ⟨_, hdash, hlo, hhi⟩ := fileLetter_facts f hf
  have hrange : ¬ (f.toNat < 97 ∨ f.toNat > 104) := by omega
  simp [parseEnPassant, hdash, hrange, h3, h6]

theorem parseEnPassant_badFile (x : Char) (rest : List Char) (board : Board)
    (hx : x ∉ fileLetters) (hdash : x ≠ '-') :
    parseEnPassant (x :: rest) board = .ret PARSE_ERROR_SYNTAX_ERROR board := by
  have hrange : x.toNat < 97 ∨ x.toNat > 104 := by
    by_contra hcon
    apply hx
    have h1 : 97 ≤ x.toNat ∧ x.toNat ≤ 104 := by omega
    have h2 : x = Char.ofNat x.toNat := (Char.ofNat_toNat x).symm
    rw [h2]
    obtain ⟨hlo, hhi⟩ := h1
    interval_cases x.toNat <;> decide
  cases rest with
  | nil => simp [parseEnPassant, hdash]
  | cons c cs => simp [parseEnPassant, hdash, hrange]

/-- A text whose layout, colour and castling fields are well formed: parsing reaches
the en-passant block with the squares of the layout, the player and the castling rights
of the text, and the caller's clocks. -/
theorem ParseFen_upto_castling (ranks : List (List Char)) (colour : Char)
    (castling rest : List Char) (board : Board)
    (hl : isLayout ranks = true) (hc : isColour colour = true)
    (hk : isCastlingField castling = true) (hrest : AtFieldEnd rest) :
    ∃ b, (∀ f r, f ≤ 7 → r ≤ 7 → BoardGetSquare b f r = some (layoutSquare ranks f r)) ∧
      b.PlayerMove = colourPlayer colour ∧ b.CastlingRights = castlingMask castling ∧
      b.HalfmoveClock = board.HalfmoveClock ∧ b.FullmoveCounter = board.FullmoveCounter ∧
      ParseFen (joinRanks ranks ++ ' ' :: colour :: ' ' :: (castling ++ rest)) board =
        finishFen (fieldsFromEnPassant rest b) := by
  obtain ⟨b, hsame, hsq, hb⟩ := parseFenFields_layout ranks
    (' ' :: colour :: ' ' :: (castling ++ rest)) board hl (atFieldEnd_space _)
  refine ⟨{ b with PlayerMove := colourPlayer colour, CastlingRights := castlingMask castling },
    hsq, rfl, rfl, hsame.1, hsame.2.1, ?_⟩
  rw [ParseFen, hb, fieldsFromPlayerMove_colour colour _ _ hc,
    fieldsFromCastling_field castling _ _ hk hrest]

theorem fieldsFromEnPassant_three (f : Char) (rest : List Char) (board b : Board)
    (hf : f ∈ fileLetters)
    (hset : BoardSetSquare board (fileIndex f) RANK_4 BOARD_DATA_WHITE_PAWN_EP_CAPTURABLE =
      some b) :
    fieldsFromEnPassant (' ' :: f :: '3' :: rest) board = fieldsFromHalfmove rest b := by
  rw [fieldsFromEnPassant, skipSpace_field f _ (fileLetter_facts f hf).1,
    parseEnPassant_three f rest board b hf hset]
  rfl

theorem fieldsFromEnPassant_six (f : Char) (rest : List Char) (board b : Board)
    (hf : f ∈ fileLetters)
    (hset : BoardSetSquare board (fileIndex f) RANK_5 BOARD_DATA_BLACK_PAWN_EP_CAPTURABLE =
      some b) :
    fieldsFromEnPassant (' ' :: f :: '6' :: rest) board = fieldsFromHalfmove rest b := by
  rw [fieldsFromEnPassant, skipSpace_field f _ (fileLetter_facts f hf).1,
    parseEnPassant_six f rest board b hf hset]
  rfl

theorem fileIndex_le (f : Char) (hf : f ∈ fileLetters) : fileIndex f ≤ 7 := by
  obtain ⟨_, _, hlo, hhi⟩ := fileLetter_facts f hf
  unfold fileIndex
  omega

/-! ## Runs of whitespace and of digits in general -/

theorem skipSpace_run (ws rest : List Char) (hws : ∀ c ∈ ws, isspace c = true) :
    skipSpace (ws ++ rest) = skipSpace rest := by
  induction ws with
  | nil => rfl
  | cons c ws ih =>
    rw [List.cons_append, skipSpace_space c _ (hws c (by simp))]
    exact ih (fun x hx => hws x (List.mem_cons_of_mem c hx))

theorem atNumberEnd_dropWhile (pos : List Char) : AtNumberEnd (pos.dropWhile isdigit) := by
  induction pos with
  | nil => exact atNumberEnd_nil
  | cons c cs ih =>
    by_cases hc : isdigit c = true
    · rw [List.dropWhile_cons_of_pos hc]
      exact ih
    · rw [List.dropWhile_cons_of_neg hc]
      intro x hx
      simp only [List.head?_cons, Option.mem_def, Option.some.injEq] at hx
      subst hx
      simpa using hc

theorem takeWhile_digits (pos : List Char) : ∀ c ∈ pos.takeWhile isdigit, isdigit c = true :=
  fun _ hc => List.mem_takeWhile_imp hc

/-- The halfmove block on any text that is left: the clock is the decimal value of the
digit run under the cursor (0 when there is none) modulo 128. -/
theorem parseHalfmove_any (pos : List Char) (board : Board) (hne : pos ≠ []) :
    parseHalfmove pos board = (pos.dropWhile isdigit,
      { board with HalfmoveClock := decimalValue (pos.takeWhile isdigit) % 128 }) := by
  have h := parseHalfmove_run (pos.takeWhile isdigit) (pos.dropWhile isdigit) board
    (takeWhile_digits pos) (atNumberEnd_dropWhile pos)
  rw [List.takeWhile_append_dropWhile] at h
  exact h hne

/-- The fullmove block on any text that is left: the counter is the stored value of the
digit run under the cursor, and all fields count as parsed. -/
theorem parseFullmove_any (pos : List Char) (board : Board) (hne : pos ≠ []) :
    parseFullmove pos board = (pos.dropWhile isdigit,
      { board with FullmoveCounter := storedFullmove (decimalValue (pos.takeWhile isdigit)) },
      true) := by
  have h := parseFullmove_run (pos.takeWhile isdigit) (pos.dropWhile isdigit) board
    (takeWhile_digits pos) (atNumberEnd_dropWhile pos)
  rw [List.takeWhile_append_dropWhile] at h
  exact h hne

theorem storedFullmove_range (v : Nat) : 1 ≤ storedFullmove v ∧ storedFullmove v ≤ 4095 := by
  unfold storedFullmove
  split <;> omega

/-- The en-passant block on a field the parser takes: parsing goes on behind the field
with the bit-fields unchanged. -/
theorem fieldsFromEnPassant_field (ep rest : List Char) (board : Board)
    (hep : isEnPassantField ep = true) :
    ∃ b, SameFields board b ∧
      fieldsFromEnPassant (' ' :: (ep ++ rest)) board = fieldsFromHalfmove rest b := by
  match ep, hep with
  | [c], h =>
    simp only [isEnPassantField, decide_eq_true_eq] at h
    subst h
    exact ⟨board, SameFields.refl board, fieldsFromEnPassant_dash rest board⟩
  | [f, r], h =>
    simp only [isEnPassantField, Bool.and_eq_true, Bool.or_eq_true, decide_eq_true_eq] at h
    obtain ⟨hf, hr⟩ := h
    rcases hr with hr | hr
    · subst hr
      obtain ⟨b, hset⟩ := BoardSetSquare_isSome board (fileIndex f) RANK_4
        BOARD_DATA_WHITE_PAWN_EP_CAPTURABLE (fileIndex_le f hf) (by decide)
      exact ⟨b, BoardSetSquare_fields _ _ _ _ _ hset,
        fieldsFromEnPassant_three f rest board b hf hset⟩
    · subst hr
      obtain ⟨b, hset⟩ := BoardSetSquare_isSome board (fileIndex f) RANK_5
        BOARD_DATA_BLACK_PAWN_EP_CAPTURABLE (fileIndex_le f hf) (by decide)
      exact ⟨b, BoardSetSquare_fields _ _ _ _ _ hset,
        fieldsFromEnPassant_six f rest board b hf hset⟩
  | [], h => simp [isEnPassantField] at h
  | _ :: _ :: _ :: _, h => simp [isEnPassantField] at h

/-- The halfmove block in general: optional whitespace, a digit run (possibly empty),
optional whitespace and a character that is not whitespace (and not a digit when it
stands directly behind the run, or when there is no run). The fullmove block is entered
at that character. -/
theorem fieldsFromHalfmove_general (ws run ws2 rest : List Char) (y : Char) (board : Board)
    (hws : ∀ c ∈ ws, isspace c = true) (hrun : ∀ c ∈ run, isdigit c = true)
    (hws2 : ∀ c ∈ ws2, isspace c = true) (hy : isspace y = false)
    (hmax : run = [] ∨ ws2 = [] → isdigit y = false) :
    fieldsFromHalfmove (ws ++ (run ++ (ws2 ++ y :: rest))) board =
      .next (y :: rest, { board with HalfmoveClock := decimalValue run % 128 }) := by
  have hskip2 : skipSpace (ws2 ++ y :: rest) = y :: rest := by
    rw [skipSpace_run ws2 _ hws2, skipSpace_stay y rest hy]
  have hend : AtNumberEnd (ws2 ++ y :: rest) := by
    intro x hx
    cases ws2 with
    | nil =>
      simp only [List.nil_append, List.head?_cons, Option.mem_def, Option.some.injEq] at hx
      subst hx
      exact hmax (Or.inr rfl)
    | cons w ws2 =>
      simp only [List.cons_append, List.head?_cons, Option.mem_def, Option.some.injEq] at hx
      subst hx
      have hw : isspace w = true := hws2 w (by simp)
      by_contra hd
      have := digit_not_space w (by simpa using hd)
      rw [hw] at this
      exact absurd this (by decide)
  cases run with
  | nil =>
    have hyd : isdigit y = false := hmax (Or.inl rfl)
    have hskip : skipSpace (ws ++ ([] ++ (ws2 ++ y :: rest))) = y :: rest := by
      rw [skipSpace_run ws _ hws, List.nil_append, hskip2]
    have htake : (y :: rest).takeWhile isdigit = [] := by
      rw [List.takeWhile_cons]
      simp [hyd]
    have hdrop : (y :: rest).dropWhile isdigit = y :: rest := by
      rw [List.dropWhile_cons]
      simp [hyd]
    rw [fieldsFromHalfmove, hskip, parseHalfmove_any (y :: rest) board (by simp), htake, hdrop]
    simp only [skipSpace_stay y rest hy]
  | cons d run =>
    have hskip : skipSpace (ws ++ (d :: run ++ (ws2 ++ y :: rest))) =
        d :: run ++ (ws2 ++ y :: rest) := by
      rw [skipSpace_run ws _ hws, List.cons_append,
        skipSpace_stay d _ (digit_not_space d (hrun d (by simp)))]
    rw [fieldsFromHalfmove, hskip,
      parseHalfmove_run (d :: run) (ws2 ++ y :: rest) board hrun hend (by simp)]
    simp only [hskip2]

/-! ## The cursor only moves forward, and the codes returned early are errors -/

theorem FlowGood.mono {p input : List Char} {x : Flow (List Char × Board)}
    (h : FlowGood p x) (hp : p <:+ input) : FlowGood input x := by
  cases x with
  | next s => exact List.IsSuffix.trans h hp
  | ret code b => exact h
  | fault => trivial

theorem FlowGood.bind {input : List Char} {x : Flow (List Char × Board)}
    {f : List Char × Board → Flow (List Char × Board)}
    (hx : FlowGood input x) (hf : ∀ s, FlowGood s.1 (f s)) : FlowGood input (x.bind f) := by
  cases x with
  | next s => exact (hf s).mono hx
  | ret code b => exact hx
  | fault => trivial

theorem skipSpace_suffix (pos : List Char) : skipSpace pos <:+ pos :=
  List.dropWhile_suffix isspace

theorem layoutBody_ret (c : Char) (rank file : Nat) (board b : Board) (code : Int)
    (h : layoutBody c rank file board = .ret code b) :
    code = PARSE_ERROR_SYNTAX_ERROR ∨ code = PARSE_ERROR_INVALID_BOARD_STATE := by
  unfold layoutBody at h
  split at h
  · injection h with h1 _
    exact Or.inr h1.symm
  · split at h
    · split at h <;> simp at h
    · split at h
      · simp only at h
        split at h
        · injection h with h1 _
          exact Or.inr h1.symm
        · split at h <;> simp at h
      · split at h
        · split at h
          · injection h with h1 _
            exact Or.inr h1.symm
          · split at h
            · injection h with h1 _
              exact Or.inr h1.symm
            · simp at h
        · injection h with h1 _
          exact Or.inl h1.symm

theorem parseBoardState_good (pos : List Char) : ∀ (rank file : Nat) (board : Board),
    FlowGood pos (parseBoardState pos rank file board) := by
  induction pos with
  | nil => intro _ _ _; exact List.suffix_refl []
  | cons c cs ih =>
    intro rank file board
    rw [parseBoardState]
    split
    · exact List.suffix_refl _
    · split
      · next rank1 file1 b _ => exact (ih rank1 file1 b).mono (List.suffix_cons c cs)
      · next code b heq => exact layoutBody_ret c rank file board b code heq
      · trivial

theorem parsePlayerMove_good (pos : List Char) (board : Board) :
    FlowGood pos (parsePlayerMove pos board) := by
  cases pos with
  | nil => exact List.suffix_refl []
  | cons c cs =>
    simp only [parsePlayerMove]
    split
    · exact List.suffix_cons c cs
    · split
      · exact List.suffix_cons c cs
      · exact Or.inl rfl

theorem castlingLoop_good (pos : List Char) : ∀ board : Board,
    FlowGood pos (castlingLoop pos board) := by
  induction pos with
  | nil => intro _; exact List.suffix_refl []
  | cons c cs ih =>
    intro board
    rw [castlingLoop]
    split
    · exact List.suffix_refl _
    · split
      · exact (ih _).mono (List.suffix_cons c cs)
      · exact Or.inl rfl

theorem parseCastling_good (pos : List Char) (board : Board) :
    FlowGood pos (parseCastling pos board) := by
  cases pos with
  | nil => exact List.suffix_refl []
  | cons c cs =>
    simp only [parseCastling]
    split
    · exact List.suffix_cons c cs
    · exact castlingLoop_good (c :: cs) _

/-- The en-passant block returns SyntaxError with the board untouched, or goes on with
the bit-fields unchanged; it never stores outside the board. -/
theorem parseEnPassant_cases (pos : List Char) (board : Board) :
    parseEnPassant pos board = .ret PARSE_ERROR_SYNTAX_ERROR board ∨
      ∃ rest b, parseEnPassant pos board = .next (rest, b) ∧ rest <:+ pos ∧
        SameFields board b := by
  match pos with
  | [] => exact Or.inr ⟨[], board, rfl, List.suffix_refl [], SameFields.refl board⟩
  | [c] =>
    by_cases hc : c = '-'
    · exact Or.inr ⟨[], board, by simp [parseEnPassant, hc], List.nil_suffix,
        SameFields.refl board⟩
    · exact Or.inl (by simp [parseEnPassant, hc])
  | c :: r :: rest =>
    by_cases hc : c = '-'
    · exact Or.inr ⟨r :: rest, board, by simp [parseEnPassant, hc], List.suffix_cons _ _,
        SameFields.refl board⟩
    · by_cases hrange : c.toNat < 97 ∨ c.toNat > 104
      · exact Or.inl (by simp [parseEnPassant, hc, hrange])
      · have hsuf : rest <:+ c :: r :: rest :=
          (List.suffix_cons r rest).trans (List.suffix_cons c _)
        by_cases h3 : r = '3'
        · obtain ⟨b, hset⟩ := BoardSetSquare_isSome board (c.toNat - 97) RANK_4
            BOARD_DATA_WHITE_PAWN_EP_CAPTURABLE (by omega) (by decide)
          exact Or.inr ⟨rest, b, by simp [parseEnPassant, hc, hrange, h3, hset], hsuf,
            BoardSetSquare_fields _ _ _ _ _ hset⟩
        · by_cases h6 : r = '6'
          · obtain ⟨b, hset⟩ := BoardSetSquare_isSome board (c.toNat - 97) RANK_5
              BOARD_DATA_BLACK_PAWN_EP_CAPTURABLE (by omega) (by decide)
            exact Or.inr ⟨rest, b, by simp [parseEnPassant, hc, hrange, h3, h6, hset], hsuf,
              BoardSetSquare_fields _ _ _ _ _ hset⟩
          · exact Or.inl (by simp [parseEnPassant, hc, hrange, h3, h6])

theorem parseEnPassant_good (pos : List Char) (board : Board) :
    FlowGood pos (parseEnPassant pos board) := by
  rcases parseEnPassant_cases pos board with h | ⟨rest, b, h, hsuf, _⟩
  · rw [h]
    exact Or.inl rfl
  · rw [h]
    exact hsuf

theorem halfmoveDigits_suffix (pos : List Char) : ∀ board : Board,
    (halfmoveDigits pos board).1 <:+ pos := by
  induction pos with
  | nil => intro _; exact List.suffix_refl []
  | cons c cs ih =>
    intro board
    rw [halfmoveDigits]
    split
    · exact (ih _).trans (List.suffix_cons c cs)
    · exact List.suffix_refl _

theorem fieldsFromHalfmove_good (pos : List Char) (board : Board) :
    FlowGood pos (fieldsFromHalfmove pos board) := by
  have h1 : (parseHalfmove (skipSpace pos) board).1 <:+ skipSpace pos := by
    cases hs : skipSpace pos with
    | nil => exact List.suffix_refl []
    | cons c cs => exact halfmoveDigits_suffix (c :: cs) _
  exact ((skipSpace_suffix _).trans h1).trans (skipSpace_suffix pos)

/-- Up to the fullmove-counter block, `ParseFen` either hands over a suffix of the text
or returns SyntaxError or InvalidBoardState. -/
theorem parseFenFields_good (fen : List Char) (board : Board) :
    FlowGood fen (parseFenFields fen board) := by
  unfold parseFenFields
  refine FlowGood.bind ((parseBoardState_good _ _ _ _).mono (skipSpace_suffix fen)) ?_
  intro s1
  unfold fieldsFromPlayerMove
  refine FlowGood.bind ((parsePlayerMove_good _ _).mono (skipSpace_suffix _)) ?_
  intro s2
  unfold fieldsFromCastling
  refine FlowGood.bind ((parseCastling_good _ _).mono (skipSpace_suffix _)) ?_
  intro s3
  unfold fieldsFromEnPassant
  refine FlowGood.bind ((parseEnPassant_good _ _).mono (skipSpace_suffix _)) ?_
  intro s4
  exact fieldsFromHalfmove_good _ _

/-- A text whose layout and colour fields are well formed: parsing reaches the castling
block with the squares of the layout, the player of the text and the caller's other
fields. -/
theorem ParseFen_upto_colour (ranks : List (List Char)) (colour : Char)
    (rest : List Char) (board : Board)
    (hl : isLayout ranks = true) (hc : isColour colour = true) :
    ∃ b, b.PlayerMove = colourPlayer colour ∧
      b.HalfmoveClock = board.HalfmoveClock ∧ b.FullmoveCounter = board.FullmoveCounter ∧
      ParseFen (joinRanks ranks ++ ' ' :: colour :: rest) board =
        finishFen (fieldsFromCastling rest b) := by
  obtain ⟨b, hsame, _, hb⟩ := parseFenFields_layout ranks (' ' :: colour :: rest) board hl
    (atFieldEnd_space _)
  refine ⟨{ b with PlayerMove := colourPlayer colour }, rfl, hsame.1, hsame.2.1, ?_⟩
  rw [ParseFen, hb, fieldsFromPlayerMove_colour colour _ _ hc]

/-- A run of `ParseFen` has one result code. -/
theorem result_code_unique {x : Option (Int × Board)} {m n : Int} {b c : Board}
    (h1 : x = some (m, b)) (h2 : x = some (n, c)) : m = n := by
  rw [h1] at h2
  injection h2 with h
  injection h

/-! ## The passes of ParseMoveString -/

/-- The main loop in terms of one pass of its body. -/
theorem moveLoop_succ (p : Nat → Bool) (text : List Char) (slots pos : Nat) (Moves : List Nat) :
    moveLoop p text (slots + 1) pos Moves =
      if pos < text.length ∧ (charAt text pos).toNat ≠ 0 then
        match movePass p text pos with
        | none => (PARSE_ERROR_SYNTAX_ERROR, Moves)
        | some (pos1, move) => moveLoop p text slots pos1 (Moves ++ [move])
      else (0, Moves) := by
  rw [moveLoop]
  by_cases h : pos < text.length ∧ (charAt text pos).toNat ≠ 0
  · simp only [h, and_self, if_true, movePass, ne_eq, not_false_eq_true]
    generalize skipPtrSpace p (text.length - pos) pos = q
    generalize (if q + 3 < text.length then
      packCoordinates (charAt text q) (charAt text (q + 1)) (charAt text (q + 2))
        (charAt text (q + 3)) else some 0) = coordinates
    cases coordinates with
    | none => rfl
    | some move =>
      by_cases hp : q + 4 < text.length ∧ isspace (charAt text (q + 4)) = false
      · simp only [hp, and_self, if_true]
        cases promotionPiece (charAt text (q + 4)) <;> rfl
      · simp only [hp, if_false]
  · simp only [h, if_false]

theorem skipPtrSpace_stay (p : Nat → Bool) (remaining pos : Nat) (h : p pos = false) :
    skipPtrSpace p remaining pos = pos := by
  cases remaining with
  | zero => rfl
  | succ r => simp [skipPtrSpace, h]

theorem skipPtrSpace_stop (p : Nat → Bool) (remaining : Nat) : ∀ pos : Nat,
    pos ≤ skipPtrSpace p remaining pos ∧
      (skipPtrSpace p remaining pos = pos + remaining ∨
        (skipPtrSpace p remaining pos < pos + remaining ∧
          p (skipPtrSpace p remaining pos) = false)) := by
  induction remaining with
  | zero => intro pos; exact ⟨Nat.le_refl _, Or.inl rfl⟩
  | succ r ih =>
    intro pos
    by_cases h : p pos = true
    · have hs : skipPtrSpace p (r + 1) pos = skipPtrSpace p r (pos + 1) := by
        simp [skipPtrSpace, h]
      rw [hs]
      obtain ⟨h1, h2⟩ := ih (pos + 1)
      refine ⟨by omega, ?_⟩
      rcases h2 with h2 | h2
      · exact Or.inl (by omega)
      · exact Or.inr ⟨by omega, h2.2⟩
    · have hf : p pos = false := by simpa using h
      rw [skipPtrSpace_stay p (r + 1) pos hf]
      exact ⟨Nat.le_refl _, Or.inr ⟨by omega, hf⟩⟩

theorem skipPtrSpace_idem (p : Nat → Bool) (len pos : Nat) (h : pos ≤ len) :
    skipPtrSpace p (len - skipPtrSpace p (len - pos) pos) (skipPtrSpace p (len - pos) pos) =
      skipPtrSpace p (len - pos) pos := by
  obtain ⟨_, h2⟩ := skipPtrSpace_stop p (len - pos) pos
  rcases h2 with h2 | h2
  · have : len - skipPtrSpace p (len - pos) pos = 0 := by omega
    rw [this]
    rfl
  · exact skipPtrSpace_stay p _ _ h2.2

/-- The cursor a pass hands on is the one its whitespace loop stopped at. -/
theorem movePass_cursor (p : Nat → Bool) (text : List Char) (pos q m : Nat)
    (h : movePass p text pos = some (q, m)) :
    q = skipPtrSpace p (text.length - pos) pos := by
  unfold movePass at h
  simp only at h
  split at h
  · exact absurd h (by simp)
  · split at h
    · split at h
      · injection h with h
        injection h with h1 _
        exact h1.symm
      · exact absurd h (by simp)
    · injection h with h
      injection h with h1 _
      exact h1.symm

/-- A pass entered where the last one stopped does the same again. -/
theorem movePass_again (p : Nat → Bool) (text : List Char) (pos q m : Nat)
    (hpos : pos ≤ text.length) (h : movePass p text pos = some (q, m)) :
    movePass p text q = some (q, m) := by
  have hq := movePass_cursor p text pos q m h
  have hidem := skipPtrSpace_idem p text.length pos hpos
  rw [← hq] at hidem
  unfold movePass at h ⊢
  simp only at h ⊢
  rw [hidem]
  rw [← hq] at h
  exact h

/-- The main loop entered at a cursor where a pass stays: every free slot gets the same
code, or the loop test fails at once. -/
theorem moveLoop_stuck (p : Nat → Bool) (text : List Char) (q m : Nat)
    (h : movePass p text q = some (q, m)) : ∀ (slots : Nat) (Moves : List Nat),
    moveLoop p text slots q Moves =
      if q < text.length ∧ (charAt text q).toNat ≠ 0 then
        (0, Moves ++ List.replicate slots m)
      else (0, Moves) := by
  intro slots
  induction slots with
  | zero =>
    intro Moves
    simp [moveLoop]
  | succ n ih =>
    intro Moves
    rw [moveLoop_succ, h]
    by_cases hc : q < text.length ∧ (charAt text q).toNat ≠ 0
    · simp only [hc, and_self, if_true, ne_eq, not_false_eq_true] at ih ⊢
      rw [ih, List.append_assoc, List.singleton_append, List.replicate_succ]
    · simp only [hc, if_false]

/-- Whatever the text and the whitespace test, `ParseMoveString` stores one and the same
code 0 times, once or `maxMoves` times; only a run without any store can return
SyntaxError. -/
theorem ParseMoveString_shape (p : Nat → Bool) (text : List Char) (maxMoves : Nat) :
    ∃ code k m, ParseMoveString p text maxMoves = (code, List.replicate k m) ∧
      (k = 0 ∨ k = 1 ∨ k = maxMoves) ∧ (code = 0 ∨ (code = PARSE_ERROR_SYNTAX_ERROR ∧ k = 0)) := by
  unfold ParseMoveString
  cases maxMoves with
  | zero => exact ⟨0, 0, 0, rfl, Or.inl rfl, Or.inl rfl⟩
  | succ n =>
    rw [moveLoop_succ]
    by_cases hc : 0 < text.length ∧ (charAt text 0).toNat ≠ 0
    · simp only [hc, and_self, if_true, ne_eq, not_false_eq_true]
      cases hm : movePass p text 0 with
      | none => exact ⟨PARSE_ERROR_SYNTAX_ERROR, 0, 0, rfl, Or.inl rfl, Or.inr ⟨rfl, rfl⟩⟩
      | some r =>
        obtain ⟨q, m⟩ := r
        have hagain := movePass_again p text 0 q m (Nat.zero_le _) hm
        simp only [moveLoop_stuck p text q m hagain n]
        by_cases hq : q < text.length ∧ (charAt text q).toNat ≠ 0
        · refine ⟨0, n + 1, m, ?_, Or.inr (Or.inr rfl), Or.inl rfl⟩
          simp only [hq, and_self, if_true, ne_eq, not_false_eq_true, List.nil_append,
            List.singleton_append, List.replicate_succ]
        · refine ⟨0, 1, m, ?_, Or.inr (Or.inl rfl), Or.inl rfl⟩
          simp only [hq, if_false, List.nil_append]
          rfl
    · refine ⟨0, 0, 0, ?_, Or.inl rfl, Or.inl rfl⟩
      simp only [hc, if_false]
      rfl

/-- The loop with the loop test of the source and a budget of loop tests returns as soon
as the budget exceeds the number of free slots: it gives the code and the codes of
`moveLoop`, stored at the indices `idx`, `idx + 1`, ... in this order, at most one for
each free slot. -/
theorem moveRun_spec (p : Nat → Bool) (text : List Char) (maxMoves : Nat) (slots : Nat) :
    ∀ (budget idx pos : Nat) (stores : List (Nat × Nat)),
    idx + slots = maxMoves → slots < budget →
    ∃ log k, moveRun p text maxMoves budget idx pos stores =
        some ((moveLoop p text slots pos (stores.map Prod.snd)).1, log) ∧
      log.map Prod.snd = (moveLoop p text slots pos (stores.map Prod.snd)).2 ∧
      k ≤ slots ∧ log.map Prod.fst = stores.map Prod.fst ++ List.range' idx k := by
  induction slots with
  | zero =>
    intro budget idx pos stores hidx hb
    obtain ⟨b, rfl⟩ : ∃ b, budget = b + 1 := ⟨budget - 1, by omega⟩
    have hnot : ¬ (pos < text.length ∧ (charAt text pos).toNat ≠ 0 ∧ idx < maxMoves) := by
      omega
    refine ⟨stores, 0, ?_, rfl, Nat.le_refl 0, by simp⟩
    simp only [moveRun, hnot, if_false, moveLoop]
  | succ n ih =>
    intro budget idx pos stores hidx hb
    obtain ⟨b, rfl⟩ : ∃ b, budget = b + 1 := ⟨budget - 1, by omega⟩
    have hlt : idx < maxMoves := by omega
    rw [moveLoop_succ]
    by_cases hc : pos < text.length ∧ (charAt text pos).toNat ≠ 0
    · have hc3 : pos < text.length ∧ (charAt text pos).toNat ≠ 0 ∧ idx < maxMoves :=
        ⟨hc.1, hc.2, hlt⟩
      simp only [moveRun, hc3, hc, and_self, if_true, ne_eq, not_false_eq_true]
      cases hm : movePass p text pos with
      | none => exact ⟨stores, 0, rfl, rfl, Nat.zero_le _, by simp⟩
      | some r =>
        obtain ⟨q, m⟩ := r
        obtain ⟨log, k, h1, h2, h3, h4⟩ := ih b (idx + 1) q (stores ++ [(idx, m)]) (by omega)
          (by omega)
        simp only [List.map_append, List.map_cons, List.map_nil] at h1 h2 h4
        refine ⟨log, k + 1, h1, h2, by omega, ?_⟩
        rw [h4, List.append_assoc, List.singleton_append, List.range'_succ]
    · have hc3 : ¬ (pos < text.length ∧ (charAt text pos).toNat ≠ 0 ∧ idx < maxMoves) :=
        fun h => hc ⟨h.1, h.2.1⟩
      refine ⟨stores, 0, ?_, ?_, Nat.zero_le _, by simp⟩
      · simp only [moveRun, hc3, hc, if_false]
      · simp only [hc, if_false]

/-! ## Well-formed coordinate tokens -/

theorem fileLetter_offset (c : Char) (h : c ∈ fileLetters) :
    charOffset c 97 = fileIndex c ∧ fileIndex c < 8 ∧ c.toNat ≠ 0 := by
  simp only [fileLetters, List.mem_cons, List.mem_singleton, List.not_mem_nil, or_false] at h
  rcases h with h | h | h | h | h | h | h | h <;> subst h <;> decide

theorem rankDigit_offset (c : Char) (h : c ∈ rankDigits) :
    charOffset c 49 = c.toNat - 49 ∧ c.toNat - 49 < 8 := by
  simp only [rankDigits, List.mem_cons, List.mem_singleton, List.not_mem_nil, or_false] at h
  rcases h with h | h | h | h | h | h | h | h <;> subst h <;> decide

/-- The fields of the code that the four stores of a pass build from three values below
8: source file, source rank and destination file in their places, the source file once
more in bits 4 to 6, bits 0 to 3 clear. -/
theorem pack_fields : ∀ a < 8, ∀ b < 8, ∀ c < 8,
    ((((((((0 ||| (a <<< 13)) % 65536) ||| (b <<< 10)) % 65536) ||| (c <<< 7)) % 65536) |||
      (a <<< 4)) % 65536) = a * 8192 + b * 1024 + c * 128 + a * 16 := by
  decide

theorem pack_bits : ∀ a < 8, ∀ b < 8, ∀ c < 8,
    ((a * 8192 + b * 1024 + c * 128 + a * 16) >>> 13) &&& 7 = a ∧
    ((a * 8192 + b * 1024 + c * 128 + a * 16) >>> 10) &&& 7 = b ∧
    ((a * 8192 + b * 1024 + c * 128 + a * 16) >>> 7) &&& 7 = c ∧
    ((a * 8192 + b * 1024 + c * 128 + a * 16) >>> 4) &&& 7 = a ∧
    (a * 8192 + b * 1024 + c * 128 + a * 16) &&& 15 = 0 := by
  decide

theorem pack_promotion : ∀ a < 8, ∀ b < 8, ∀ c < 8, ∀ piece < 4,
    (((a * 8192 + b * 1024 + c * 128 + a * 16) ||| (piece <<< 2)) % 65536) =
      a * 8192 + b * 1024 + c * 128 + a * 16 + piece * 4 ∧
    ((a * 8192 + b * 1024 + c * 128 + a * 16 + piece * 4) >>> 2) &&& 3 = piece := by
  decide

/-- The four stores of a pass on a well-formed token. -/
theorem packCoordinates_token (sf sr df dr : Char) (hsf : sf ∈ fileLetters)
    (hsr : sr ∈ rankDigits) (hdf : df ∈ fileLetters) (hdr : dr ∈ rankDigits) :
    packCoordinates sf sr df dr =
      some (fileIndex sf * 8192 + rankIndex sr * 1024 + fileIndex df * 128 +
        fileIndex sf * 16) := by
  obtain ⟨h1, h1lt, _⟩ := fileLetter_offset sf hsf
  obtain ⟨h2, h2lt⟩ := rankDigit_offset sr hsr
  obtain ⟨h3, h3lt, _⟩ := fileLetter_offset df hdf
  obtain ⟨h4, h4lt⟩ := rankDigit_offset dr hdr
  unfold packCoordinates
  simp only [h1, h2, h3, h4, h1lt, h2lt, h3lt, h4lt, if_true]
  rw [pack_fields (fileIndex sf) h1lt (sr.toNat - 49) h2lt (fileIndex df) h3lt]
  rfl

theorem skipPtrSpace_zero (p : Nat → Bool) (remaining : Nat) (h : p 0 = false) :
    skipPtrSpace p remaining 0 = 0 :=
  skipPtrSpace_stay p remaining 0 h

/-- A pass at the start of a text that begins with a well-formed token followed by the
end of the text or by whitespace, when the whitespace loop leaves the cursor there. -/
theorem movePass_token (p : Nat → Bool) (sf sr df dr : Char) (rest : List Char)
    (hp : p 0 = false) (hsf : sf ∈ fileLetters) (hsr : sr ∈ rankDigits)
    (hdf : df ∈ fileLetters) (hdr : dr ∈ rankDigits) (hrest : AtFieldEnd rest) :
    movePass p (sf :: sr :: df :: dr :: rest) 0 =
      some (0, fileIndex sf * 8192 + rankIndex sr * 1024 + fileIndex df * 128 +
        fileIndex sf * 16) := by
  have hpack := packCoordinates_token sf sr df dr hsf hsr hdf hdr
  unfold movePass
  simp only [skipPtrSpace_zero p _ hp, List.length_cons, Nat.zero_add]
  have h3 : 3 < rest.length + 1 + 1 + 1 + 1 := by omega
  have hc : charAt (sf :: sr :: df :: dr :: rest) 0 = sf ∧
      charAt (sf :: sr :: df :: dr :: rest) 1 = sr ∧
      charAt (sf :: sr :: df :: dr :: rest) 2 = df ∧
      charAt (sf :: sr :: df :: dr :: rest) 3 = dr := ⟨rfl, rfl, rfl, rfl⟩
  simp only [h3, if_true, hc, hpack]
  cases rest with
  | nil => simp
  | cons c cs =>
    have hsp : isspace c = true := hrest c (by simp)
    have h4 : charAt (sf :: sr :: df :: dr :: c :: cs) 4 = c := rfl
    simp [h4, hsp]

/-- A pass at the start of a text that begins with a well-formed token and a fifth
character that is not whitespace: the promotion switch decides. -/
theorem movePass_fifth (p : Nat → Bool) (sf sr df dr c : Char) (rest : List Char)
    (hp : p 0 = false) (hsf : sf ∈ fileLetters) (hsr : sr ∈ rankDigits)
    (hdf : df ∈ fileLetters) (hdr : dr ∈ rankDigits) (hc : isspace c = false) :
    movePass p (sf :: sr :: df :: dr :: c :: rest) 0 =
      match promotionPiece c with
      | some piece =>
        some (0, ((fileIndex sf * 8192 + rankIndex sr * 1024 + fileIndex df * 128 +
          fileIndex sf * 16) ||| (piece <<< 2)) % 65536)
      | none => none := by
  have hpack := packCoordinates_token sf sr df dr hsf hsr hdf hdr
  unfold movePass
  simp only [skipPtrSpace_zero p _ hp, List.length_cons, Nat.zero_add]
  have h3 : 3 < rest.length + 1 + 1 + 1 + 1 + 1 := by omega
  have h4 : 4 < rest.length + 1 + 1 + 1 + 1 + 1 := by omega
  have hch : charAt (sf :: sr :: df :: dr :: c :: rest) 0 = sf ∧
      charAt (sf :: sr :: df :: dr :: c :: rest) 1 = sr ∧
      charAt (sf :: sr :: df :: dr :: c :: rest) 2 = df ∧
      charAt (sf :: sr :: df :: dr :: c :: rest) 3 = dr ∧
      charAt (sf :: sr :: df :: dr :: c :: rest) 4 = c := ⟨rfl, rfl, rfl, rfl, rfl⟩
  simp only [h3, h4, if_true, hch, hpack, hc, and_self]

/-- When the first pass stores a code and leaves the cursor at the start of the text,
every slot of the output gets that code and the result is Success. -/
theorem ParseMoveString_repeat (p : Nat → Bool) (c : Char) (cs : List Char) (m maxMoves : Nat)
    (hc : c.toNat ≠ 0) (h : movePass p (c :: cs) 0 = some (0, m)) :
    ParseMoveString p (c :: cs) maxMoves = (0, List.replicate maxMoves m) := by
  have h0 : 0 < (c :: cs).length ∧ (charAt (c :: cs) 0).toNat ≠ 0 :=
    ⟨by simp, hc⟩
  rw [ParseMoveString, moveLoop_stuck p (c :: cs) 0 m h maxMoves []]
  simp only [h0, and_self, if_true, ne_eq, not_false_eq_true, List.nil_append]

/-- When the first pass returns SyntaxError nothing is stored. -/
theorem ParseMoveString_reject (p : Nat → Bool) (c : Char) (cs : List Char) (maxMoves : Nat)
    (hc : c.toNat ≠ 0) (hmax : 1 ≤ maxMoves) (h : movePass p (c :: cs) 0 = none) :
    ParseMoveString p (c :: cs) maxMoves = (PARSE_ERROR_SYNTAX_ERROR, []) := by
  obtain ⟨n, rfl⟩ : ∃ n, maxMoves = n + 1 := ⟨maxMoves - 1, by omega⟩
  have h0 : 0 < (c :: cs).length ∧ (charAt (c :: cs) 0).toNat ≠ 0 :=
    ⟨by simp, hc⟩
  rw [ParseMoveString, moveLoop_succ, h]
  simp only [h0, and_self, if_true, ne_eq, not_false_eq_true]

theorem promotionLetter_facts (c : Char) (h : c ∈ promotionLetters) :
    promotionPiece c = some (promotionCode c) ∧ promotionCode c < 4 ∧
      (promotionCode c = 0 ↔ (c = 'Q' ∨ c = 'q')) := by
  simp only [promotionLetters, List.mem_cons, List.mem_singleton, List.not_mem_nil,
    or_false] at h
  rcases h with h | h | h | h | h | h | h | h <;> subst h <;> decide

theorem promotionPiece_none (c : Char) (h : c ∉ promotionLetters) :
    promotionPiece c = none := by
  simp only [promotionLetters, List.mem_cons, List.mem_singleton, List.not_mem_nil, or_false,
    not_or] at h
  obtain ⟨h1, h2, h3, h4, h5, h6, h7, h8⟩ := h
  unfold promotionPiece
  split <;> first | rfl | contradiction

theorem replicate_pos (n m : Nat) (h : 1 ≤ n) :
    List.replicate n m = m :: List.replicate (n - 1) m := by
  obtain ⟨k, rfl⟩ : ∃ k, n = k + 1 := ⟨n - 1, by omega⟩
  rfl

theorem isMoveToken_iff (t : List Char) : isMoveToken t = true ↔
    ∃ sf sr df dr, t = [sf, sr, df, dr] ∧ sf ∈ fileLetters ∧ sr ∈ rankDigits ∧
      df ∈ fileLetters ∧ dr ∈ rankDigits := by
  constructor
  · intro h
    match t, h with
    | [sf, sr, df, dr], h =>
      simp only [isMoveToken, Bool.and_eq_true, decide_eq_true_eq] at h
      exact ⟨sf, sr, df, dr, rfl, h.1.1.1, h.1.1.2, h.1.2, h.2⟩
    | [], h => simp [isMoveToken] at h
    | [_], h => simp [isMoveToken] at h
    | [_, _], h => simp [isMoveToken] at h
    | [_, _, _], h => simp [isMoveToken] at h
    | _ :: _ :: _ :: _ :: _ :: _, h => simp [isMoveToken] at h
  · rintro ⟨sf, sr, df, dr, rfl, h1, h2, h3, h4⟩
    simp [isMoveToken, h1, h2, h3, h4]

/-- Tokens joined by single spaces begin with the first token, which is followed by a
space or by the end of the text. -/
theorem joinTokens_head (t : List Char) (ts : List (List Char)) :
    ∃ rest, joinTokens (t :: ts) = t ++ rest ∧ AtFieldEnd rest := by
  cases ts with
  | nil => exact ⟨[], by simp [joinTokens], atFieldEnd_nil⟩
  | cons u us => exact ⟨' ' :: joinTokens (u :: us), rfl, atFieldEnd_space _⟩

/-- A text of well-formed tokens joined by single spaces, read with a whitespace loop
that leaves the cursor at its start: every slot of the output gets the code of the first
token, and the result is Success. -/
theorem ParseMoveString_tokens (p : Nat → Bool) (t : List Char) (ts : List (List Char))
    (maxMoves : Nat) (hp : p 0 = false) (ht : isMoveToken t = true) :
    ∃ m, ParseMoveString p (joinTokens (t :: ts)) maxMoves = (0, List.replicate maxMoves m) := by
  obtain ⟨sf, sr, df, dr, rfl, h1, h2, h3, h4⟩ := (isMoveToken_iff t).1 ht
  obtain ⟨rest, hjoin, hrest⟩ := joinTokens_head [sf, sr, df, dr] ts
  rw [hjoin]
  exact ⟨_, ParseMoveString_repeat p sf _ _ maxMoves (fileLetter_offset sf h1).2.2
    (movePass_token p sf sr df dr rest hp h1 h2 h3 h4 hrest)⟩

/-! ## Termination -/

theorem fullmoveDigits_suffix (pos : List Char) : ∀ board : Board,
    (fullmoveDigits pos board).1 <:+ pos := by
  induction pos with
  | nil => intro _; exact List.suffix_refl []
  | cons c cs ih =>
    intro board
    rw [fullmoveDigits]
    split
    · exact (ih _).trans (List.suffix_cons c cs)
    · exact List.suffix_refl _

theorem parseFullmove_suffix (pos : List Char) (board : Board) :
    (parseFullmove pos board).1 <:+ pos := by
  cases pos with
  | nil => exact List.suffix_refl []
  | cons c cs => exact fullmoveDigits_suffix (c :: cs) _

/-- With a budget above `maxMoves` the budgeted loop returns what `ParseMoveString`
returns, after at most `maxMoves` stores. -/
theorem moveRun_returns (p : Nat → Bool) (text : List Char) (maxMoves budget : Nat)
    (hb : maxMoves < budget) :
    ∃ log, moveRun p text maxMoves budget 0 0 [] =
        some ((ParseMoveString p text maxMoves).1, log) ∧
      log.map Prod.snd = (ParseMoveString p text maxMoves).2 ∧ log.length ≤ maxMoves := by
  obtain ⟨log, k, h1, h2, h3, h4⟩ := moveRun_spec p text maxMoves maxMoves budget 0 0 []
    (by omega) hb
  simp only [List.map_nil, List.nil_append] at h1 h2 h4
  have hlen : log.length = k := by
    have := congrArg List.length h4
    simpa using this
  exact ⟨log, h1, h2, by omega⟩

/-! ## The halfmove clock of a text that is well formed up to it -/

/-- A text that is well formed up to a halfmove clock of digits: the clock stored is
the decimal value of the digits modulo 128, whatever follows the digit run. -/
theorem ParseFen_halfmove (ranks : List (List Char)) (colour : Char)
    (castling ep half rest : List Char) (board : Board)
    (hl : isLayout ranks = true) (hc : isColour colour = true)
    (hk : isCastlingField castling = true) (hep : isEnPassantField ep = true)
    (hh : isNumber half = true) (hrest : AtNumberEnd rest) :
    ∃ code b, ParseFen (joinRanks ranks ++ ' ' :: colour :: ' ' ::
        (castling ++ ' ' :: (ep ++ ' ' :: (half ++ rest)))) board = some (code, b) ∧
      b.HalfmoveClock = decimalValue half % 128 := by
  obtain ⟨b1, _, _, _, _, _, hb1⟩ := ParseFen_upto_castling ranks colour castling
    (' ' :: (ep ++ ' ' :: (half ++ rest))) board hl hc hk (atFieldEnd_space _)
  obtain ⟨b2, _, hb2⟩ := fieldsFromEnPassant_field ep (' ' :: (half ++ rest)) b1 hep
  have hb3 := fieldsFromHalfmove_number half rest b2 hh hrest
  have hframe := parseFullmove_frame (skipSpace rest)
    { b2 with HalfmoveClock := decimalValue half % 128 }
  rw [hb1, hb2, hb3]
  simp only [finishFen]
  split
  · exact ⟨_, _, rfl, hframe.2.1⟩
  · exact ⟨_, _, rfl, hframe.2.1⟩

/-! ## Whitespace between the fields of a FEN text -/

theorem skipSpace_idem (s : List Char) : skipSpace (skipSpace s) = skipSpace s := by
  induction s with
  | nil => rfl
  | cons c s ih =>
    by_cases h : isspace c = true
    · rw [skipSpace_space c s h]
      exact ih
    · have hf : isspace c = false := by simpa using h
      rw [skipSpace_stay c s hf, skipSpace_stay c s hf]

theorem SameTokens.skip {s t : List Char} (h : SameTokens s t) :
    SameTokens (skipSpace s) (skipSpace t) := by
  cases h with
  | nil => exact SameTokens.nil
  | char c s t hc hst =>
    rw [skipSpace_stay c s hc, skipSpace_stay c t hc]
    exact SameTokens.char c s t hc hst
  | space a b s t ha hb hst =>
    rw [skipSpace_space a s ha, skipSpace_space b t hb]
    exact hst

theorem SameTokens.same (s : List Char) : SameTokens s s := by
  induction s with
  | nil => exact SameTokens.nil
  | cons c s ih =>
    by_cases h : isspace c = true
    · exact SameTokens.space c c s s h h ih.skip
    · exact SameTokens.char c s s (by simpa using h) ih

theorem SameTokens.append_left (f : List Char) {s t : List Char} (h : SameTokens s t) :
    SameTokens (f ++ s) (f ++ t) := by
  induction f with
  | nil => exact h
  | cons c f ih =>
    by_cases hc : isspace c = true
    · exact SameTokens.space c c _ _ hc hc ih.skip
    · exact SameTokens.char c _ _ (by simpa using hc) ih

/-- A non-empty run of whitespace against a single space. -/
theorem SameTokens.separator (sep : List Char) {s t : List Char} (hne : sep ≠ [])
    (hsep : ∀ c ∈ sep, isspace c = true) (h : SameTokens s t) :
    SameTokens (sep ++ s) (' ' :: t) := by
  cases sep with
  | nil => exact absurd rfl hne
  | cons a sep =>
    refine SameTokens.space a ' ' (sep ++ s) t (hsep a (by simp)) (by decide) ?_
    rw [skipSpace_run sep s (fun c hc => hsep c (List.mem_cons_of_mem a hc))]
    exact h.skip

/-- Behind the whitespace, two such texts are both at their end or both at the same
character, with what follows differing in whitespace only. -/
theorem SameTokens.skip_cases {s t : List Char} (h : SameTokens s t) :
    (skipSpace s = [] ∧ skipSpace t = []) ∨
      ∃ c u v, isspace c = false ∧ skipSpace s = c :: u ∧ skipSpace t = c :: v ∧
        SameTokens u v := by
  induction h with
  | nil => exact Or.inl ⟨rfl, rfl⟩
  | char c s t hc hst _ =>
    exact Or.inr ⟨c, s, t, hc, skipSpace_stay c s hc, skipSpace_stay c t hc, hst⟩
  | space a b s t ha hb _ ih =>
    rw [skipSpace_space a s ha, skipSpace_space b t hb]
    rw [skipSpace_idem, skipSpace_idem] at ih
    exact ih

theorem FlowSame.chain {x y : Flow (List Char × Board)}
    {f : List Char × Board → Flow (List Char × Board)} (h : FlowSame x y)
    (hf : ∀ s t b, SameTokens s t → FlowSame (f (s, b)) (f (t, b))) :
    FlowSame (x.bind f) (y.bind f) := by
  cases x with
  | next s =>
    cases y with
    | next t =>
      obtain ⟨s1, b1⟩ := s
      obtain ⟨t1, b2⟩ := t
      obtain ⟨h1, h2⟩ := h
      simp only at h1 h2
      subst h2
      exact hf s1 t1 b1 h1
    | ret c b => exact h.elim
    | fault => exact h.elim
  | ret c b =>
    cases y with
    | next t => exact h.elim
    | ret d e => exact h
    | fault => exact h.elim
  | fault =>
    cases y with
    | next t => exact h.elim
    | ret d e => exact h.elim
    | fault => trivial

/-- The layout loop on two such texts. -/
theorem parseBoardState_same {s t : List Char} (h : SameTokens s t) :
    ∀ (rank file : Nat) (board : Board),
    FlowSame (parseBoardState s rank file board) (parseBoardState t rank file board) := by
  induction h with
  | nil => intro _ _ board; exact ⟨SameTokens.nil, rfl⟩
  | char c s t hc hst ih =>
    intro rank file board
    rw [parseBoardState, parseBoardState]
    simp only [hc, Bool.false_eq_true, if_false]
    cases layoutBody c rank file board with
    | next r => exact ih r.1 r.2.1 r.2.2
    | ret code b => exact ⟨rfl, rfl⟩
    | fault => trivial
  | space a b s t ha hb hst _ =>
    intro rank file board
    rw [parseBoardState_stop a s rank file board ha, parseBoardState_stop b t rank file board hb]
    exact ⟨SameTokens.space a b s t ha hb hst, rfl⟩

theorem space_not_digit (a : Char) (h : isspace a = true) : isdigit a = false := by
  by_contra hd
  have := digit_not_space a (by simpa using hd)
  rw [h] at this
  exact absurd this (by decide)

theorem SameTokens.nil_iff {s t : List Char} (h : SameTokens s t) : s = [] ↔ t = [] := by
  cases h <;> simp

theorem halfmoveDigits_same {s t : List Char} (h : SameTokens s t) : ∀ board : Board,
    SameTokens (halfmoveDigits s board).1 (halfmoveDigits t board).1 ∧
      (halfmoveDigits s board).2 = (halfmoveDigits t board).2 := by
  induction h with
  | nil => intro _; exact ⟨SameTokens.nil, rfl⟩
  | char c s t hc hst ih =>
    intro board
    rw [halfmoveDigits, halfmoveDigits]
    by_cases hd : isdigit c = true
    · simp only [hd, if_true]
      exact ih _
    · simp only [hd, if_false]
      exact ⟨SameTokens.char c s t hc hst, rfl⟩
  | space a b s t ha hb hst _ =>
    intro board
    rw [halfmoveDigits_end (a :: s) board (by
        intro x hx
        simp only [List.head?_cons, Option.mem_def, Option.some.injEq] at hx
        subst hx
        exact space_not_digit _ ha),
      halfmoveDigits_end (b :: t) board (by
        intro x hx
        simp only [List.head?_cons, Option.mem_def, Option.some.injEq] at hx
        subst hx
        exact space_not_digit _ hb)]
    exact ⟨SameTokens.space a b s t ha hb hst, rfl⟩

theorem fullmoveDigits_same {s t : List Char} (h : SameTokens s t) : ∀ board : Board,
    SameTokens (fullmoveDigits s board).1 (fullmoveDigits t board).1 ∧
      (fullmoveDigits s board).2 = (fullmoveDigits t board).2 := by
  induction h with
  | nil => intro _; exact ⟨SameTokens.nil, rfl⟩
  | char c s t hc hst ih =>
    intro board
    rw [fullmoveDigits, fullmoveDigits]
    by_cases hd : isdigit c = true
    · simp only [hd, if_true]
      exact ih _
    · simp only [hd, if_false]
      exact ⟨SameTokens.char c s t hc hst, rfl⟩
  | space a b s t ha hb hst _ =>
    intro board
    rw [fullmoveDigits_end (a :: s) board (by
        intro x hx
        simp only [List.head?_cons, Option.mem_def, Option.some.injEq] at hx
        subst hx
        exact space_not_digit _ ha),
      fullmoveDigits_end (b :: t) board (by
        intro x hx
        simp only [List.head?_cons, Option.mem_def, Option.some.injEq] at hx
        subst hx
        exact space_not_digit _ hb)]
    exact ⟨SameTokens.space a b s t ha hb hst, rfl⟩

theorem parseHalfmove_same {s t : List Char} (h : SameTokens s t) (board : Board) :
    SameTokens (parseHalfmove s board).1 (parseHalfmove t board).1 ∧
      (parseHalfmove s board).2 = (parseHalfmove t board).2 := by
  cases h with
  | nil => exact ⟨SameTokens.nil, rfl⟩
  | char c s t hc hst =>
    exact halfmoveDigits_same (SameTokens.char c s t hc hst) _
  | space a b s t ha hb hst =>
    exact halfmoveDigits_same (SameTokens.space a b s t ha hb hst) _

theorem parseFullmove_same {s t : List Char} (h : SameTokens s t) (board : Board) :
    (parseFullmove s board).2 = (parseFullmove t board).2 := by
  cases h with
  | nil => rfl
  | char c s t hc hst =>
    have h2 := (fullmoveDigits_same (SameTokens.char c s t hc hst)
      { board with FullmoveCounter := 0 }).2
    simp only [parseFullmove, h2]
  | space a b s t ha hb hst =>
    have h2 := (fullmoveDigits_same (SameTokens.space a b s t ha hb hst)
      { board with FullmoveCounter := 0 }).2
    simp only [parseFullmove, h2]

theorem fieldsFromHalfmove_same {s t : List Char} (h : SameTokens s t) (board : Board) :
    FlowSame (fieldsFromHalfmove s board) (fieldsFromHalfmove t board) := by
  obtain ⟨h1, h2⟩ := parseHalfmove_same h.skip board
  exact ⟨h1.skip, h2⟩

theorem finishFen_same {x y : Flow (List Char × Board)} (h : FlowSame x y) :
    finishFen x = finishFen y := by
  cases x with
  | next s =>
    cases y with
    | next t =>
      obtain ⟨s1, b1⟩ := s
      obtain ⟨t1, b2⟩ := t
      obtain ⟨h1, h2⟩ := h
      simp only at h1 h2
      subst h2
      simp only [finishFen, parseFullmove_same h1 b1]
    | ret c b => exact h.elim
    | fault => exact h.elim
  | ret c b =>
    cases y with
    | next t => exact h.elim
    | ret d e =>
      obtain ⟨h1, h2⟩ := h
      subst h1
      subst h2
      rfl
    | fault => exact h.elim
  | fault =>
    cases y with
    | next t => exact h.elim
    | ret d e => exact h.elim
    | fault => rfl

theorem space_not_rank (a : Char) (h : isspace a = true) : a ≠ '3' ∧ a ≠ '6' := by
  constructor <;> intro he <;> subst he <;> exact absurd h (by decide)

/-- The en-passant block on two such texts, behind the whitespace. -/
theorem parseEnPassant_same {s t : List Char} (h : SameTokens s t) (board : Board) :
    FlowSame (parseEnPassant (skipSpace s) board) (parseEnPassant (skipSpace t) board) := by
  rcases h.skip_cases with ⟨h1, h2⟩ | ⟨c, u, v, _, h1, h2, huv⟩
  · rw [h1, h2]
    exact ⟨SameTokens.nil, rfl⟩
  · rw [h1, h2]
    by_cases hc : c = '-'
    · simp only [parseEnPassant, hc, if_true]
      exact ⟨huv, rfl⟩
    · cases huv with
      | nil =>
        simp only [parseEnPassant, hc, if_false]
        exact ⟨rfl, rfl⟩
      | char r u v hr huv =>
        simp only [parseEnPassant, hc, if_false]
        split
        · exact ⟨rfl, rfl⟩
        · split
          · cases BoardSetSquare board (c.toNat - 97) RANK_4
                BOARD_DATA_WHITE_PAWN_EP_CAPTURABLE with
            | none => trivial
            | some b => exact ⟨huv, rfl⟩
          · split
            · cases BoardSetSquare board (c.toNat - 97) RANK_5
                  BOARD_DATA_BLACK_PAWN_EP_CAPTURABLE with
              | none => trivial
              | some b => exact ⟨huv, rfl⟩
            · exact ⟨rfl, rfl⟩
      | space a b u v ha hb huv =>
        obtain ⟨ha3, ha6⟩ := space_not_rank a ha
        obtain ⟨hb3, hb6⟩ := space_not_rank b hb
        simp only [parseEnPassant, hc, if_false, ha3, ha6, hb3, hb6]
        split <;> exact ⟨rfl, rfl⟩

theorem fieldsFromEnPassant_same {s t : List Char} (h : SameTokens s t) (board : Board) :
    FlowSame (fieldsFromEnPassant s board) (fieldsFromEnPassant t board) :=
  FlowSame.chain (parseEnPassant_same h board) (fun _ _ b hst => fieldsFromHalfmove_same hst b)

theorem castlingLoop_same {s t : List Char} (h : SameTokens s t) : ∀ board : Board,
    FlowSame (castlingLoop s board) (castlingLoop t board) := by
  induction h with
  | nil => intro _; exact ⟨SameTokens.nil, rfl⟩
  | char c s t hc hst ih =>
    intro board
    rw [castlingLoop, castlingLoop]
    simp only [hc, Bool.false_eq_true, if_false]
    cases castlingFlag c with
    | none => exact ⟨rfl, rfl⟩
    | some flag => exact ih _
  | space a b s t ha hb hst _ =>
    intro board
    rw [castlingLoop_end (a :: s) board (by
        intro x hx
        simp only [List.head?_cons, Option.mem_def, Option.some.injEq] at hx
        subst hx
        exact ha),
      castlingLoop_end (b :: t) board (by
        intro x hx
        simp only [List.head?_cons, Option.mem_def, Option.some.injEq] at hx
        subst hx
        exact hb)]
    exact ⟨SameTokens.space a b s t ha hb hst, rfl⟩

theorem parseCastling_same {s t : List Char} (h : SameTokens s t) (board : Board) :
    FlowSame (parseCastling (skipSpace s) board) (parseCastling (skipSpace t) board) := by
  rcases h.skip_cases with ⟨h1, h2⟩ | ⟨c, u, v, hcs, h1, h2, huv⟩
  · rw [h1, h2]
    exact ⟨SameTokens.nil, rfl⟩
  · rw [h1, h2]
    by_cases hc : c = '-'
    · simp only [parseCastling, hc, if_true]
      exact ⟨huv, rfl⟩
    · simp only [parseCastling, hc, if_false]
      exact castlingLoop_same (SameTokens.char c u v hcs huv) _

theorem fieldsFromCastling_same {s t : List Char} (h : SameTokens s t) (board : Board) :
    FlowSame (fieldsFromCastling s board) (fieldsFromCastling t board) :=
  FlowSame.chain (parseCastling_same h board) (fun _ _ b hst => fieldsFromEnPassant_same hst b)

theorem parsePlayerMove_same {s t : List Char} (h : SameTokens s t) (board : Board) :
    FlowSame (parsePlayerMove (skipSpace s) board) (parsePlayerMove (skipSpace t) board) := by
  rcases h.skip_cases with ⟨h1, h2⟩ | ⟨c, u, v, _, h1, h2, huv⟩
  · rw [h1, h2]
    exact ⟨SameTokens.nil, rfl⟩
  · rw [h1, h2]
    simp only [parsePlayerMove]
    split
    · exact ⟨huv, rfl⟩
    · split
      · exact ⟨huv, rfl⟩
      · exact ⟨rfl, rfl⟩

theorem fieldsFromPlayerMove_same {s t : List Char} (h : SameTokens s t) (board : Board) :
    FlowSame (fieldsFromPlayerMove s board) (fieldsFromPlayerMove t board) :=
  FlowSame.chain (parsePlayerMove_same h board) (fun _ _ b hst => fieldsFromCastling_same hst b)

/-- `ParseFen` gives the same code and the same board on two texts that, behind their
leading whitespace, differ in their runs of whitespace only. -/
theorem ParseFen_same (s t : List Char) (board : Board)
    (h : SameTokens (skipSpace s) (skipSpace t)) : ParseFen s board = ParseFen t board := by
  unfold ParseFen parseFenFields
  exact finishFen_same (FlowSame.chain (parseBoardState_same h RANK_8 FILE_A board)
    (fun _ _ b hst => fieldsFromPlayerMove_same hst b))

/-- Fields joined by non-empty runs of whitespace against the same fields joined by
single spaces. -/
theorem joinSpaced_same (fields : List (List Char)) : ∀ seps : List (List Char),
    (∀ sep ∈ seps, sep ≠ [] ∧ ∀ c ∈ sep, isspace c = true) →
    SameTokens (joinSpaced fields seps) (joinTokens fields) := by
  induction fields with
  | nil => intro _ _; exact SameTokens.nil
  | cons f fs ih =>
    intro seps hseps
    cases fs with
    | nil =>
      cases seps <;> exact SameTokens.same f
    | cons g gs =>
      cases seps with
      | nil =>
        exact SameTokens.append_left f
          (SameTokens.space ' ' ' ' _ _ (by decide) (by decide) (ih [] hseps).skip)
      | cons sep seps =>
        obtain ⟨hne, hsp⟩ := hseps sep (by simp)
        exact SameTokens.append_left f (SameTokens.separator sep hne hsp
          (ih seps (fun x hx => hseps x (List.mem_cons_of_mem sep hx))))

/-! ## Calls of isspace that do not return -/

/-- When every call returns, the whitespace loop is the one of `skipPtrSpace`. -/
theorem skipPtrSpaceCall_returns (p : Nat → Bool) (remaining : Nat) : ∀ pos : Nat,
    skipPtrSpaceCall (ptrCallReturns p) remaining pos = some (skipPtrSpace p remaining pos) := by
  induction remaining with
  | zero => intro pos; rfl
  | succ r ih =>
    intro pos
    cases h : p pos with
    | true =>
      simp only [skipPtrSpaceCall, skipPtrSpace, ptrCallReturns, h, if_true]
      exact ih (pos + 1)
    | false =>
      simp only [skipPtrSpaceCall, skipPtrSpace, ptrCallReturns, h]
      rfl

/-- A call that faults at the cursor ends the run in the whitespace loop. -/
theorem skipPtrSpaceCall_fault (q : Nat → Option Bool) (remaining pos : Nat)
    (h : q pos = none) : skipPtrSpaceCall q (remaining + 1) pos = none := by
  simp only [skipPtrSpaceCall, h]

/-- The whitespace loop only moves the cursor forward, and not beyond the text. -/
theorem skipPtrSpaceCall_bound (q : Nat → Option Bool) (remaining : Nat) :
    ∀ pos pos1 : Nat, skipPtrSpaceCall q remaining pos = some pos1 →
      pos ≤ pos1 ∧ pos1 ≤ pos + remaining := by
  induction remaining with
  | zero =>
    intro pos pos1 h
    simp only [skipPtrSpaceCall, Option.some.injEq] at h
    omega
  | succ r ih =>
    intro pos pos1 h
    cases hq : q pos with
    | none => simp [skipPtrSpaceCall, hq] at h
    | some b =>
      cases b with
      | true =>
        simp only [skipPtrSpaceCall, hq] at h
        have := ih (pos + 1) pos1 h
        omega
      | false =>
        simp only [skipPtrSpaceCall, hq, Option.some.injEq] at h
        omega

/-- A pass of the body is its whitespace loop followed by `tokenPass`. -/
theorem movePass_tokenPass (p : Nat → Bool) (text : List Char) (pos : Nat) :
    movePass p text pos =
      (tokenPass text (skipPtrSpace p (text.length - pos) pos)).map
        fun m => (skipPtrSpace p (text.length - pos) pos, m) := by
  unfold movePass tokenPass
  simp only
  generalize skipPtrSpace p (text.length - pos) pos = q
  generalize (if q + 3 < text.length then
    packCoordinates (charAt text q) (charAt text (q + 1)) (charAt text (q + 2))
      (charAt text (q + 3)) else some 0) = coordinates
  cases coordinates with
  | none => rfl
  | some move =>
    by_cases hp : q + 4 < text.length ∧ isspace (charAt text (q + 4)) = false
    · simp only [hp, and_self, if_true]
      cases promotionPiece (charAt text (q + 4)) <;> rfl
    · simp only [hp, if_false, Option.map_some']

/-- When every call returns, the run is the run of `moveRun`, and it returns. -/
theorem moveRunCall_returns (p : Nat → Bool) (text : List Char) (maxMoves : Nat) :
    ∀ (budget idx pos : Nat) (stores : List (Nat × Nat)),
    moveRunCall (ptrCallReturns p) text maxMoves budget idx pos stores =
      (moveRun p text maxMoves budget idx pos stores).map
        fun r => MoveOutcome.returned r.1 r.2 := by
  intro budget
  induction budget with
  | zero => intro idx pos stores; rfl
  | succ b ih =>
    intro idx pos stores
    by_cases hc : pos < text.length ∧ (charAt text pos).toNat ≠ 0 ∧ idx < maxMoves
    · simp only [moveRunCall, moveRun, hc, and_self, if_true, ne_eq, not_false_eq_true,
        skipPtrSpaceCall_returns, movePass_tokenPass]
      cases tokenPass text (skipPtrSpace p (text.length - pos) pos) with
      | none => rfl
      | some m =>
        simp only [Option.map_some']
        exact ih _ _ _
    · simp only [moveRunCall, moveRun, hc, if_false, Option.map_some']

/-- Whatever the calls of `isspace` do, the run ends as soon as the budget exceeds the
number of free slots: it returns or a call faults; the stores made go to the indices
`idx`, `idx + 1`, ... in this order, at most one for each free slot. -/
theorem moveRunCall_ends (q : Nat → Option Bool) (text : List Char) (maxMoves : Nat)
    (slots : Nat) : ∀ (budget idx pos : Nat) (stores : List (Nat × Nat)),
    idx + slots = maxMoves → slots < budget →
    ∃ outcome k, moveRunCall q text maxMoves budget idx pos stores = some outcome ∧
      k ≤ slots ∧ outcome.stores.map Prod.fst = stores.map Prod.fst ++ List.range' idx k := by
  induction slots with
  | zero =>
    intro budget idx pos stores hidx hb
    obtain ⟨b, rfl⟩ : ∃ b, budget = b + 1 := ⟨budget - 1, by omega⟩
    have hnot : ¬ (pos < text.length ∧ (charAt text pos).toNat ≠ 0 ∧ idx < maxMoves) := by
      omega
    refine ⟨.returned 0 stores, 0, ?_, Nat.le_refl 0, by simp [MoveOutcome.stores]⟩
    simp only [moveRunCall, hnot, if_false]
  | succ n ih =>
    intro budget idx pos stores hidx hb
    obtain ⟨b, rfl⟩ : ∃ b, budget = b + 1 := ⟨budget - 1, by omega⟩
    by_cases hc : pos < text.length ∧ (charAt text pos).toNat ≠ 0 ∧ idx < maxMoves
    · simp only [moveRunCall, hc, and_self, if_true, ne_eq, not_false_eq_true]
      cases skipPtrSpaceCall q (text.length - pos) pos with
      | none => exact ⟨.faulted stores, 0, rfl, Nat.zero_le _, by simp [MoveOutcome.stores]⟩
      | some pos1 =>
        cases ht : tokenPass text pos1 with
        | none =>
          refine ⟨.returned PARSE_ERROR_SYNTAX_ERROR stores, 0, ?_, Nat.zero_le _,
            by simp [MoveOutcome.stores]⟩
          simp only [ht]
        | some m =>
          obtain ⟨outcome, k, h1, h2, h3⟩ := ih b (idx + 1) pos1 (stores ++ [(idx, m)])
            (by omega) (by omega)
          simp only [List.map_append, List.map_cons, List.map_nil] at h3
          refine ⟨outcome, k + 1, ?_, by omega, ?_⟩
          · simp only [ht]
            exact h1
          · rw [h3, List.append_assoc, List.singleton_append, List.range'_succ]
    · refine ⟨.returned 0 stores, 0, ?_, Nat.zero_le _, by simp [MoveOutcome.stores]⟩
      simp only [moveRunCall, hc, if_false]

/-- A text that is empty or begins with NUL, or no room for a code: the loop test fails
at once and the function returns 0 without a call of `isspace` and without a store. -/
theorem moveRunCall_nothing (q : Nat → Option Bool) (text : List Char) (maxMoves budget : Nat)
    (h : ¬ (0 < text.length ∧ (charAt text 0).toNat ≠ 0 ∧ 0 < maxMoves)) :
    moveRunCall q text maxMoves (budget + 1) 0 0 [] = some (.returned 0 []) := by
  simp only [moveRunCall, h, if_false]

/-- A first pass whose whitespace test faults: the run ends there without a store. -/
theorem moveRunCall_fault (q : Nat → Option Bool) (c : Char) (cs : List Char)
    (maxMoves budget : Nat) (hq : q 0 = none) (hnul : c.toNat ≠ 0) (hmax : 1 ≤ maxMoves) :
    moveRunCall q (c :: cs) maxMoves (budget + 1) 0 0 [] = some (.faulted []) := by
  have hc : 0 < (c :: cs).length ∧ (charAt (c :: cs) 0).toNat ≠ 0 ∧ 0 < maxMoves :=
    ⟨by simp, hnul, by omega⟩
  have hlen : (c :: cs).length - 0 = cs.length + 1 := by simp
  simp only [moveRunCall, hc, and_self, if_true, ne_eq, not_false_eq_true, hlen,
    skipPtrSpaceCall_fault q _ 0 hq]

theorem skipSpaceSteps_add (pos : List Char) :
    skipSpaceSteps pos + (skipSpace pos).length = pos.length := by
  induction pos with
  | nil => rfl
  | cons c cs ih =>
    by_cases h : isspace c = true
    · have hs : skipSpace (c :: cs) = skipSpace cs := by
        simp [skipSpace, List.dropWhile, h]
      simp only [skipSpaceSteps, h, if_true, hs, List.length_cons]
      omega
    · have hf : isspace c = false := by simpa using h
      have hs : skipSpace (c :: cs) = c :: cs := by
        simp [skipSpace, List.dropWhile, hf]
      simp only [skipSpaceSteps, hf, hs, List.length_cons]
      simp

theorem parseBoardState_steps (pos : List Char) : ∀ (rank file : Nat) (board : Board),
    StepsGood pos (parseBoardStateSteps pos rank file board)
      (parseBoardState pos rank file board) := by
  induction pos with
  | nil => intro rank file board; simp [StepsGood, parseBoardState, parseBoardStateSteps]
  | cons c cs ih =>
    intro rank file board
    by_cases h : isspace c = true
    · simp [StepsGood, parseBoardState, parseBoardStateSteps, h]
    · have hf : isspace c = false := by simpa using h
      simp only [parseBoardState, parseBoardStateSteps, hf]
      cases hb : layoutBody c rank file board with
      | next s =>
        obtain ⟨rank1, file1, b⟩ := s
        have := ih rank1 file1 b
        simp only [Bool.false_eq_true, if_false]
        unfold StepsGood at this ⊢
        cases hr : parseBoardState cs rank1 file1 b with
        | next t => rw [hr] at this; simp only [List.length_cons] at this ⊢; omega
        | ret code b2 => rw [hr] at this; simp only [List.length_cons] at this ⊢; omega
        | fault => rw [hr] at this; simp only [List.length_cons] at this ⊢; omega
      | ret code b => simp [StepsGood]
      | fault => simp [StepsGood]

theorem parsePlayerMove_steps (pos : List Char) (board : Board) :
    StepsGood pos (parsePlayerMoveSteps pos) (parsePlayerMove pos board) := by
  cases pos with
  | nil => simp [StepsGood, parsePlayerMove, parsePlayerMoveSteps]
  | cons c cs =>
    by_cases h1 : c = 'w' ∨ c = 'W'
    · simp [StepsGood, parsePlayerMove, parsePlayerMoveSteps, h1]
      omega
    · by_cases h2 : c = 'b' ∨ c = 'B'
      · simp [StepsGood, parsePlayerMove, parsePlayerMoveSteps, h1, h2]
        omega
      · simp [StepsGood, parsePlayerMove, parsePlayerMoveSteps, h1, h2]

theorem castlingLoop_steps (pos : List Char) : ∀ board : Board,
    StepsGood pos (castlingLoopSteps pos) (castlingLoop pos board) := by
  induction pos with
  | nil => intro board; simp [StepsGood, castlingLoop, castlingLoopSteps]
  | cons c cs ih =>
    intro board
    by_cases h : isspace c = true
    · simp [StepsGood, castlingLoop, castlingLoopSteps, h]
    · have hf : isspace c = false := by simpa using h
      simp only [castlingLoop, castlingLoopSteps, hf]
      cases hflag : castlingFlag c with
      | none => simp [StepsGood]
      | some flag =>
        have := ih { board with CastlingRights := (board.CastlingRights ||| flag) % 16 }
        simp only [Bool.false_eq_true, if_false]
        unfold StepsGood at this ⊢
        cases hr : castlingLoop cs
            { board with CastlingRights := (board.CastlingRights ||| flag) % 16 } with
        | next t => rw [hr] at this; simp only [List.length_cons] at this ⊢; omega
        | ret code b2 => rw [hr] at this; simp only [List.length_cons] at this ⊢; omega
        | fault => rw [hr] at this; simp only [List.length_cons] at this ⊢; omega

theorem parseCastling_steps (pos : List Char) (board : Board) :
    StepsGood pos (parseCastlingSteps pos) (parseCastling pos board) := by
  cases pos with
  | nil => simp [StepsGood, parseCastling, parseCastlingSteps]
  | cons c cs =>
    by_cases h : c = '-'
    · simp [StepsGood, parseCastling, parseCastlingSteps, h]
      omega
    · simp only [parseCastling, parseCastlingSteps, h, if_false]
      exact castlingLoop_steps (c :: cs) _

theorem parseEnPassant_steps (pos : List Char) (board : Board) :
    StepsGood pos (parseEnPassantSteps pos board) (parseEnPassant pos board) := by
  cases pos with
  | nil => simp [StepsGood, parseEnPassant, parseEnPassantSteps]
  | cons c cs =>
    by_cases h : c = '-'
    · simp [StepsGood, parseEnPassant, parseEnPassantSteps, h]
      omega
    · cases cs with
      | nil => simp [StepsGood, parseEnPassant, parseEnPassantSteps, h]
      | cons r rest =>
        simp only [parseEnPassant, parseEnPassantSteps, h, if_false]
        by_cases hfile : c.toNat < 97 ∨ c.toNat > 104
        · simp [StepsGood, hfile]
        · simp only [hfile, if_false]
          by_cases h3 : r = '3'
          · simp only [h3, if_true]
            cases BoardSetSquare board (c.toNat - 97) RANK_4
                BOARD_DATA_WHITE_PAWN_EP_CAPTURABLE with
            | none => simp [StepsGood]
            | some b => simp [StepsGood]; omega
          · simp only [h3, if_false]
            by_cases h6 : r = '6'
            · simp only [h6, if_true]
              cases BoardSetSquare board (c.toNat - 97) RANK_5
                  BOARD_DATA_BLACK_PAWN_EP_CAPTURABLE with
              | none => simp [StepsGood]
              | some b => simp [StepsGood]; omega
            · simp [StepsGood, h6]

theorem halfmoveDigits_steps (pos : List Char) : ∀ board : Board,
    digitSteps pos + (halfmoveDigits pos board).1.length = pos.length := by
  induction pos with
  | nil => intro board; rfl
  | cons c cs ih =>
    intro board
    by_cases h : isdigit c = true
    · simp only [digitSteps, halfmoveDigits, h, if_true, List.length_cons]
      have := ih { board with
        HalfmoveClock := (board.HalfmoveClock * 10 + (c.toNat - 48)) % 128 }
      omega
    · have hf : isdigit c = false := by simpa using h
      simp [digitSteps, halfmoveDigits, hf]

theorem fullmoveDigits_steps (pos : List Char) : ∀ board : Board,
    digitSteps pos + (fullmoveDigits pos board).1.length = pos.length := by
  induction pos with
  | nil => intro board; rfl
  | cons c cs ih =>
    intro board
    by_cases h : isdigit c = true
    · simp only [digitSteps, fullmoveDigits, h, if_true, List.length_cons]
      have := ih { board with
        FullmoveCounter := (board.FullmoveCounter * 10 + (c.toNat - 48)) % 4096 }
      omega
    · have hf : isdigit c = false := by simpa using h
      simp [digitSteps, fullmoveDigits, hf]

theorem parseHalfmove_steps (pos : List Char) (board : Board) :
    digitSteps pos + (parseHalfmove pos board).1.length = pos.length := by
  cases pos with
  | nil => rfl
  | cons c cs => exact halfmoveDigits_steps (c :: cs) _

theorem parseFullmove_steps (pos : List Char) (board : Board) :
    digitSteps pos + (parseFullmove pos board).1.length = pos.length := by
  cases pos with
  | nil => rfl
  | cons c cs => exact fullmoveDigits_steps (c :: cs) _

/-- The steps of a block and of the blocks behind it add up. -/
theorem stepsGood_bind (input : List Char) (n : Nat) (x : Flow (List Char × Board))
    (g : List Char → Board → Nat) (f : List Char × Board → Flow (List Char × Board))
    (hx : StepsGood input n x) (hf : ∀ s, StepsGood s.1 (g s.1 s.2) (f s)) :
    StepsGood input (n + x.stepsThen g) (x.bind f) := by
  cases x with
  | next s =>
    have h := hf s
    simp only [StepsGood] at hx
    simp only [Flow.bind, Flow.stepsThen]
    unfold StepsGood at h ⊢
    cases hr : f s with
    | next t => rw [hr] at h; simp only at h ⊢; omega
    | ret code b => rw [hr] at h; simp only at h ⊢; omega
    | fault => rw [hr] at h; simp only at h ⊢; omega
  | ret code b => simpa [StepsGood, Flow.bind, Flow.stepsThen] using hx
  | fault => simpa [StepsGood, Flow.bind, Flow.stepsThen] using hx

/-- The steps of a whitespace loop are added to those of the block behind it. -/
theorem stepsGood_skip (pos : List Char) (n : Nat) (x : Flow (List Char × Board))
    (hx : StepsGood (skipSpace pos) n x) : StepsGood pos (skipSpaceSteps pos + n) x := by
  have h := skipSpaceSteps_add pos
  unfold StepsGood at hx ⊢
  cases x with
  | next s => simp only at hx ⊢; omega
  | ret code b => simp only at hx ⊢; omega
  | fault => simp only at hx ⊢; omega

theorem fieldsFromHalfmove_steps (pos : List Char) (board : Board) :
    StepsGood pos (fieldsFromHalfmoveSteps pos board) (fieldsFromHalfmove pos board) := by
  have h1 := skipSpaceSteps_add pos
  have h2 := parseHalfmove_steps (skipSpace pos) board
  have h3 := skipSpaceSteps_add (parseHalfmove (skipSpace pos) board).1
  simp only [StepsGood, fieldsFromHalfmove, fieldsFromHalfmoveSteps]
  omega

theorem fieldsFromEnPassant_steps (pos : List Char) (board : Board) :
    StepsGood pos (fieldsFromEnPassantSteps pos board) (fieldsFromEnPassant pos board) := by
  unfold fieldsFromEnPassantSteps fieldsFromEnPassant
  rw [Nat.add_assoc]
  exact stepsGood_skip pos _ _ (stepsGood_bind _ _ _ _ _ (parseEnPassant_steps _ board)
    fun s => fieldsFromHalfmove_steps s.1 s.2)

theorem fieldsFromCastling_steps (pos : List Char) (board : Board) :
    StepsGood pos (fieldsFromCastlingSteps pos board) (fieldsFromCastling pos board) := by
  unfold fieldsFromCastlingSteps fieldsFromCastling
  rw [Nat.add_assoc]
  exact stepsGood_skip pos _ _ (stepsGood_bind _ _ _ _ _ (parseCastling_steps _ board)
    fun s => fieldsFromEnPassant_steps s.1 s.2)

theorem fieldsFromPlayerMove_steps (pos : List Char) (board : Board) :
    StepsGood pos (fieldsFromPlayerMoveSteps pos board) (fieldsFromPlayerMove pos board) := by
  unfold fieldsFromPlayerMoveSteps fieldsFromPlayerMove
  rw [Nat.add_assoc]
  exact stepsGood_skip pos _ _ (stepsGood_bind _ _ _ _ _ (parsePlayerMove_steps _ board)
    fun s => fieldsFromCastling_steps s.1 s.2)

theorem parseFenFields_steps (fen : List Char) (board : Board) :
    StepsGood fen (parseFenFieldsSteps fen board) (parseFenFields fen board) := by
  unfold parseFenFieldsSteps parseFenFields
  rw [Nat.add_assoc]
  exact stepsGood_skip fen _ _ (stepsGood_bind _ _ _ _ _
    (parseBoardState_steps _ RANK_8 FILE_A board) fun s => fieldsFromPlayerMove_steps s.1 s.2)

/-- The cursor steps of a run of `ParseFen` are the characters between the start of the
text and the cursor the fullmove-counter block leaves, when that block is reached, and
never more than the characters of the text. -/
theorem ParseFenSteps_spec (fen : List Char) (board : Board) :
    ParseFenSteps fen board ≤ fen.length ∧
    ∀ pos b, parseFenFields fen board = .next (pos, b) →
      ParseFenSteps fen board + (parseFullmove pos b).1.length = fen.length := by
  have h := parseFenFields_steps fen board
  unfold ParseFenSteps
  cases hr : parseFenFields fen board with
  | next s =>
    rw [hr] at h
    simp only [StepsGood] at h
    have h2 := parseFullmove_steps s.1 s.2
    simp only [Flow.stepsThen]
    refine ⟨by omega, ?_⟩
    intro pos b hpb
    injection hpb with hpb
    subst hpb
    simp only at h h2 ⊢
    omega
  | ret code b =>
    rw [hr] at h
    simp only [StepsGood] at h
    simp only [Flow.stepsThen, Nat.add_zero]
    exact ⟨h, fun _ _ hpb => by cases hpb⟩
  | fault =>
    rw [hr] at h
    simp only [StepsGood] at h
    simp only [Flow.stepsThen, Nat.add_zero]
    exact ⟨h, fun _ _ hpb => by cases hpb⟩

/-! ## What holds when the whitespace test leaves the cursor at the start -/
/-- The five places where a well-formed text can end before its last field: after the
layout, the colour, the castling field, the en-passant field, the halfmove clock. The
result is IncompleteFen; PlayerMove, HalfmoveClock and FullmoveCounter keep the caller's
value as long as their field is not reached, and CastlingRights is 0 when the text ends
before the castling field. -/
theorem ParseFen_omitted_fields (ranks : List (List Char)) (colour : Char)
    (castling ep half : List Char) (board : Board)
    (hl : isLayout ranks = true) (hc : isColour colour = true)
    (hk : isCastlingField castling = true) (hep : isEnPassantField ep = true)
    (hh : isNumber half = true) :
    (∃ b, ParseFen (joinRanks ranks) board = some (PARSE_ERROR_INCOMPLETE_FEN, b) ∧
      b.PlayerMove = board.PlayerMove ∧ b.HalfmoveClock = board.HalfmoveClock ∧
      b.FullmoveCounter = board.FullmoveCounter ∧ b.CastlingRights = 0) ∧
    (∃ b, ParseFen (joinRanks ranks ++ [' ', colour]) board =
        some (PARSE_ERROR_INCOMPLETE_FEN, b) ∧
      b.HalfmoveClock = board.HalfmoveClock ∧
      b.FullmoveCounter = board.FullmoveCounter ∧ b.CastlingRights = 0) ∧
    (∃ b, ParseFen (joinRanks ranks ++ ' ' :: colour :: ' ' :: castling) board =
        some (PARSE_ERROR_INCOMPLETE_FEN, b) ∧
      b.HalfmoveClock = board.HalfmoveClock ∧ b.FullmoveCounter = board.FullmoveCounter) ∧
    (∃ b, ParseFen (joinRanks ranks ++ ' ' :: colour :: ' ' :: (castling ++ ' ' :: ep)) board =
        some (PARSE_ERROR_INCOMPLETE_FEN, b) ∧
      b.HalfmoveClock = board.HalfmoveClock ∧ b.FullmoveCounter = board.FullmoveCounter) ∧
    (∃ b, ParseFen (joinRanks ranks ++ ' ' :: colour :: ' ' ::
        (castling ++ ' ' :: (ep ++ ' ' :: half))) board =
        some (PARSE_ERROR_INCOMPLETE_FEN, b) ∧
      b.FullmoveCounter = board.FullmoveCounter) := by
  refine ⟨?_, ?_, ?_, ?_, ?_⟩
  · obtain ⟨b, hsame, _, hb⟩ := parseFenFields_layout ranks [] board hl atFieldEnd_nil
    rw [List.append_nil] at hb
    refine ⟨{ b with CastlingRights := 0 }, ?_, hsame.2.2.2, hsame.1, hsame.2.1, rfl⟩
    rw [ParseFen, hb]
    rfl
  · obtain ⟨b, _, hhm, hfm, hb⟩ := ParseFen_upto_colour ranks colour [] board hl hc
    refine ⟨{ b with CastlingRights := 0 }, ?_, hhm, hfm, rfl⟩
    rw [hb]
    rfl
  · obtain ⟨b, _, _, _, hhm, hfm, hb⟩ := ParseFen_upto_castling ranks colour castling []
      board hl hc hk atFieldEnd_nil
    rw [List.append_nil] at hb
    refine ⟨b, ?_, hhm, hfm⟩
    rw [hb]
    rfl
  · obtain ⟨b, _, _, _, hhm, hfm, hb⟩ := ParseFen_upto_castling ranks colour castling
      (' ' :: ep) board hl hc hk (atFieldEnd_space _)
    obtain ⟨b2, hsame, hb2⟩ := fieldsFromEnPassant_field ep [] b hep
    rw [List.append_nil] at hb2
    refine ⟨b2, ?_, hsame.1.trans hhm, hsame.2.1.trans hfm⟩
    rw [hb, hb2]
    rfl
  · obtain ⟨b, _, _, _, _, hfm, hb⟩ := ParseFen_upto_castling ranks colour castling
      (' ' :: (ep ++ ' ' :: half)) board hl hc hk (atFieldEnd_space _)
    obtain ⟨b2, hsame, hb2⟩ := fieldsFromEnPassant_field ep (' ' :: half) b hep
    have hb3 := fieldsFromHalfmove_number half [] b2 hh atNumberEnd_nil
    rw [List.append_nil] at hb3
    refine ⟨{ b2 with HalfmoveClock := decimalValue half % 128 }, ?_, hsame.2.1.trans hfm⟩
    rw [hb, hb2, hb3]
    rfl
/-- A well-formed token and a fifth character c that is not whitespace, read with a
whitespace test that returns zero at the start of the text: with c one of Q q R r N n B b
the result is Success and bits 2 to 3 of Moves[0] hold the promotion code (Queen 0, Rook
1, Knight 2, Bishop 3), so that with Q or q the codes are those of the token alone; with
any other c the result is SyntaxError and no code is stored. -/
theorem ParseMoveString_promotion (p : Nat → Bool) (sf sr df dr c : Char) (rest : List Char)
    (maxMoves : Nat) (hp : p 0 = false) (hmax : 1 ≤ maxMoves)
    (hsf : sf ∈ fileLetters) (hsr : sr ∈ rankDigits) (hdf : df ∈ fileLetters)
    (hdr : dr ∈ rankDigits) (hc : isspace c = false) :
    (c ∈ promotionLetters → ∃ m codes,
      ParseMoveString p (sf :: sr :: df :: dr :: c :: rest) maxMoves = (0, m :: codes) ∧
      (m >>> 2) &&& 3 = promotionCode c ∧
      ((c = 'Q' ∨ c = 'q') →
        ParseMoveString p [sf, sr, df, dr] maxMoves = (0, m :: codes))) ∧
    (c ∉ promotionLetters →
      ParseMoveString p (sf :: sr :: df :: dr :: c :: rest) maxMoves =
        (PARSE_ERROR_SYNTAX_ERROR, [])) := by
  have hnul := (fileLetter_offset sf hsf).2.2
  have hfifth := movePass_fifth p sf sr df dr c rest hp hsf hsr hdf hdr hc
  have hsflt := (fileLetter_offset sf hsf).2.1
  have hdflt := (fileLetter_offset df hdf).2.1
  have hsrlt : rankIndex sr < 8 := (rankDigit_offset sr hsr).2
  constructor
  · intro hprom
    obtain ⟨hpiece, hlt, hzero⟩ := promotionLetter_facts c hprom
    rw [hpiece] at hfifth
    obtain ⟨hval, hbits⟩ := pack_promotion (fileIndex sf) hsflt (rankIndex sr) hsrlt
      (fileIndex df) hdflt (promotionCode c) hlt
    simp only [hval] at hfifth
    have hres := ParseMoveString_repeat p sf _ _ maxMoves hnul hfifth
    rw [replicate_pos maxMoves _ hmax] at hres
    refine ⟨_, _, hres, hbits, ?_⟩
    intro hq
    have h0 : promotionCode c = 0 := hzero.2 hq
    have htok := ParseMoveString_repeat p sf _ _ maxMoves hnul
      (movePass_token p sf sr df dr [] hp hsf hsr hdf hdr atFieldEnd_nil)
    rw [replicate_pos maxMoves _ hmax] at htok
    rw [htok, h0, Nat.zero_mul, Nat.add_zero]
  · intro hprom
    rw [promotionPiece_none c hprom] at hfifth
    exact ParseMoveString_reject p sf _ maxMoves hnul hmax hfifth
/-- A well-formed token followed by the end of the text or by whitespace, read with a
whitespace test that returns zero at the start of the text: the result is Success and the
first code has the source file in bits 13 to 15, the source rank in bits 10 to 12, the
destination file in bits 7 to 9, and bits 0 to 3 equal to 0. -/
theorem ParseMoveString_packed_fields (p : Nat → Bool) (sf sr df dr : Char) (rest : List Char)
    (maxMoves : Nat) (hp : p 0 = false) (hmax : 1 ≤ maxMoves)
    (hsf : sf ∈ fileLetters) (hsr : sr ∈ rankDigits) (hdf : df ∈ fileLetters)
    (hdr : dr ∈ rankDigits) (hrest : AtFieldEnd rest) :
    ∃ m codes, ParseMoveString p (sf :: sr :: df :: dr :: rest) maxMoves = (0, m :: codes) ∧
      m < 65536 ∧ (m >>> 13) &&& 7 = fileIndex sf ∧ (m >>> 10) &&& 7 = rankIndex sr ∧
      (m >>> 7) &&& 7 = fileIndex df ∧ m &&& 15 = 0 := by
  have hnul := (fileLetter_offset sf hsf).2.2
  have hsflt := (fileLetter_offset sf hsf).2.1
  have hdflt := (fileLetter_offset df hdf).2.1
  have hsrlt : rankIndex sr < 8 := (rankDigit_offset sr hsr).2
  have hres := ParseMoveString_repeat p sf _ _ maxMoves hnul
    (movePass_token p sf sr df dr rest hp hsf hsr hdf hdr hrest)
  rw [replicate_pos maxMoves _ hmax] at hres
  obtain ⟨h13, h10, h7, _, h0⟩ := pack_bits (fileIndex sf) hsflt (rankIndex sr) hsrlt
    (fileIndex df) hdflt
  refine ⟨_, _, hres, ?_, h13, h10, h7, h0⟩
  omega
/-- C1: for every board, file and rank in [0,7] and piece in [0,15], BoardSetSquare
succeeds, BoardGetSquare at the same square then returns the piece, and BoardGetSquare at
every other square of the board (the one sharing the byte included) returns what it
returned before the write. -/
theorem C1_set_then_get (board : Board) (file rank piece : Nat)
    (hf : file ≤ 7) (hr : rank ≤ 7) (hp : piece ≤ 15) :
    ∃ b, BoardSetSquare board file rank piece = some b ∧
      BoardGetSquare b file rank = some piece ∧
      ∀ file1 rank1, file1 ≤ 7 → rank1 ≤ 7 → (file1, rank1) ≠ (file, rank) →
        BoardGetSquare b file1 rank1 = BoardGetSquare board file1 rank1 := by
  exact BoardSetSquare_get board file rank piece hf hr hp

/-- Witness of C1: writing the black king (9) on e8 of a board whose nibbles are all 14;
d8, which shares the byte, keeps its 14. -/
theorem C1_set_then_get_witness :
    (4 ≤ 7 ∧ 7 ≤ 7 ∧ 9 ≤ 15) ∧
    ∃ b, BoardSetSquare busyBoard 4 7 9 = some b ∧
      BoardGetSquare b 4 7 = some 9 ∧
      ∀ file1 rank1, file1 ≤ 7 → rank1 ≤ 7 → (file1, rank1) ≠ (4, 7) →
        BoardGetSquare b file1 rank1 = BoardGetSquare busyBoard file1 rank1 :=
  ⟨by decide, C1_set_then_get busyBoard 4 7 9 (by decide) (by decide) (by decide)⟩

/-- C2: for every board layout of 8 well-formed rank strings joined by slashes, followed
by a well-formed tail (colour, castling field, en-passant field `-`, halfmove and
fullmove numbers, single spaces between them), and for every initial board, ParseFen
returns Success and every square (file, rank) of the board holds the piece code at
position file of the expanded rank string number 7 - rank; the player to move and the
castling rights are those of the text. -/
theorem C2_layout_squares (ranks : List (List Char)) (colour : Char)
    (castling half full : List Char) (board : Board)
    (hl : isLayout ranks = true) (hc : isColour colour = true)
    (hk : isCastlingField castling = true) (hh : isNumber half = true)
    (hf : isNumber full = true) :
    ∃ b, ParseFen (joinRanks ranks ++ fenTail colour castling ['-'] half full) board =
        some (PARSE_SUCCESS, b) ∧
      (∀ file rank, file ≤ 7 → rank ≤ 7 →
        BoardGetSquare b file rank = some (layoutSquare ranks file rank)) ∧
      b.PlayerMove = colourPlayer colour ∧ b.CastlingRights = castlingMask castling := by
  obtain ⟨b, hsq, hb⟩ := ParseFen_complete ranks colour castling half full board hl hc hk hh hf
  exact ⟨_, hb, fun file rank h1 h2 => hsq file rank h1 h2, rfl, rfl⟩

/-- Witness of C2: the starting position, parsed into a board that held other data:
Success, White to move, all four castling rights, the white king on e1 and the black
king on e8. -/
theorem C2_layout_squares_witness :
    (isLayout startRanks = true ∧ isColour 'w' = true ∧
      isCastlingField "KQkq".toList = true ∧ isNumber "0".toList = true ∧
      isNumber "1".toList = true) ∧
    ∃ b, ParseFen "rnbqkbnr/pppppppp/8/8/8/8/PPPPPPPP/RNBQKBNR w KQkq - 0 1".toList busyBoard =
        some (PARSE_SUCCESS, b) ∧
      BoardGetSquare b FILE_E RANK_1 = some BOARD_DATA_WHITE_KING ∧
      BoardGetSquare b FILE_E RANK_8 = some BOARD_DATA_BLACK_KING ∧
      b.PlayerMove = PLAYER_MOVE_WHITE ∧ b.CastlingRights = 15 := by
  refine ⟨by decide, ?_⟩
  obtain ⟨b, hb, hsq, hpm, hcr⟩ := C2_layout_squares startRanks 'w' "KQkq".toList "0".toList
    "1".toList busyBoard (by decide) (by decide) (by decide) (by decide) (by decide)
  exact ⟨b, hb, hsq 4 0 (by decide) (by decide), hsq 4 7 (by decide) (by decide), hpm, hcr⟩

/-- C3: for every text made of a well-formed board layout, a colour, a castling field
and an en-passant target f6 with f in a to h, and nothing after it, ParseFen returns
IncompleteFen (-3); the board has square (f, rank 5) = 15, the other squares of the
layout, the player to move and the castling rights of the text, and the caller's
halfmove clock and fullmove counter. -/
theorem C3_incomplete_keeps_fields (ranks : List (List Char)) (colour f : Char)
    (castling : List Char) (board : Board)
    (hl : isLayout ranks = true) (hc : isColour colour = true)
    (hk : isCastlingField castling = true) (hf : f ∈ fileLetters) :
    ∃ b, ParseFen (joinRanks ranks ++ ' ' :: colour :: ' ' :: (castling ++ [' ', f, '6']))
        board = some (PARSE_ERROR_INCOMPLETE_FEN, b) ∧
      BoardGetSquare b (fileIndex f) RANK_5 = some BOARD_DATA_BLACK_PAWN_EP_CAPTURABLE ∧
      (∀ file rank, file ≤ 7 → rank ≤ 7 → (file, rank) ≠ (fileIndex f, RANK_5) →
        BoardGetSquare b file rank = some (layoutSquare ranks file rank)) ∧
      b.PlayerMove = colourPlayer colour ∧ b.CastlingRights = castlingMask castling ∧
      b.HalfmoveClock = board.HalfmoveClock ∧ b.FullmoveCounter = board.FullmoveCounter := by
  obtain ⟨b1, hsq, hpm, hcr, hhm, hfm, hb1⟩ := ParseFen_upto_castling ranks colour castling
    [' ', f, '6'] board hl hc hk (atFieldEnd_space _)
  have hfi := fileIndex_le f hf
  obtain ⟨b, hset, hget, hother⟩ := BoardSetSquare_get b1 (fileIndex f) RANK_5
    BOARD_DATA_BLACK_PAWN_EP_CAPTURABLE hfi (by decide) (by decide)
  have hsame := BoardSetSquare_fields _ _ _ _ _ hset
  refine ⟨b, ?_, hget, ?_, hsame.2.2.2.trans hpm, hsame.2.2.1.trans hcr, hsame.1.trans hhm,
    hsame.2.1.trans hfm⟩
  · rw [hb1, fieldsFromEnPassant_six f [] b1 b hf hset]
    rfl
  · intro file rank h1 h2 hne
    rw [hother file rank h1 h2 hne, hsq file rank h1 h2]

/-- Witness of C3: the test text that stops after the en-passant target d6. -/
theorem C3_incomplete_keeps_fields_witness :
    (isLayout enPassantRanks = true ∧ isColour 'w' = true ∧
      isCastlingField "KQkq".toList = true ∧ 'd' ∈ fileLetters) ∧
    ∃ b, ParseFen "rnbqkbnr/ppp1pppp/8/3pP3/8/8/PPPP1PPP/RNBQKBNR w KQkq d6".toList busyBoard =
        some (PARSE_ERROR_INCOMPLETE_FEN, b) ∧
      BoardGetSquare b FILE_D RANK_5 = some BOARD_DATA_BLACK_PAWN_EP_CAPTURABLE ∧
      b.PlayerMove = PLAYER_MOVE_WHITE ∧ b.CastlingRights = 15 ∧
      b.HalfmoveClock = 99 ∧ b.FullmoveCounter = 77 := by
  refine ⟨by decide, ?_⟩
  obtain ⟨b, hb, hsq, _, hpm, hcr, hhm, hfm⟩ := C3_incomplete_keeps_fields enPassantRanks 'w' 'd'
    "KQkq".toList busyBoard (by decide) (by decide) (by decide) (by decide)
  exact ⟨b, hb, hsq, hpm, hcr, hhm, hfm⟩

/-- C4: for every text whose layout, colour and castling fields are well formed and
whose en-passant field starts with a file letter f in a to h followed by a character c:
if c is 3 the output board has square (f, rank 4) = 7, if c is 6 it has square
(f, rank 5) = 15, whatever follows; for every other c ParseFen returns SyntaxError; and
it returns SyntaxError when the field starts with a character that is neither a file
letter nor a dash. -/
theorem C4_en_passant_target (ranks : List (List Char)) (colour : Char)
    (castling rest : List Char) (board : Board)
    (hl : isLayout ranks = true) (hc : isColour colour = true)
    (hk : isCastlingField castling = true) :
    (∀ f, f ∈ fileLetters → ∃ code b,
      ParseFen (joinRanks ranks ++ ' ' :: colour :: ' ' :: (castling ++ ' ' :: f :: '3' :: rest))
        board = some (code, b) ∧
      BoardGetSquare b (fileIndex f) RANK_4 = some BOARD_DATA_WHITE_PAWN_EP_CAPTURABLE) ∧
    (∀ f, f ∈ fileLetters → ∃ code b,
      ParseFen (joinRanks ranks ++ ' ' :: colour :: ' ' :: (castling ++ ' ' :: f :: '6' :: rest))
        board = some (code, b) ∧
      BoardGetSquare b (fileIndex f) RANK_5 = some BOARD_DATA_BLACK_PAWN_EP_CAPTURABLE) ∧
    (∀ f c, f ∈ fileLetters → c ≠ '3' → c ≠ '6' → ∃ b,
      ParseFen (joinRanks ranks ++ ' ' :: colour :: ' ' :: (castling ++ ' ' :: f :: c :: rest))
        board = some (PARSE_ERROR_SYNTAX_ERROR, b)) ∧
    (∀ x, x ∉ fileLetters → x ≠ '-' → isspace x = false → ∃ b,
      ParseFen (joinRanks ranks ++ ' ' :: colour :: ' ' :: (castling ++ ' ' :: x :: rest))
        board = some (PARSE_ERROR_SYNTAX_ERROR, b)) := by
  refine ⟨?_, ?_, ?_, ?_⟩
  · intro f hf
    obtain ⟨b1, _, _, _, _, _, hb1⟩ := ParseFen_upto_castling ranks colour castling
      (' ' :: f :: '3' :: rest) board hl hc hk (atFieldEnd_space _)
    obtain ⟨b2, hset, hget, _⟩ := BoardSetSquare_get b1 (fileIndex f) RANK_4
      BOARD_DATA_WHITE_PAWN_EP_CAPTURABLE (fileIndex_le f hf) (by decide) (by decide)
    obtain ⟨code, b, hfin, _, hdata, _, _⟩ := finishFen_fromHalfmove rest b2
    refine ⟨code, b, ?_, ?_⟩
    · rw [hb1, fieldsFromEnPassant_three f rest b1 b2 hf hset, hfin]
    · rw [BoardGetSquare_congr b2 b hdata, hget]
  · intro f hf
    obtain ⟨b1, _, _, _, _, _, hb1⟩ := ParseFen_upto_castling ranks colour castling
      (' ' :: f :: '6' :: rest) board hl hc hk (atFieldEnd_space _)
    obtain ⟨b2, hset, hget, _⟩ := BoardSetSquare_get b1 (fileIndex f) RANK_5
      BOARD_DATA_BLACK_PAWN_EP_CAPTURABLE (fileIndex_le f hf) (by decide) (by decide)
    obtain ⟨code, b, hfin, _, hdata, _, _⟩ := finishFen_fromHalfmove rest b2
    refine ⟨code, b, ?_, ?_⟩
    · rw [hb1, fieldsFromEnPassant_six f rest b1 b2 hf hset, hfin]
    · rw [BoardGetSquare_congr b2 b hdata, hget]
  · intro f c hf h3 h6
    obtain ⟨b1, _, _, _, _, _, hb1⟩ := ParseFen_upto_castling ranks colour castling
      (' ' :: f :: c :: rest) board hl hc hk (atFieldEnd_space _)
    refine ⟨b1, ?_⟩
    rw [hb1, fieldsFromEnPassant, skipSpace_field f _ (fileLetter_facts f hf).1,
      parseEnPassant_other f c rest b1 hf h3 h6]
    rfl
  · intro x hx hdash hsp
    obtain ⟨b1, _, _, _, _, _, hb1⟩ := ParseFen_upto_castling ranks colour castling
      (' ' :: x :: rest) board hl hc hk (atFieldEnd_space _)
    refine ⟨b1, ?_⟩
    rw [hb1, fieldsFromEnPassant, skipSpace_field x _ hsp,
      parseEnPassant_badFile x rest b1 hx hdash]
    rfl

/-- Witness of C4: the test position with the target d6 and the rest of the text " 0 2",
read into a board that held other data: square (d, rank 5) is 15. -/
theorem C4_en_passant_target_witness :
    (isLayout enPassantRanks = true ∧ isColour 'w' = true ∧
      isCastlingField "KQkq".toList = true) ∧
    ∃ code b,
      ParseFen "rnbqkbnr/ppp1pppp/8/3pP3/8/8/PPPP1PPP/RNBQKBNR w KQkq d6 0 2".toList busyBoard =
        some (code, b) ∧
      BoardGetSquare b FILE_D RANK_5 = some BOARD_DATA_BLACK_PAWN_EP_CAPTURABLE :=
  ⟨by decide, (C4_en_passant_target enPassantRanks 'w' "KQkq".toList " 0 2".toList busyBoard
    (by decide) (by decide) (by decide)).2.1 'd' (by decide)⟩

/-- C5 fails on the code for the last rank of the layout, whose width is never checked:
a last rank of 7 files and a last rank of nine piece letters are both parsed with result
Success, where the claim asks for InvalidBoardState; the ninth letter of the last rank
lands on square (a, rank 2). -/
theorem C5_last_rank_unchecked :
    ((expandRank "7".toList).length = 7 ∧
      ∃ b, ParseFen "8/8/8/8/8/8/8/7 w - - 0 1".toList emptyBoard = some (PARSE_SUCCESS, b)) ∧
    ((expandRank "RNBQKBNRR".toList).length = 9 ∧
      ∃ b, ParseFen "rnbqkbnr/pppppppp/8/8/8/8/PPPPPPPP/RNBQKBNRR w KQkq - 0 1".toList
          emptyBoard = some (PARSE_SUCCESS, b) ∧
        BoardGetSquare b FILE_A 1 = some BOARD_DATA_WHITE_ROOK) :=
  ⟨⟨by decide, _, rfl⟩, ⟨by decide, _, rfl, rfl⟩⟩

/-- Counterexample to C6: a text whose halfmove field is the letter x is parsed with
result Success, halfmove clock 0 and fullmove counter 1; the result is not SyntaxError. -/
theorem C6_counterexample :
    (∃ b, ParseFen "8/8/8/8/8/8/8/8 w KQkq - x".toList busyBoard = some (PARSE_SUCCESS, b) ∧
      b.HalfmoveClock = 0 ∧ b.FullmoveCounter = 1) ∧
    ¬ ∃ b, ParseFen "8/8/8/8/8/8/8/8 w KQkq - x".toList busyBoard =
      some (PARSE_ERROR_SYNTAX_ERROR, b) := by
  refine ⟨⟨_, rfl, rfl, rfl⟩, ?_⟩
  rintro ⟨b, hb⟩
  exact absurd (result_code_unique rfl hb) (by decide)

/-- C6 as the code has it: the number fields are not checked. After well-formed layout,
colour, castling and en-passant fields, optional whitespace, a run of digits (possibly
empty), optional whitespace and any character that is not whitespace (not a digit either
when it stands directly behind the run or when the run is empty), ParseFen returns
Success; the halfmove clock is the value of the run modulo 128 and the fullmove counter
the stored value of the digit run that starts at that character (1 when there is none). -/
theorem C6_numbers_unchecked (ranks : List (List Char)) (colour y : Char)
    (castling ep ws run ws2 rest : List Char) (board : Board)
    (hl : isLayout ranks = true) (hc : isColour colour = true)
    (hk : isCastlingField castling = true) (hep : isEnPassantField ep = true)
    (hws : ∀ c ∈ ws, isspace c = true) (hrun : ∀ c ∈ run, isdigit c = true)
    (hws2 : ∀ c ∈ ws2, isspace c = true) (hy : isspace y = false)
    (hmax : run = [] ∨ ws2 = [] → isdigit y = false) :
    ∃ b, ParseFen (joinRanks ranks ++ ' ' :: colour :: ' ' ::
        (castling ++ ' ' :: (ep ++ (ws ++ (run ++ (ws2 ++ y :: rest)))))) board =
        some (PARSE_SUCCESS, b) ∧
      b.HalfmoveClock = decimalValue run % 128 ∧
      b.FullmoveCounter = storedFullmove (decimalValue ((y :: rest).takeWhile isdigit)) := by
  obtain ⟨b1, _, _, _, _, _, hb1⟩ := ParseFen_upto_castling ranks colour castling
    (' ' :: (ep ++ (ws ++ (run ++ (ws2 ++ y :: rest))))) board hl hc hk (atFieldEnd_space _)
  obtain ⟨b2, _, hb2⟩ := fieldsFromEnPassant_field ep (ws ++ (run ++ (ws2 ++ y :: rest))) b1 hep
  refine ⟨{ b2 with
    HalfmoveClock := decimalValue run % 128
    FullmoveCounter := storedFullmove (decimalValue ((y :: rest).takeWhile isdigit)) },
    ?_, rfl, rfl⟩
  rw [hb1, hb2, fieldsFromHalfmove_general ws run ws2 rest y b2 hws hrun hws2 hy hmax]
  simp only [finishFen, parseFullmove_any (y :: rest) _ (List.cons_ne_nil y rest), if_true]

/-- Witness of C6 as amended: the halfmove field 12x behind the target d6. -/
theorem C6_numbers_unchecked_witness :
    (isLayout enPassantRanks = true ∧ isColour 'w' = true ∧
      isCastlingField "KQkq".toList = true ∧ isEnPassantField "d6".toList = true ∧
      isspace 'x' = false ∧ isdigit 'x' = false) ∧
    ∃ b, ParseFen "rnbqkbnr/ppp1pppp/8/3pP3/8/8/PPPP1PPP/RNBQKBNR w KQkq d6 12x".toList
        busyBoard = some (PARSE_SUCCESS, b) ∧
      b.HalfmoveClock = 12 ∧ b.FullmoveCounter = 1 := by
  refine ⟨by decide, ?_⟩
  obtain ⟨b, hb, hh, hf⟩ := C6_numbers_unchecked enPassantRanks 'w' 'x' "KQkq".toList
    "d6".toList " ".toList "12".toList [] [] busyBoard (by decide) (by decide) (by decide)
    (by decide) (by decide) (by decide) (by decide) (by decide) (by decide)
  exact ⟨b, hb, hh, hf⟩

/-- C7: for every text and every initial board, when ParseFen returns Success the
fullmove counter stored lies in [1, 4095]; the fullmove block was entered at a non-empty
suffix of the text, and the counter is the decimal value of the digit run at the start of
that suffix reduced modulo 4096, with 0 replaced by 1. -/
theorem C7_fullmove_counter (fen : List Char) (board b : Board)
    (h : ParseFen fen board = some (PARSE_SUCCESS, b)) :
    (1 ≤ b.FullmoveCounter ∧ b.FullmoveCounter ≤ 4095) ∧
    ∃ pos b1, parseFenFields fen board = .next (pos, b1) ∧ pos <:+ fen ∧ pos ≠ [] ∧
      b.FullmoveCounter =
        (if decimalValue (pos.takeWhile isdigit) % 4096 = 0 then 1
          else decimalValue (pos.takeWhile isdigit) % 4096) := by
  have hgood := parseFenFields_good fen board
  unfold ParseFen at h
  cases hx : parseFenFields fen board with
  | fault => rw [hx] at h; simp [finishFen] at h
  | ret code b2 =>
    rw [hx] at h hgood
    simp only [finishFen, Option.some.injEq, Prod.mk.injEq] at h
    rcases hgood with hc | hc <;> rw [hc] at h <;> exact absurd h.1 (by decide)
  | next s =>
    rw [hx] at h hgood
    obtain ⟨pos, b1⟩ := s
    cases pos with
    | nil =>
      simp only [finishFen, parseFullmove] at h
      exact absurd (Option.some.inj h) (by simp [PARSE_ERROR_INCOMPLETE_FEN, PARSE_SUCCESS])
    | cons c cs =>
      simp only [finishFen, parseFullmove_any (c :: cs) b1 (List.cons_ne_nil c cs), if_true,
        Option.some.injEq, Prod.mk.injEq, true_and] at h
      subst h
      exact ⟨storedFullmove_range _, c :: cs, b1, rfl, hgood, List.cons_ne_nil c cs, rfl⟩

/-- Witness of C7: the fullmove field 4096 is stored as 1. -/
theorem C7_fullmove_counter_witness :
    ∃ b, ParseFen "8/8/8/8/8/8/8/8 w - - 0 4096".toList busyBoard = some (PARSE_SUCCESS, b) ∧
      b.FullmoveCounter = 1 ∧
      ((1 ≤ b.FullmoveCounter ∧ b.FullmoveCounter ≤ 4095) ∧
      ∃ pos b1, parseFenFields "8/8/8/8/8/8/8/8 w - - 0 4096".toList busyBoard =
          .next (pos, b1) ∧
        pos <:+ "8/8/8/8/8/8/8/8 w - - 0 4096".toList ∧ pos ≠ [] ∧
        b.FullmoveCounter =
          (if decimalValue (pos.takeWhile isdigit) % 4096 = 0 then 1
            else decimalValue (pos.takeWhile isdigit) % 4096)) :=
  ⟨_, rfl, rfl, C7_fullmove_counter _ _ _ rfl⟩

/-- C8 fails on the code: the castling block stores 0 in CastlingRights before it tests
whether any text is left (source line 296), where the halfmove-clock and the
fullmove-counter block reset their field inside that test. For the text
`8/8/8/8/8/8/8/8`, a board layout and nothing else, read into a board whose castling
rights are 15, the castling rights are 0 afterwards, where the claim asks for the
caller's 15; the three other fields keep the caller's value. The same holds of every
board the caller hands over, and of the empty text. -/
theorem C8_castling_rights_cleared :
    (∃ b, ParseFen "8/8/8/8/8/8/8/8".toList busyBoard = some (PARSE_ERROR_INCOMPLETE_FEN, b) ∧
      busyBoard.CastlingRights = 15 ∧ b.CastlingRights = 0 ∧
      b.PlayerMove = busyBoard.PlayerMove ∧ b.HalfmoveClock = busyBoard.HalfmoveClock ∧
      b.FullmoveCounter = busyBoard.FullmoveCounter) ∧
    (∀ board : Board, ∃ b,
      ParseFen "8/8/8/8/8/8/8/8".toList board = some (PARSE_ERROR_INCOMPLETE_FEN, b) ∧
      b.CastlingRights = 0 ∧ b.PlayerMove = board.PlayerMove ∧
      b.HalfmoveClock = board.HalfmoveClock ∧ b.FullmoveCounter = board.FullmoveCounter) ∧
    ∀ board : Board,
      ParseFen [] board = some (PARSE_ERROR_INCOMPLETE_FEN, { board with CastlingRights := 0 }) := by
  refine ⟨⟨_, rfl, rfl, rfl, rfl, rfl, rfl⟩, ?_, fun _ => rfl⟩
  intro board
  obtain ⟨b, hb, hpm, hhm, hfm, hcr⟩ := (ParseFen_omitted_fields emptyRanks 'w' ['-'] ['-'] ['0']
    board (by decide) (by decide) (by decide) (by decide) (by decide)).1
  exact ⟨b, hb, hcr, hpm, hhm, hfm⟩

/-- C10 fails on the code: for the token e2e4 (destination rank 4, field value 3) the
first code stored has 4, the source file, in bits 4 to 6, for the store into the
destination-rank field writes `sourceFile << 4`. With a cursor that the whitespace loop
leaves in place the code is 34368; whatever that loop does, bits 4 to 6 are not 3. -/
theorem C10_destination_rank_bits :
    (ParseMoveString noPtrSpace ['e', '2', 'e', '4'] 1 = (0, [34368]) ∧
      (34368 >>> 4) &&& 7 = charOffset 'e' 97 ∧ charOffset 'e' 97 = 4 ∧
      charOffset '4' 49 = 3) ∧
    ∀ ptrIsSpace : Nat → Bool, ∃ move,
      ParseMoveString ptrIsSpace ['e', '2', 'e', '4'] 1 = (0, [move]) ∧
      (move >>> 4) &&& 7 ≠ charOffset '4' 49 := by
  refine ⟨by decide, ?_⟩
  intro p
  have hk : skipPtrSpace p 4 0 = 0 ∨ 1 ≤ skipPtrSpace p 4 0 := by omega
  have hlen : (['e', '2', 'e', '4'] : List Char).length = 4 := rfl
  have hhead : 0 < 4 ∧ (charAt ['e', '2', 'e', '4'] 0).toNat ≠ 0 := by decide
  rcases hk with hk | hk
  · refine ⟨34368, ?_, by decide⟩
    simp only [ParseMoveString, moveLoop, hlen, hhead, and_self, if_true, Nat.sub_zero, hk]
    decide
  · refine ⟨0, ?_, by decide⟩
    have h3 : ¬ (skipPtrSpace p 4 0 + 3 < 4) := by omega
    have h4 : ¬ (skipPtrSpace p 4 0 + 4 < 4) := by omega
    simp [ParseMoveString, moveLoop, hlen, hhead, h3, h4]

/-- C11 fails on the code: the read cursor is not moved past a token, so the first token
is packed again on every pass. For the text of nine tokens and maxMoves = 40 the code
stores 40 codes, all of them the code of e2e4, where the claim asks for exactly 9; and
whatever the whitespace test does, the number of codes stored is never 9. -/
theorem C11_cursor_not_advanced :
    (joinTokens nineTokens = "e2e4 e7e5 g1f3 b8c6 f1b5 a7a6 b5a4 g8f6 e1g1".toList ∧
      nineTokens.length = 9 ∧ nineTokens.all isMoveToken = true) ∧
    ParseMoveString noPtrSpace (joinTokens nineTokens) 40 = (0, List.replicate 40 34368) ∧
    ∀ p : Nat → Bool, (ParseMoveString p (joinTokens nineTokens) 40).2.length ≠ 9 := by
  refine ⟨by decide, by decide, ?_⟩
  intro p
  obtain ⟨code, k, m, h, hk, _⟩ := ParseMoveString_shape p (joinTokens nineTokens) 40
  rw [h]
  simp only [List.length_replicate]
  omega

/-- C12 fails on the code in its second part: the whitespace loop calls `isspace(pos)`
with the pointer (source line 96), a call whose behaviour is undefined. For the text of
nine well-formed tokens and maxMoves = 3 the claim asks for exactly 3 codes and Success.
When the call faults, the run ends in the first pass and nothing is stored or returned;
when it returns non-zero at the start of the text only, the first pass reads `2e4 ` and
the function returns SyntaxError with no code. The first part of the claim holds
whatever the call does: the stores go to the indices 0, 1, 2, ... in this order, one
store each, fewer than maxMoves + 1 of them. -/
theorem C12_capacity_not_filled :
    (joinTokens nineTokens = "e2e4 e7e5 g1f3 b8c6 f1b5 a7a6 b5a4 g8f6 e1g1".toList ∧
      nineTokens.all isMoveToken = true ∧ 3 < nineTokens.length) ∧
    moveRunCall ptrCallFaults (joinTokens nineTokens) 3 4 0 0 [] = some (.faulted []) ∧
    moveRunCall (ptrCallReturns ptrSpaceAtStart) (joinTokens nineTokens) 3 4 0 0 [] =
      some (.returned PARSE_ERROR_SYNTAX_ERROR []) ∧
    ParseMoveString ptrSpaceAtStart (joinTokens nineTokens) 3 = (PARSE_ERROR_SYNTAX_ERROR, []) ∧
    ∀ (ptrCall : Nat → Option Bool) (text : List Char) (maxMoves : Nat), ∃ outcome,
      moveRunCall ptrCall text maxMoves (maxMoves + 1) 0 0 [] = some outcome ∧
      outcome.stores.map Prod.fst = List.range outcome.stores.length ∧
      outcome.stores.length ≤ maxMoves ∧ ∀ s ∈ outcome.stores, s.1 < maxMoves := by
  refine ⟨by decide, rfl, rfl, by decide, ?_⟩
  intro ptrCall text maxMoves
  obtain ⟨outcome, k, h1, h2, h3⟩ := moveRunCall_ends ptrCall text maxMoves maxMoves
    (maxMoves + 1) 0 0 [] (by omega) (by omega)
  simp only [List.map_nil, List.nil_append] at h3
  have hlen : outcome.stores.length = k := by
    have := congrArg List.length h3
    simpa using this
  have hfst : outcome.stores.map Prod.fst = List.range outcome.stores.length := by
    rw [h3, hlen, List.range_eq_range']
  refine ⟨outcome, h1, hfst, by omega, ?_⟩
  intro s hs
  have hmem : s.1 ∈ outcome.stores.map Prod.fst := List.mem_map_of_mem Prod.fst hs
  rw [hfst, List.mem_range] at hmem
  omega

/-- C14 fails on the code: with fewer than four characters left the coordinate block is
skipped and the code 0 is stored. For the text e2e and maxMoves = 1 the result is
Success with the code 0 in Moves[0], whatever the whitespace test does, where the claim
asks for SyntaxError and no code. -/
theorem C14_short_token_stored :
    ∀ p : Nat → Bool, ParseMoveString p ['e', '2', 'e'] 1 = (0, [0]) := by
  intro p
  have hlen : (['e', '2', 'e'] : List Char).length = 3 := rfl
  have hhead : 0 < 3 ∧ (charAt ['e', '2', 'e'] 0).toNat ≠ 0 := by decide
  have h3 : ¬ (skipPtrSpace p 3 0 + 3 < 3) := by omega
  have h4 : ¬ (skipPtrSpace p 3 0 + 4 < 3) := by omega
  simp [ParseMoveString, moveLoop, hlen, hhead, h3, h4]

/-- C15 fails on the code: the whitespace loop calls `isspace(pos)` with the pointer
(source line 96), a call whose behaviour is undefined. For the text e7e8r and
maxMoves = 1 the claim asks for Success with 1, the rook, in bits 2 to 3 of Moves[0].
When the call faults, the run ends in the first pass and nothing is stored or returned;
when it returns non-zero at the start of the text only, the pass reads `7e8r` and the
function returns SyntaxError with no code. In that case e7e8q gives SyntaxError and e7e8
gives Success with the code 0, where the claim asks for the same code. -/
theorem C15_promotion_not_read :
    (('e' ∈ fileLetters ∧ '7' ∈ rankDigits ∧ '8' ∈ rankDigits ∧ isspace 'r' = false ∧
      'r' ∈ promotionLetters ∧ promotionCode 'r' = 1)) ∧
    moveRunCall ptrCallFaults "e7e8r".toList 1 2 0 0 [] = some (.faulted []) ∧
    moveRunCall (ptrCallReturns ptrSpaceAtStart) "e7e8r".toList 1 2 0 0 [] =
      some (.returned PARSE_ERROR_SYNTAX_ERROR []) ∧
    ParseMoveString ptrSpaceAtStart "e7e8r".toList 1 = (PARSE_ERROR_SYNTAX_ERROR, []) ∧
    ParseMoveString ptrSpaceAtStart "e7e8q".toList 1 = (PARSE_ERROR_SYNTAX_ERROR, []) ∧
    ParseMoveString ptrSpaceAtStart "e7e8".toList 1 = (0, [0]) :=
  ⟨by decide, rfl, rfl, by decide, by decide, by decide⟩

/-- C16 fails on the code: the test at the top of the layout loop is `file > 8`, so with
file = 8 a ninth piece letter is still stored. On the first rank parsed this is the call
BoardSetSquare(board, 8, 7, piece) with square index 64 and byte index 32, outside
Data[32], for every initial board; on a lower rank the ninth letter lands on file a of
the rank above: after `8/ppppppppp` square (a, rank 8) holds a black pawn. -/
theorem C16_store_at_file_8 :
    ((RANK_8 * 8 + 8 = 64 ∧ (RANK_8 * 8 + 8) / 2 = 32) ∧
      ∀ board : Board, BoardSetSquare board 8 RANK_8 BOARD_DATA_BLACK_ROOK = none) ∧
    (∀ board : Board, ParseFen "rnbqkbnrr".toList board = none) ∧
    ∃ b, ParseFen "8/ppppppppp".toList emptyBoard = some (PARSE_ERROR_INCOMPLETE_FEN, b) ∧
      BoardGetSquare b FILE_A RANK_8 = some BOARD_DATA_BLACK_PAWN :=
  ⟨⟨by decide, fun _ => rfl⟩, fun _ => rfl, _, rfl, rfl⟩

/-- C17 fails on the code: the whitespace loop calls `isspace(pos)` with the pointer
(source line 96), a call whose behaviour is undefined. For the text e2e4 and
maxMoves = 1 the claim asks for a first code with 4, the file e, in bits 13 to 15 and 1,
the rank 2, in bits 10 to 12. When the call faults, the run ends in the first pass and
no code is stored; when it returns non-zero at the start of the text only, fewer than
four characters are left behind the cursor and the code 0 is stored. When it returns
non-zero at the offsets 0 to 4 of `e2e4 a7a6`, the first code is the code of a7a6, with
0 in bits 13 to 15 and 6 in bits 10 to 12. -/
theorem C17_fields_not_packed :
    (fileIndex 'e' = 4 ∧ rankIndex '2' = 1 ∧ 'e' ∈ fileLetters ∧ '2' ∈ rankDigits ∧
      '4' ∈ rankDigits) ∧
    moveRunCall ptrCallFaults "e2e4".toList 1 2 0 0 [] = some (.faulted []) ∧
    moveRunCall (ptrCallReturns ptrSpaceAtStart) "e2e4".toList 1 2 0 0 [] =
      some (.returned 0 [(0, 0)]) ∧
    (ParseMoveString ptrSpaceAtStart "e2e4".toList 1 = (0, [0]) ∧ (0 >>> 13) &&& 7 = 0 ∧
      (0 >>> 10) &&& 7 = 0) ∧
    ParseMoveString (fun i => decide (i < 5)) "e2e4 a7a6".toList 1 = (0, [6144]) ∧
      (6144 >>> 13) &&& 7 = 0 ∧ (6144 >>> 10) &&& 7 = 6 :=
  ⟨by decide, rfl, rfl, by decide, by decide, by decide, by decide⟩

/-- C18 fails on the code for ParseMoveString: the whitespace loop calls `isspace(pos)`
with the pointer (source line 96), a call whose behaviour is undefined. When the call
faults, the first pass of a run on a text whose first character is not NUL neither
returns an error nor produces a code, and the function does not return: so for e2e4
with maxMoves = 1, and for every such text and every maxMoves of 1 or more. What holds
of the claim: whatever the calls do, no run loops, for with maxMoves + 1 loop tests or
more it ends, by a return or by a fault, after at most maxMoves stores, although the
cursor is not moved past a token; when every call returns, the function returns the
result of ParseMoveString; and a run of ParseFen, every `++pos` and `pos += 2` being
counted, makes at most fenLength cursor steps, whichever way it ends. -/
theorem C18_first_pass_faults :
    moveRunCall ptrCallFaults "e2e4".toList 1 2 0 0 [] = some (.faulted []) ∧
    (∀ (c : Char) (cs : List Char) (maxMoves extra : Nat),
      moveRunCall ptrCallFaults (c :: cs) (maxMoves + 1) (maxMoves + extra + 2) 0 0 [] =
        if c.toNat = 0 then some (.returned 0 []) else some (.faulted [])) ∧
    (∀ (ptrCall : Nat → Option Bool) (text : List Char) (maxMoves extra : Nat), ∃ outcome,
      moveRunCall ptrCall text maxMoves (maxMoves + 1 + extra) 0 0 [] = some outcome ∧
      outcome.stores.length ≤ maxMoves ∧
      outcome.stores.map Prod.fst = List.range outcome.stores.length) ∧
    (∀ (p : Nat → Bool) (text : List Char) (maxMoves extra : Nat), ∃ log,
      moveRunCall (ptrCallReturns p) text maxMoves (maxMoves + 1 + extra) 0 0 [] =
        some (.returned (ParseMoveString p text maxMoves).1 log) ∧
      log.map Prod.snd = (ParseMoveString p text maxMoves).2 ∧ log.length ≤ maxMoves) ∧
    ∀ (fen : List Char) (board : Board), ParseFenSteps fen board ≤ fen.length := by
  refine ⟨rfl, ?_, ?_, ?_, fun fen board => (ParseFenSteps_spec fen board).1⟩
  · intro c cs maxMoves extra
    by_cases hnul : c.toNat = 0
    · rw [if_pos hnul]
      exact moveRunCall_nothing ptrCallFaults (c :: cs) (maxMoves + 1) (maxMoves + extra + 1)
        (fun hh => hh.2.1 hnul)
    · rw [if_neg hnul]
      exact moveRunCall_fault ptrCallFaults c cs (maxMoves + 1) (maxMoves + extra + 1) rfl hnul
        (by omega)
  · intro ptrCall text maxMoves extra
    obtain ⟨outcome, k, h1, h2, h3⟩ := moveRunCall_ends ptrCall text maxMoves maxMoves
      (maxMoves + 1 + extra) 0 0 [] (by omega) (by omega)
    simp only [List.map_nil, List.nil_append] at h3
    have hlen : outcome.stores.length = k := by
      have := congrArg List.length h3
      simpa using this
    refine ⟨outcome, h1, by omega, ?_⟩
    rw [h3, hlen, List.range_eq_range']
  · intro p text maxMoves extra
    obtain ⟨log, h1, h2, h3⟩ := moveRun_returns p text maxMoves (maxMoves + 1 + extra)
      (by omega)
    refine ⟨log, ?_, h2, h3⟩
    rw [moveRunCall_returns, h1]
    rfl

/-- C19: for every text that is well formed up to the en-passant field and whose
halfmove clock is a non-empty run of digits of decimal value v, followed by the end of
the text or by a character that is not a digit, the halfmove clock stored is v mod 128,
and v itself when v is at most 127. -/
theorem C19_halfmove_clock (ranks : List (List Char)) (colour : Char)
    (castling ep half rest : List Char) (board : Board)
    (hl : isLayout ranks = true) (hc : isColour colour = true)
    (hk : isCastlingField castling = true) (hep : isEnPassantField ep = true)
    (hh : isNumber half = true) (hrest : AtNumberEnd rest) :
    ∃ code b, ParseFen (joinRanks ranks ++ ' ' :: colour :: ' ' ::
        (castling ++ ' ' :: (ep ++ ' ' :: (half ++ rest)))) board = some (code, b) ∧
      b.HalfmoveClock = decimalValue half % 128 ∧
      (decimalValue half ≤ 127 → b.HalfmoveClock = decimalValue half) := by
  obtain ⟨code, b, hb, hclock⟩ := ParseFen_halfmove ranks colour castling ep half rest board
    hl hc hk hep hh hrest
  refine ⟨code, b, hb, hclock, ?_⟩
  intro hv
  rw [hclock]
  exact Nat.mod_eq_of_lt (by omega)

/-- Witness of C19: the halfmove clocks 300 (stored as 44) and 127 (stored as 127). -/
theorem C19_halfmove_clock_witness :
    (isLayout startRanks = true ∧ isColour 'w' = true ∧
      isCastlingField "KQkq".toList = true ∧ isEnPassantField "-".toList = true ∧
      isNumber "300".toList = true ∧ isNumber "127".toList = true) ∧
    (∃ code b, ParseFen "rnbqkbnr/pppppppp/8/8/8/8/PPPPPPPP/RNBQKBNR w KQkq - 300 1".toList
        busyBoard = some (code, b) ∧ b.HalfmoveClock = 44) ∧
    ∃ code b, ParseFen "rnbqkbnr/pppppppp/8/8/8/8/PPPPPPPP/RNBQKBNR w KQkq - 127 1".toList
        busyBoard = some (code, b) ∧ b.HalfmoveClock = 127 := by
  refine ⟨by decide, ?_, ?_⟩
  · obtain ⟨code, b, hb, h1, _⟩ := C19_halfmove_clock startRanks 'w' "KQkq".toList "-".toList
      "300".toList " 1".toList busyBoard (by decide) (by decide) (by decide) (by decide)
      (by decide) (atNumberEnd_space _)
    exact ⟨code, b, hb, h1⟩
  · obtain ⟨code, b, hb, _, h2⟩ := C19_halfmove_clock startRanks 'w' "KQkq".toList "-".toList
      "127".toList " 1".toList busyBoard (by decide) (by decide) (by decide) (by decide)
      (by decide) (atNumberEnd_space _)
    exact ⟨code, b, hb, h2 (by decide)⟩

/-- C20: for every text whose fields are joined by single spaces and every initial
board, putting any run of whitespace before the text and any non-empty run of
whitespace (space, tab, newline, vertical tab, form feed, carriage return) in the place
of each separating space leaves the result of ParseFen unchanged: the same code and the
same board, or a store outside the board in both. -/
theorem C20_whitespace_runs (fields seps : List (List Char)) (lead : List Char)
    (board : Board) (hlead : ∀ c ∈ lead, isspace c = true)
    (hseps : ∀ sep ∈ seps, sep ≠ [] ∧ ∀ c ∈ sep, isspace c = true) :
    ParseFen (lead ++ joinSpaced fields seps) board = ParseFen (joinTokens fields) board := by
  apply ParseFen_same
  rw [skipSpace_run lead _ hlead]
  exact (joinSpaced_same fields seps hseps).skip

/-- Witness of C20: the starting position with a space and a tab in front and with the
separators tab, two spaces, newline and carriage return, vertical tab, form feed and
space. -/
theorem C20_whitespace_runs_witness :
    ((∀ c ∈ [' ', Char.ofNat 9], isspace c = true) ∧
      ∀ sep ∈ [[Char.ofNat 9], [' ', ' '], [Char.ofNat 10, Char.ofNat 13], [Char.ofNat 11],
          [Char.ofNat 12, ' ']],
        sep ≠ [] ∧ ∀ c ∈ sep, isspace c = true) ∧
    ParseFen ([' ', Char.ofNat 9] ++ joinSpaced
        ["rnbqkbnr/pppppppp/8/8/8/8/PPPPPPPP/RNBQKBNR".toList, "w".toList, "KQkq".toList,
          "-".toList, "0".toList, "1".toList]
        [[Char.ofNat 9], [' ', ' '], [Char.ofNat 10, Char.ofNat 13], [Char.ofNat 11],
          [Char.ofNat 12, ' ']]) busyBoard =
      ParseFen "rnbqkbnr/pppppppp/8/8/8/8/PPPPPPPP/RNBQKBNR w KQkq - 0 1".toList busyBoard :=
  ⟨by decide, C20_whitespace_runs
    ["rnbqkbnr/pppppppp/8/8/8/8/PPPPPPPP/RNBQKBNR".toList, "w".toList, "KQkq".toList,
      "-".toList, "0".toList, "1".toList]
    [[Char.ofNat 9], [' ', ' '], [Char.ofNat 10, Char.ofNat 13], [Char.ofNat 11],
      [Char.ofNat 12, ' ']] [' ', Char.ofNat 9] busyBoard (by decide) (by decide)⟩

end Cpz
